import Mathlib

namespace PrimeCore

/-- Abnormal outcomes of the embedded code. `outOfFuel` is not a JavaScript outcome: it marks a
run whose `while` loops were cut off by the fuel bound of the model. -/
inductive Err
  | outOfFuel
  | rangeError
  | syntaxError
  | attemptsExhausted
  deriving DecidableEq, Repr

deriving instance DecidableEq for Except

/-- The byte stream behind `cryptoProvider.getRandomBytes`: byte number `i` ever handed out. -/
abbrev ByteSource := Nat → Fin 256

/-- The call `cryptoProvider.getRandomBytes(bytes)` made when `pos` bytes have been consumed. -/
def getRandomBytes (src : ByteSource) (pos bytes : Nat) : List (Fin 256) :=
  (List.range bytes).map (fun i => src (pos + i))

/-- The string `x.toString(16).padStart(2, '0')` for one byte `x`. -/
def byteToHex (x : Fin 256) : List Char :=
  List.leftpad 2 '0' (Nat.toDigits 16 x.val)

/-- The provider's `bufferToHex(buf)`: `[...buf].map(x => x.toString(16).padStart(2, '0')).join('')`. -/
def bufferToHex (buf : List (Fin 256)) : List Char :=
  (buf.map byteToHex).flatten

/-- Value of one hexadecimal digit, as `BigInt('0x…')` reads it. -/
def hexDigitValue (c : Char) : Option Nat :=
  if 48 ≤ c.toNat ∧ c.toNat ≤ 57 then some (c.toNat - 48)
  else if 97 ≤ c.toNat ∧ c.toNat ≤ 102 then some (c.toNat - 87)
  else if 65 ≤ c.toNat ∧ c.toNat ≤ 70 then some (c.toNat - 55)
  else none

/-- Left-to-right reading of hexadecimal digits onto an accumulator. -/
def readHex : List Char → Nat → Option Nat
  | [], acc => some acc
  | c :: cs, acc =>
    match hexDigitValue c with
    | some v => readHex cs (acc * 16 + v)
    | none => none

/-- The conversion `BigInt('0x' + hex)`: a SyntaxError when no digit follows the prefix or a character is not a
hexadecimal digit. -/
def bigIntOfHex (hex : List Char) : Except Err Int :=
  if hex = [] then .error .syntaxError
  else
    match readHex hex 0 with
    | some v => .ok (v : Int)
    | none => .error .syntaxError

/-- The string `x.toString(2)` for a BigInt: binary digits, with a leading minus sign when negative. -/
def toString2 (x : Int) : List Char :=
  if x < 0 then '-' :: Nat.toDigits 2 x.natAbs else Nat.toDigits 2 x.toNat

/-- The byte count `Math.ceil(range.toString(2).length / 8)`. -/
def byteLength (range : Int) : Nat :=
  ((toString2 range).length + 7) / 8

/-- The `do … while (rnd > range)` loop of `randomBigIntInRange`; returns `rnd` and the number
of bytes consumed so far. -/
def randomLoop (src : ByteSource) (bytes : Nat) (range : Int) :
    Nat → Nat → Except Err (Int × Nat)
  | 0, _ => .error .outOfFuel
  | fuel + 1, pos =>
    match bigIntOfHex (bufferToHex (getRandomBytes src pos bytes)) with
    | .error e => .error e
    | .ok rnd =>
      if rnd > range then randomLoop src bytes range fuel (pos + bytes)
      else .ok (rnd, pos + bytes)

/-- The method `randomBigIntInRange(min, max)`: the value returned and the number of bytes
consumed. -/
def randomBigIntInRange (fuel : Nat) (src : ByteSource) (pos : Nat) (min max : Int) :
    Except Err (Int × Nat) :=
  let range := max - min
  let bytes := byteLength range
  match randomLoop src bytes range fuel pos with
  | .error e => .error e
  | .ok (rnd, pos1) => .ok (min + rnd, pos1)

/-- The method `generateRandomOddNumber(digitLength)` for an integer `digitLength`; `10n ** BigInt(k)`
throws a RangeError for negative `k`. -/
def generateRandomOddNumber (fuel : Nat) (src : ByteSource) (pos : Nat) (digitLength : Int) :
    Except Err (Int × Nat) :=
  if digitLength - 1 < 0 then .error .rangeError
  else
    let min : Int := 10 ^ (digitLength - 1).toNat
    let max : Int := 10 ^ digitLength.toNat - 1
    match randomBigIntInRange fuel src pos min max with
    | .error e => .error e
    | .ok (candidate, pos1) =>
      .ok (if Int.land candidate 1 = 0 then candidate + 1 else candidate, pos1)

/-- The method `mult64(a, b, mod)`: `a * b % mod` on BigInts (remainder with the sign of the dividend).
Every call in this file is made with `mod ≠ 0`. -/
def mult64 (a b mod : Int) : Int :=
  Int.tmod (a * b) mod

/-- The `while (power)` loop of `modPow`. -/
def modPowLoop (mod : Int) : Nat → Int → Int → Int → Except Err Int
  | 0, _, _, _ => .error .outOfFuel
  | fuel + 1, res, N, power =>
    if power ≠ 0 then
      modPowLoop mod fuel (if Int.land power 1 ≠ 0 then mult64 res N mod else res)
        (mult64 N N mod) (power >>> (1 : Nat))
    else .ok res

/-- The method `modPow(N, power, mod)`; `N % mod` throws a RangeError when `mod` is `0n`. -/
def modPow (fuel : Nat) (N power mod : Int) : Except Err Int :=
  if mod = 0 then .error .rangeError
  else if Int.tmod N mod = 0 ∨ N = 0 then .ok 0
  else if N = 1 ∨ power = 0 then .ok 1
  else modPowLoop mod fuel 1 N power

/-- The loop `while (!(d & 1n)) d >>= 1n, ++s` of `isPrime`; returns `(d, s)`. -/
def factorLoop : Nat → Int → Int → Except Err (Int × Int)
  | 0, _, _ => .error .outOfFuel
  | fuel + 1, d, s =>
    if Int.land d 1 = 0 then factorLoop fuel (d >>> (1 : Nat)) (s + 1)
    else .ok (d, s)

/-- The loop `while (p !== 1n && p !== N - 1n && a % N && i--) p = mult64(p, p, N)`;
returns `(p, i)`. The post-decrement `i--` is evaluated only when the three tests before it
hold; it is truthy when `i` is not `0n` and lowers `i` in either case. -/
def squareLoop (N a : Int) : Nat → Int → Int → Except Err (Int × Int)
  | 0, _, _ => .error .outOfFuel
  | fuel + 1, p, i =>
    if p ≠ 1 ∧ p ≠ N - 1 ∧ Int.tmod a N ≠ 0 then
      if i ≠ 0 then squareLoop N a fuel (mult64 p p N) (i - 1)
      else .ok (p, i - 1)
    else .ok (p, i)

/-- One pass of the body shared by the two `for` loops of `isPrime`, for the base `a`:
`true` when the body executes `return false`. -/
def witnessRefutes (fuel : Nat) (N d s a : Int) : Except Err Bool :=
  match modPow fuel (Int.tmod a N) d N with
  | .error e => .error e
  | .ok p0 =>
    match squareLoop N a fuel p0 s with
    | .error e => .error e
    | .ok (p, i) => .ok (decide (p ≠ N - 1 ∧ i ≠ s))

/-- The fixed bases of the first `for` loop of `isPrime`. -/
def fixedBases : List Int :=
  [2, 325, 9375, 28178, 450775, 9780504, 1795265022]

/-- The first `for` loop of `isPrime` over the bases still to try: `false` when some base
makes `isPrime` return false, `true` when the loop runs to its end. -/
def fixedRounds (fuel : Nat) (N d s : Int) : List Int → Except Err Bool
  | [] => .ok true
  | a :: rest =>
    match witnessRefutes fuel N d s a with
    | .error e => .error e
    | .ok true => .ok false
    | .ok false => fixedRounds fuel N d s rest

/-- The second `for` loop of `isPrime` with `rounds` iterations left: the verdict and the
number of random bytes consumed. -/
def randomRounds (fuel : Nat) (src : ByteSource) (N d s : Int) :
    Nat → Nat → Except Err (Bool × Nat)
  | 0, pos => .ok (true, pos)
  | rounds + 1, pos =>
    match randomBigIntInRange fuel src pos 2 (N - 2) with
    | .error e => .error e
    | .ok (a, pos1) =>
      match witnessRefutes fuel N d s a with
      | .error e => .error e
      | .ok true => .ok (false, pos1)
      | .ok false => randomRounds fuel src N d s rounds pos1

/-- The part of `isPrime(N)` after the first `if`: the factoring of `N - 1` and the two `for`
loops; the verdict and the number of random bytes consumed. -/
def millerRabin (fuel : Nat) (src : ByteSource) (pos : Nat) (N : Int) : Except Err (Bool × Nat) :=
  match factorLoop fuel (N - 1) 0 with
  | .error e => .error e
  | .ok (d, s) =>
    match fixedRounds fuel N d s fixedBases with
    | .error e => .error e
    | .ok false => .ok (false, pos)
    | .ok true => randomRounds fuel src N d s 20 pos

/-- The method `isPrime(N)`: the verdict and the number of random bytes consumed. -/
def isPrime (fuel : Nat) (src : ByteSource) (pos : Nat) (N : Int) : Except Err (Bool × Nat) :=
  if N < 2 ∨ Int.tmod (Int.tmod N 6) 4 ≠ 1 then .ok (decide (Int.lor N 1 = 3), pos)
  else millerRabin fuel src pos N

/-- The candidate of one pass of the `do … while` body of `generatePrimesProgressive`:
`generateRandomOddNumber(digitLength)` followed by `if (!(candidate & 1n)) candidate += 1n`. -/
def sampleCandidate (fuel : Nat) (src : ByteSource) (pos : Nat) (digitLength : Int) :
    Except Err (Int × Nat) :=
  match generateRandomOddNumber fuel src pos digitLength with
  | .error e => .error e
  | .ok (candidate, pos1) =>
    .ok (if Int.land candidate 1 = 0 then candidate + 1 else candidate, pos1)

/-- The negated loop test `!(!this.isPrime(candidate) || primesSet.has(candidate))`: `true`
when the candidate leaves the `do … while` loop. `primesSet.has` is not evaluated (and changes
nothing) when `isPrime` answers false. -/
def acceptsCandidate (fuel : Nat) (src : ByteSource) (primesSet : List Int) (pos : Nat)
    (candidate : Int) : Except Err (Bool × Nat) :=
  match isPrime fuel src pos candidate with
  | .error e => .error e
  | .ok (prime, pos1) => .ok (prime && !primesSet.contains candidate, pos1)

/-- The `do … while` loop of `generatePrimesProgressive` for one target prime, entered with the
counter `attempts`; returns the accepted candidate and the bytes consumed. The awaits on
`yieldStrategy.yield()` suspend the task and change no variable of the search, so they are not
represented. -/
def searchLoop (fuel : Nat) (src : ByteSource) (digitLength : Int) (maxAttempts : Nat)
    (primesSet : List Int) : Nat → Nat → Nat → Except Err (Int × Nat)
  | 0, _, _ => .error .outOfFuel
  | loopFuel + 1, attempts, pos =>
    match sampleCandidate fuel src pos digitLength with
    | .error e => .error e
    | .ok (candidate, pos1) =>
      if attempts + 1 > maxAttempts then .error .attemptsExhausted
      else
        match acceptsCandidate fuel src primesSet pos1 candidate with
        | .error e => .error e
        | .ok (true, pos2) => .ok (candidate, pos2)
        | .ok (false, pos2) =>
          searchLoop fuel src digitLength maxAttempts primesSet loopFuel (attempts + 1) pos2

/-- What a call of `generatePrimesProgressive` leaves behind: the arguments of the calls of
`onPrimeFound`, in call order, and how the call ended (the bytes consumed, or the error
thrown). -/
structure Run where
  reported : List Int
  outcome : Except Err Nat
  deriving DecidableEq

/-- The variables of the outer loop of `generatePrimesProgressive`. -/
structure SearchState where
  primesSet : List Int
  foundCount : Int
  reported : List Int
  pos : Nat
  deriving DecidableEq

/-- The constant `maxAttempts = digitLength > 100 ? 500000 : 10000`. -/
def maxAttempts (digitLength : Int) : Nat :=
  if digitLength > 100 then 500000 else 10000

/-- The state after the body of the outer loop has accepted `candidate`:
`primesSet.add(candidate); foundCount++; onPrimeFound(candidate)`. -/
def SearchState.accept (st : SearchState) (candidate : Int) (pos : Nat) : SearchState :=
  { primesSet := if st.primesSet.contains candidate then st.primesSet
                 else st.primesSet ++ [candidate]
    foundCount := st.foundCount + 1
    reported := st.reported ++ [candidate]
    pos := pos }

/-- The loop `while (foundCount < count)` of `generatePrimesProgressive`. -/
def generateLoop (fuel : Nat) (src : ByteSource) (digitLength count : Int) :
    Nat → SearchState → Run
  | 0, st => ⟨st.reported, .error .outOfFuel⟩
  | loopFuel + 1, st =>
    if st.foundCount < count then
      match searchLoop fuel src digitLength (maxAttempts digitLength) st.primesSet fuel 0 st.pos with
      | .error e => ⟨st.reported, .error e⟩
      | .ok (candidate, pos1) =>
        generateLoop fuel src digitLength count loopFuel (st.accept candidate pos1)
    else ⟨st.reported, .ok st.pos⟩

/-- The method `generatePrimesProgressive(digitLength, count, onPrimeFound, yieldStrategy)` for integer
`digitLength` and `count`, with `onPrimeFound` supplied and its calls recorded. -/
def generatePrimesProgressive (fuel : Nat) (src : ByteSource) (pos : Nat)
    (digitLength count : Int) : Run :=
  generateLoop fuel src digitLength count fuel ⟨[], 0, [], pos⟩

/-- The bytes of a buffer read as one big-endian base-256 numeral: the non-negative integer
that the buffer stands for. -/
def beValue (buf : List (Fin 256)) : Nat :=
  buf.foldl (fun acc b => acc * 256 + b.val) 0

/-- The value of draw number `k` (counted from 0) of a sampling loop that starts when `pos`
bytes have been consumed and draws `bytes` bytes at a time. -/
def drawValue (src : ByteSource) (bytes pos k : Nat) : Int :=
  (beValue (getRandomBytes src (pos + k * bytes) bytes) : Int)

/-- A byte source on which the sampling loop for `range`, drawing `bytes` bytes at a time,
comes to an end wherever it starts: from every position some later draw is not above `range`.
-/
def Productive (src : ByteSource) (bytes : Nat) (range : Int) : Prop :=
  ∀ pos : Nat, ∃ k : Nat, drawValue src bytes pos k ≤ range

/-- The relation `RejectedRun fuel src digitLength primesSet k pos pos1`: starting with `pos` bytes consumed,
the next `k` candidates sampled for one target are each rejected by the loop test (not accepted
by `isPrime`, or already in `primesSet`), which leaves `pos1` bytes consumed. -/
inductive RejectedRun (fuel : Nat) (src : ByteSource) (digitLength : Int)
    (primesSet : List Int) : Nat → Nat → Nat → Prop
  | zero (pos : Nat) : RejectedRun fuel src digitLength primesSet 0 pos pos
  | succ {k pos pos1 pos2 pos3 : Nat} {c : Int}
      (hsample : sampleCandidate fuel src pos digitLength = .ok (c, pos1))
      (hreject : acceptsCandidate fuel src primesSet pos1 c = .ok (false, pos2))
      (hrest : RejectedRun fuel src digitLength primesSet k pos2 pos3) :
      RejectedRun fuel src digitLength primesSet (k + 1) pos pos3

/-- The relation `Reaches fuel src digitLength count pos st`: a call of `generatePrimesProgressive` that
starts with `pos` bytes consumed arrives at the test of its outer loop in state `st`, that is,
at the start of the search for target number `st.foundCount`. -/
inductive Reaches (fuel : Nat) (src : ByteSource) (digitLength count : Int) (pos : Nat) :
    SearchState → Prop
  | start : Reaches fuel src digitLength count pos ⟨[], 0, [], pos⟩
  | step {st : SearchState} {c : Int} {pos1 : Nat}
      (hprev : Reaches fuel src digitLength count pos st)
      (hlt : st.foundCount < count)
      (hfound : searchLoop fuel src digitLength (maxAttempts digitLength) st.primesSet fuel 0
        st.pos = .ok (c, pos1)) :
      Reaches fuel src digitLength count pos (st.accept c pos1)

end PrimeCore

/-! Built-in conversions of the JavaScript platform that the code relies on. JavaScript
strings are lists of characters. -/
namespace Js

/-- The string `x.toString()` of a BigInt: decimal digits, with a leading minus sign when
negative. A Number with an integer value below 10^21 in magnitude prints the same way. -/
def bigIntToString (x : Int) : List Char :=
  if x < 0 then '-' :: Nat.toDigits 10 x.natAbs else Nat.toDigits 10 x.toNat

/-- The characters that `String.prototype.trim` and the BigInt string grammar skip: WhiteSpace
and LineTerminator of ECMAScript. -/
def isWhiteSpace (c : Char) : Bool :=
  c.toNat = 0x09 || c.toNat = 0x0A || c.toNat = 0x0B || c.toNat = 0x0C || c.toNat = 0x0D ||
  c.toNat = 0x20 || c.toNat = 0xA0 || c.toNat = 0x1680 ||
  (0x2000 ≤ c.toNat && c.toNat ≤ 0x200A) ||
  c.toNat = 0x2028 || c.toNat = 0x2029 || c.toNat = 0x202F || c.toNat = 0x205F ||
  c.toNat = 0x3000 || c.toNat = 0xFEFF

/-- The string `s.trim()`. -/
def trim (s : List Char) : List Char :=
  ((s.dropWhile isWhiteSpace).reverse.dropWhile isWhiteSpace).reverse

/-- Value of the digit `c` in the given radix (letters in either case), if it is one. -/
def digitValue (radix : Nat) (c : Char) : Option Nat :=
  let v : Option Nat :=
    if 48 ≤ c.toNat ∧ c.toNat ≤ 57 then some (c.toNat - 48)
    else if 97 ≤ c.toNat ∧ c.toNat ≤ 122 then some (c.toNat - 87)
    else if 65 ≤ c.toNat ∧ c.toNat ≤ 90 then some (c.toNat - 55)
    else none
  match v with
  | some d => if d < radix then some d else none
  | none => none

/-- Left-to-right reading of digits in the given radix onto an accumulator. -/
def readDigits (radix : Nat) : List Char → Nat → Option Nat
  | [], acc => some acc
  | c :: cs, acc =>
    match digitValue radix c with
    | some v => readDigits radix cs (acc * radix + v)
    | none => none

/-- A non-empty run of digits in the given radix. -/
def readNumber (radix : Nat) (ds : List Char) : Option Nat :=
  if ds = [] then none else readDigits radix ds 0

/-- The conversion `BigInt(s)` of a string (StringToBigInt of ECMAScript): surrounding white
space is skipped; the empty string is 0; then either decimal digits with an optional sign, or
unsigned digits after one of the prefixes 0x, 0o, 0b (either case). `none` is a SyntaxError. -/
def stringToBigInt (s : List Char) : Option Int :=
  match trim s with
  | [] => some 0
  | c :: cs =>
    if c = '0' ∧ (cs.head? = some 'x' ∨ cs.head? = some 'X') then
      (readNumber 16 cs.tail).map Int.ofNat
    else if c = '0' ∧ (cs.head? = some 'o' ∨ cs.head? = some 'O') then
      (readNumber 8 cs.tail).map Int.ofNat
    else if c = '0' ∧ (cs.head? = some 'b' ∨ cs.head? = some 'B') then
      (readNumber 2 cs.tail).map Int.ofNat
    else if c = '+' then (readNumber 10 cs).map Int.ofNat
    else if c = '-' then (readNumber 10 cs).map (fun n => - Int.ofNat n)
    else (readNumber 10 (c :: cs)).map Int.ofNat

/-- One character of a string inside `JSON.stringify` (QuoteJSONString of ECMAScript): the
quote, the backslash and the control characters are escaped, every other character stands for
itself. -/
def quoteChar (c : Char) : List Char :=
  if c = '"' then ['\\', '"']
  else if c = '\\' then ['\\', '\\']
  else if c.toNat = 0x08 then ['\\', 'b']
  else if c.toNat = 0x0C then ['\\', 'f']
  else if c.toNat = 0x0A then ['\\', 'n']
  else if c.toNat = 0x0D then ['\\', 'r']
  else if c.toNat = 0x09 then ['\\', 't']
  else if c.toNat < 0x20 then
    ['\\', 'u', '0', '0', Nat.digitChar (c.toNat / 16), Nat.digitChar (c.toNat % 16)]
  else [c]

/-- A string as `JSON.stringify` writes it. -/
def quoteJsonString (s : List Char) : List Char :=
  '"' :: (s.map quoteChar).flatten ++ ['"']

/-- A value returned by `JSON.parse`. A number keeps the text of its literal; an object keeps
its own properties, each key once. -/
inductive Json
  | null
  | bool (b : Bool)
  | num (literal : List Char)
  | str (s : List Char)
  | arr (items : List Json)
  | obj (fields : List (List Char × Json))

/-- The property access `data.key`: `none` is the TypeError of reading a property of `null`,
`some none` is `undefined`. -/
def Json.get (data : Json) (key : List Char) : Option (Option Json) :=
  match data with
  | .null => none
  | .obj fields => some (fields.lookup key)
  | _ => some none

/-- The test `v === s` of a property value against a string. -/
def isString (v : Option Json) (s : List Char) : Bool :=
  match v with
  | some (.str t) => t = s
  | _ => false

/-- The built-ins of the platform that are taken as given: `JSON.parse` (`none` when it
throws a SyntaxError) and the conversion `BigInt(v)` of a parsed number, array or object
(`none` when it throws). -/
structure Platform where
  jsonParse : List Char → Option Json
  bigIntOfObject : Json → Option Int

/-- A platform whose `JSON.parse` is given by a finite table of texts and the values they
parse to (every other text is a SyntaxError): enough to run the code on a given stream. -/
def tablePlatform (table : List (List Char × Json)) : Platform :=
  ⟨fun text => table.lookup text, fun _ => none⟩

/-- The conversion `BigInt(v)` of a property value: `undefined` and `null` throw a TypeError,
a boolean gives 0 or 1, a string is read by `stringToBigInt`. `none` when it throws. -/
def toBigInt (pf : Platform) (v : Option Json) : Option Int :=
  match v with
  | none => none
  | some .null => none
  | some (.bool b) => some (if b then 1 else 0)
  | some (.str s) => stringToBigInt s
  | some other => pf.bigIntOfObject other

/-- The three shapes of message that the worker posts and the server streams. -/
inductive Message
  | prime (prime : List Char)
  | complete
  | error (error : List Char)
  deriving DecidableEq, Repr

/-- The text `JSON.stringify(message)` for the three message objects of the code. -/
def jsonStringify (m : Message) : List Char :=
  match m with
  | .prime p => "\x7b\"type\":\"prime\",\"prime\":".toList ++ quoteJsonString p ++ ['\x7d']
  | .complete => "\x7b\"type\":\"complete\"\x7d".toList
  | .error e => "\x7b\"type\":\"error\",\"error\":".toList ++ quoteJsonString e ++ ['\x7d']

/-- The object that a message stands for, as `JSON.parse` returns it. -/
def Message.toJson (m : Message) : Json :=
  match m with
  | .prime p => .obj [("type".toList, .str "prime".toList), ("prime".toList, .str p)]
  | .complete => .obj [("type".toList, .str "complete".toList)]
  | .error e => .obj [("type".toList, .str "error".toList), ("error".toList, .str e)]

/-- The pieces of `s.split('\n')`: the text between consecutive line feeds, the last piece
being what follows the last line feed. -/
def splitNewline : List Char → List (List Char)
  | [] => [[]]
  | c :: cs =>
    if c = '\n' then [] :: splitNewline cs
    else
      match splitNewline cs with
      | [] => [[c]]
      | piece :: pieces => (c :: piece) :: pieces

end Js

namespace PrimeClient

/-- How one call of a generator ended for its caller: the arguments of its calls of
`onPrimeFound`, in order, and whether the promise resolved or rejected (with which error
message). -/
structure Attempt where
  delivered : List Int
  outcome : Except (List Char) Unit
  deriving DecidableEq

end PrimeClient

namespace PrimeServerAPI
open Js PrimeClient

/-- What the body of the `try` around one line ends with when it throws. -/
inductive Thrown
  | syntaxError
  | typeError
  | bigIntError
  | serverError (error : Option Json)

/-- The body of the inner `try` of `generatePrimesProgressive` for one line: the argument of
the call of `onPrimeFound`, if one is made, or what is thrown. `onPrimeFound` is taken to be
supplied. -/
def lineBody (pf : Platform) (line : List Char) : Except Thrown (Option Int) :=
  match pf.jsonParse line with
  | none => .error .syntaxError
  | some data =>
    match data.get "type".toList with
    | none => .error .typeError
    | some type =>
      if isString type "prime".toList then
        match toBigInt pf ((data.get "prime".toList).getD none) with
        | none => .error .bigIntError
        | some prime => .ok (some prime)
      else if isString type "error".toList then
        .error (.serverError ((data.get "error".toList).getD none))
      else .ok none

/-- The body of the `for` loop for one line: blank lines are skipped, and whatever the `try`
body throws is caught by `catch (parseError)`, logged, and not thrown again. -/
def processLine (pf : Platform) (line : List Char) : Option Int :=
  if trim line = [] then none
  else
    match lineBody pf line with
    | .ok reported => reported
    | .error _ => none

/-- The variables of the read loop: the text kept in `buffer` and the arguments of the calls
of `onPrimeFound` so far. -/
structure ReadState where
  buffer : List Char
  reported : List Int
  deriving DecidableEq

/-- One pass of the read loop for a decoded chunk: `buffer += chunk`, `lines = buffer.split`,
`buffer = lines.pop()`, then the `for` loop over the remaining lines. -/
def readChunk (pf : Platform) (st : ReadState) (chunk : List Char) : ReadState :=
  let pieces := splitNewline (st.buffer ++ chunk)
  { buffer := pieces.getLastD []
    reported := st.reported ++ pieces.dropLast.filterMap (processLine pf) }

/-- What `fetch` and the reads of the response body give: either `fetch` rejects, or a
response arrives whose body delivers the decoded text chunks in order and then either ends
(`done`) or fails (`reader.read()` rejects). -/
inductive Fetched
  | rejected (error : List Char)
  | response (ok : Bool) (status : Nat) (chunks : List (List Char))
      (readFailure : Option (List Char))

/-- The method `PrimeServerAPI.generatePrimesProgressive(digitLength, count, onPrimeFound)`,
given what the request fetched. An error that reaches the outer `catch` is thrown again. -/
def generatePrimesProgressive (pf : Platform) (fetched : Fetched) : Attempt :=
  match fetched with
  | .rejected error => ⟨[], .error error⟩
  | .response ok status chunks readFailure =>
    if !ok then ⟨[], .error ("Server error: ".toList ++ Nat.toDigits 10 status)⟩
    else
      let st := chunks.foldl (readChunk pf) ⟨[], []⟩
      match readFailure with
      | none => ⟨st.reported, .ok ()⟩
      | some error => ⟨st.reported, .error error⟩

end PrimeServerAPI

namespace Server
open Js PrimeCore

/-- The message of an error caught around the core search: the text built by the `throw` of
`generatePrimesProgressive`, or the engine's own text for an error of the engine. -/
def errorMessage (engineMessage : Err → List Char) (digitLength count : Int) (e : Err) :
    List Char :=
  match e with
  | .attemptsExhausted =>
    "Could not find ".toList ++ bigIntToString count ++ " primes with ".toList ++
      bigIntToString digitLength ++ " digits after ".toList ++
      Nat.toDigits 10 (maxAttempts digitLength) ++ " attempts".toList
  | other => engineMessage other

/-- What the handler of `POST /api/primes` did with `res`: the status, the body sent by
`res.json` if any, the texts passed to `res.write` in order, and whether the search was
started. -/
structure Response where
  status : Nat
  json : Option Message
  written : List (List Char)
  searchStarted : Bool
  deriving DecidableEq

/-- The test `!digitLength || !count || digitLength < 1 || count < 1` for fields that are
integers or missing (`none`, `undefined` in the code). -/
def invalid (digitLength count : Option Int) : Bool :=
  match digitLength, count with
  | some d, some c => d = 0 || c = 0 || d < 1 || c < 1
  | _, _ => true

/-- The line written for one message: `JSON.stringify(message) + '\n'`. -/
def line (m : Message) : List Char :=
  jsonStringify m ++ ['\n']

/-- The handler of `POST /api/primes` for a body whose fields are integers or missing. The
search is the core's, on the server's byte source; a search cut off by the fuel bound of the
model gives `Err.outOfFuel`. -/
def postPrimes (engineMessage : Err → List Char) (fuel : Nat) (src : ByteSource) (pos : Nat)
    (digitLength count : Option Int) : Except Err Response :=
  if invalid digitLength count then
    .ok ⟨400, some (.error "Invalid digitLength or count".toList), [], false⟩
  else
    let d := digitLength.getD 0
    let c := count.getD 0
    let run := PrimeCore.generatePrimesProgressive fuel src pos d c
    let primeLines := run.reported.map (fun p => line (.prime (bigIntToString p)))
    match run.outcome with
    | .ok _ => .ok ⟨200, none, primeLines ++ [line .complete], true⟩
    | .error .outOfFuel => .error .outOfFuel
    | .error e => .ok ⟨200, none, primeLines ++ [line (.error (errorMessage engineMessage d c e))],
        true⟩

end Server

namespace PrimeGeneratorWorker
open Js PrimeCore

/-- The method `PrimeGeneratorWorker.generatePrimes(digitLength, count)`: the messages posted
to the main thread, in order. A search cut off by the fuel bound of the model gives
`Err.outOfFuel`. -/
def generatePrimes (engineMessage : Err → List Char) (fuel : Nat) (src : ByteSource)
    (pos : Nat) (digitLength count : Int) : Except Err (List Message) :=
  let run := PrimeCore.generatePrimesProgressive fuel src pos digitLength count
  let primes := run.reported.map (fun p => Message.prime (bigIntToString p))
  match run.outcome with
  | .ok _ => .ok (primes ++ [.complete])
  | .error .outOfFuel => .error .outOfFuel
  | .error e => .ok (primes ++ [.error (Server.errorMessage engineMessage digitLength count e)])

end PrimeGeneratorWorker

namespace PrimeGenerator
open Js

/-- The state of one call of `generatePrimesProgressiveWorker`: the arguments of the calls of
`onPrimeFound`, how the promise settled if it has, whether `messageHandler` is still
registered, and the flag `workerBusy`. -/
structure WorkerCall where
  reported : List Int
  settled : Option (Except (List Char) Unit)
  listening : Bool
  workerBusy : Bool
  deriving DecidableEq

/-- The state right after `generatePrimesProgressiveWorker` has posted its request. -/
def WorkerCall.start : WorkerCall :=
  ⟨[], none, true, true⟩

/-- The function `messageHandler` for one message from the worker. It no longer runs once it
has been removed; a `BigInt(prime)` that throws ends the handler with nothing changed.
`onPrimeFound` is taken to be supplied. -/
def messageHandler (st : WorkerCall) (m : Message) : WorkerCall :=
  if !st.listening then st
  else
    match m with
    | .prime prime =>
      match stringToBigInt prime with
      | some p => { st with reported := st.reported ++ [p] }
      | none => st
    | .complete => { st with listening := false, workerBusy := false, settled := some (.ok ()) }
    | .error error =>
      { st with listening := false, workerBusy := false, settled := some (.error error) }

/-- The call `generatePrimesProgressiveWorker(digitLength, count, onPrimeFound)` once the
worker's messages have been delivered in order. -/
def generatePrimesProgressiveWorker (messages : List Message) : WorkerCall :=
  messages.foldl messageHandler WorkerCall.start

end PrimeGenerator

namespace PrimeGenerator
open Js PrimeCore PrimeClient

/-- The method `generatePrimesProgressiveMainThread(digitLength, count, onPrimeFound)`: the
core search with the callback of the caller. A search cut off by the fuel bound of the model
gives `Err.outOfFuel`. -/
def generatePrimesProgressiveMainThread (engineMessage : Err → List Char) (fuel : Nat)
    (src : ByteSource) (pos : Nat) (digitLength count : Int) : Except Err Attempt :=
  let run := PrimeCore.generatePrimesProgressive fuel src pos digitLength count
  match run.outcome with
  | .ok _ => .ok ⟨run.reported, .ok ()⟩
  | .error .outOfFuel => .error .outOfFuel
  | .error e => .ok ⟨run.reported, .error (Server.errorMessage engineMessage digitLength count e)⟩

/-- The call of `generatePrimesProgressiveWorker` as its caller sees it once it has settled;
`none` while the promise is pending. -/
def WorkerCall.attempt (st : WorkerCall) : Option Attempt :=
  match st.settled with
  | none => none
  | some outcome => some ⟨st.reported, outcome⟩

end PrimeGenerator

namespace PrimeClient

/-- The method `PrimeClient.selectMode(digitLength, count)`; `mode` is `this.mode` and
`workerDefined` is `typeof Worker !== 'undefined'`. -/
def selectMode (mode : String) (workerDefined : Bool) (digitLength count : Int) : String :=
  if mode ≠ "auto" then mode
  else if digitLength * count > 1000 then "server"
  else if digitLength * count > 200 ∧ workerDefined = true then "worker"
  else "mainthread"

/-- The three generators a `PrimeClient` holds: `serverAPI`, `workerGenerator`,
`mainThreadGenerator`. -/
inductive Substrate
  | server
  | worker
  | mainThread
  deriving DecidableEq, Repr

/-- One call `generator.generatePrimesProgressive(digitLength, count, onPrimeFound)` made by
the client. -/
structure Call (κ : Type) where
  substrate : Substrate
  digitLength : Int
  count : Int
  onPrimeFound : κ

/-- What a call of the client did: the calls it made to its generators, in order, the
arguments with which its callback was called, in order, and how its promise settled. -/
structure ClientRun (κ : Type) where
  calls : List (Call κ)
  delivered : List Int
  outcome : Except (List Char) Unit

/-- The method `generateViaMainThread`; `env` tells how each call to a generator ends. -/
def generateViaMainThread {κ : Type} (env : Call κ → Attempt) (digitLength count : Int)
    (onPrimeFound : κ) : ClientRun κ :=
  let call : Call κ := ⟨.mainThread, digitLength, count, onPrimeFound⟩
  ⟨[call], (env call).delivered, (env call).outcome⟩

/-- The method `generateViaWorker`: the `catch` falls back to the main thread. -/
def generateViaWorker {κ : Type} (env : Call κ → Attempt) (digitLength count : Int)
    (onPrimeFound : κ) : ClientRun κ :=
  let call : Call κ := ⟨.worker, digitLength, count, onPrimeFound⟩
  match (env call).outcome with
  | .ok _ => ⟨[call], (env call).delivered, .ok ()⟩
  | .error _ =>
    let next := generateViaMainThread env digitLength count onPrimeFound
    ⟨call :: next.calls, (env call).delivered ++ next.delivered, next.outcome⟩

/-- The method `generateViaServer`: the `catch` falls back to the worker. -/
def generateViaServer {κ : Type} (env : Call κ → Attempt) (digitLength count : Int)
    (onPrimeFound : κ) : ClientRun κ :=
  let call : Call κ := ⟨.server, digitLength, count, onPrimeFound⟩
  match (env call).outcome with
  | .ok _ => ⟨[call], (env call).delivered, .ok ()⟩
  | .error _ =>
    let next := generateViaWorker env digitLength count onPrimeFound
    ⟨call :: next.calls, (env call).delivered ++ next.delivered, next.outcome⟩

/-- The method `PrimeClient.generatePrimesProgressive(digitLength, count, onPrimeFound)`. -/
def generatePrimesProgressive {κ : Type} (mode : String) (workerDefined : Bool)
    (env : Call κ → Attempt) (digitLength count : Int) (onPrimeFound : κ) : ClientRun κ :=
  let selected := selectMode mode workerDefined digitLength count
  if selected = "server" then generateViaServer env digitLength count onPrimeFound
  else if selected = "worker" then generateViaWorker env digitLength count onPrimeFound
  else generateViaMainThread env digitLength count onPrimeFound

/-- The method `PrimeClient.generatePrimes(digitLength, count)`: the array `primes` that the
callback `(prime) => primes.push(prime)` has filled, when the call resolves. The callback is
the one value of `Unit`. -/
def generatePrimes (mode : String) (workerDefined : Bool) (env : Call Unit → Attempt)
    (digitLength count : Int) : Except (List Char) (List Int) :=
  let run := generatePrimesProgressive mode workerDefined env digitLength count ()
  match run.outcome with
  | .ok _ => .ok run.delivered
  | .error e => .error e

end PrimeClient

namespace PrimeCore

/-- The core's method `generatePrimes(digitLength, count, yieldStrategy)`: the array `primes`
filled by the callback, when the search completes. -/
def generatePrimes (fuel : Nat) (src : ByteSource) (pos : Nat) (digitLength count : Int) :
    Except Err (List Int) :=
  let run := generatePrimesProgressive fuel src pos digitLength count
  match run.outcome with
  | .ok _ => .ok run.reported
  | .error e => .error e

/-- The relation `Sampled fuel src digitLength pos cs pos1`: starting with `pos` bytes
consumed, the candidates sampled one after the other, each with the answer of `isPrime`, are
`cs`, which leaves `pos1` bytes consumed. -/
inductive Sampled (fuel : Nat) (src : ByteSource) (digitLength : Int) :
    Nat → List (Int × Bool) → Nat → Prop
  | nil (pos : Nat) : Sampled fuel src digitLength pos [] pos
  | cons {pos pos1 pos2 pos3 : Nat} {c : Int} {b : Bool} {cs : List (Int × Bool)}
      (hsample : sampleCandidate fuel src pos digitLength = .ok (c, pos1))
      (htest : isPrime fuel src pos1 c = .ok (b, pos2))
      (hrest : Sampled fuel src digitLength pos2 cs pos3) :
      Sampled fuel src digitLength pos ((c, b) :: cs) pos3

/-- The candidates of a sampled sequence that `isPrime` accepted, in order. -/
def accepted (cs : List (Int × Bool)) : List Int :=
  (cs.filter (fun cb => cb.2)).map (fun cb => cb.1)

/-- The values of a list in order, without those already in `seen` and without later repeats
of a value kept. -/
def firstOccurrences : List Int → List Int → List Int
  | _, [] => []
  | seen, x :: xs =>
    if x ∈ seen then firstOccurrences seen xs
    else x :: firstOccurrences (seen ++ [x]) xs

/-- Whether `a` is a strong probable prime base for `n`, where `n - 1 = d * 2^s`: `a` is 0
modulo `n`, or `a^d` is 1 modulo `n`, or `a^(d * 2^r)` is -1 modulo `n` for some `r < s`. -/
def strongProbablePrime (n d s a : Int) : Bool :=
  decide (a % n = 0) || decide (a ^ d.toNat % n = 1) ||
    (List.range s.toNat).any (fun r => decide (a ^ (d.toNat * 2 ^ r) % n = n - 1))

/-- The random rounds of the strong probable prime test with `rounds` bases left to sample:
false at the first sampled base that is not a strong probable prime base. -/
def strongRandomRounds (fuel : Nat) (src : ByteSource) (n d s : Int) :
    Nat → Nat → Except Err (Bool × Nat)
  | 0, pos => .ok (true, pos)
  | rounds + 1, pos =>
    match randomBigIntInRange fuel src pos 2 (n - 2) with
    | .error e => .error e
    | .ok (a, pos1) =>
      if strongProbablePrime n d s a then strongRandomRounds fuel src n d s rounds pos1
      else .ok (false, pos1)

/-- The strong probable prime test over the seven fixed bases and then 20 sampled bases: true
when every base is a strong probable prime base for `n`, false at the first one that is not. -/
def strongProbablePrimeTest (fuel : Nat) (src : ByteSource) (pos : Nat) (n d s : Int) :
    Except Err (Bool × Nat) :=
  if fixedBases.all (strongProbablePrime n d s) then strongRandomRounds fuel src n d s 20 pos
  else .ok (false, pos)

end PrimeCore

namespace Js

/-- The array `xs.slice(start, end)` for integer arguments: a negative argument counts from the
end of the array, and both are clamped to the array. -/
def slice {α : Type} (xs : List α) (start stop : Int) : List α :=
  let len : Int := xs.length
  let first : Int := if start < 0 then max (len + start) 0 else min start len
  let final : Int := if stop < 0 then max (len + stop) 0 else min stop len
  (xs.drop first.toNat).take (final - first).toNat

/-- The value `Math.ceil(a / b)` for integers `a` and `b ≥ 1`: the least integer not below the
quotient. -/
def ceilDiv (a b : Int) : Int :=
  -((-a) / b)

end Js

namespace PaginationController
open Js

/-- The fields of a `PaginationController` that its methods read and write. The field
`onPageChangeCallback` stays `null` unless `onPageChange` is called, and `triggerPageChange`
then does nothing; it is not represented. -/
structure State (α : Type) where
  itemsPerPage : Int
  currentPage : Int
  totalPages : Int
  allItems : List α
  deriving DecidableEq

/-- The constructor `new PaginationController(itemsPerPage)`. -/
def create {α : Type} (itemsPerPage : Int) : State α :=
  ⟨itemsPerPage, 1, 1, []⟩

/-- The method `setItems(items)`. -/
def setItems {α : Type} (st : State α) (items : List α) : State α :=
  let totalPages := ceilDiv items.length st.itemsPerPage
  { st with
    allItems := items
    totalPages := totalPages
    currentPage := if st.currentPage > totalPages then max 1 totalPages else st.currentPage }

/-- The method `addItem(item)`. -/
def addItem {α : Type} (st : State α) (item : α) : State α :=
  { st with
    allItems := st.allItems ++ [item]
    totalPages := ceilDiv (st.allItems ++ [item]).length st.itemsPerPage }

/-- The index `startIdx` of `getCurrentPageItems` and `getCurrentPageItemsWithIndices`. -/
def startIdx {α : Type} (st : State α) : Int :=
  (st.currentPage - 1) * st.itemsPerPage

/-- The index `endIdx` of `getCurrentPageItems` and `getCurrentPageItemsWithIndices`. -/
def endIdx {α : Type} (st : State α) : Int :=
  min (startIdx st + st.itemsPerPage) st.allItems.length

/-- The method `getCurrentPageItems()`. -/
def getCurrentPageItems {α : Type} (st : State α) : List α :=
  slice st.allItems (startIdx st) (endIdx st)

/-- The method `getCurrentPageItemsWithIndices()`: each item with its `globalIndex`. -/
def getCurrentPageItemsWithIndices {α : Type} (st : State α) : List (α × Int) :=
  (slice st.allItems (startIdx st) (endIdx st)).enum.map
    (fun entry => (entry.2, startIdx st + (entry.1 : Int)))

/-- The method `nextPage()`: the state it leaves and the value it returns. -/
def nextPage {α : Type} (st : State α) : State α × Bool :=
  if st.currentPage < st.totalPages then ({ st with currentPage := st.currentPage + 1 }, true)
  else (st, false)

/-- The method `previousPage()`: the state it leaves and the value it returns. -/
def previousPage {α : Type} (st : State α) : State α × Bool :=
  if st.currentPage > 1 then ({ st with currentPage := st.currentPage - 1 }, true)
  else (st, false)

/-- The method `goToPage(pageNumber)` for an integer argument: the state it leaves and the
value it returns. -/
def goToPage {α : Type} (st : State α) (pageNumber : Int) : State α × Bool :=
  if pageNumber ≥ 1 ∧ pageNumber ≤ st.totalPages then ({ st with currentPage := pageNumber }, true)
  else (st, false)

/-- The method `reset()`. -/
def reset {α : Type} (st : State α) : State α :=
  { st with currentPage := 1, totalPages := 1, allItems := [] }

/-- One call of a method that changes a controller. -/
inductive Op (α : Type)
  | setItems (items : List α)
  | addItem (item : α)
  | nextPage
  | previousPage
  | goToPage (pageNumber : Int)
  | reset

/-- The state a call leaves. -/
def Op.apply {α : Type} (st : State α) (op : Op α) : State α :=
  match op with
  | .setItems items => PaginationController.setItems st items
  | .addItem item => PaginationController.addItem st item
  | .nextPage => (PaginationController.nextPage st).1
  | .previousPage => (PaginationController.previousPage st).1
  | .goToPage pageNumber => (PaginationController.goToPage st pageNumber).1
  | .reset => PaginationController.reset st

/-- The state of a controller built with `itemsPerPage` after the given calls, in order. -/
def run {α : Type} (itemsPerPage : Int) (ops : List (Op α)) : State α :=
  ops.foldl Op.apply (create itemsPerPage)

/-- What holds of a controller with `itemsPerPage` items per page between two calls: the
current page lies between 1 and the number of pages (it is 1 when there is none), and the
number of pages is `Math.ceil(allItems.length / itemsPerPage)`, or still the 1 of the
constructor and of `reset` while there is no item. -/
def Inv {α : Type} (itemsPerPage : Int) (st : State α) : Prop :=
  st.itemsPerPage = itemsPerPage ∧ 1 ≤ st.currentPage ∧ st.currentPage ≤ max 1 st.totalPages ∧
  (st.totalPages = ceilDiv st.allItems.length itemsPerPage ∨
    (st.allItems = [] ∧ st.totalPages = 1))

end PaginationController

namespace PrimeGenerator

/-- The fields of a `PrimeGenerator` that decide where a call runs, with the bookkeeping of
what its calls have done: how many calls are suspended at `await this.initWorker()`, how many
`messageHandler`s are registered on the worker, how many 'generate' requests have been posted,
how many terminal messages ('complete' or 'error') the page has received, and how many calls
went to `generatePrimesProgressiveMainThread`. -/
structure Generator where
  useWorker : Bool
  workerDefined : Bool
  worker : Bool
  workerBusy : Bool
  suspended : Nat
  handlers : Nat
  posted : Nat
  terminals : Nat
  mainThread : Nat
  deriving DecidableEq

/-- The constructor `new PrimeGenerator(useWorker)`; `workerDefined` is
`typeof Worker !== 'undefined'`. -/
def Generator.create (useWorker workerDefined : Bool) : Generator :=
  ⟨useWorker, workerDefined, false, false, 0, 0, 0, 0, 0⟩

/-- The posted requests whose terminal message has not been received. -/
def Generator.inFlight (g : Generator) : Nat :=
  g.posted - g.terminals

/-- The method `initWorker()`; it has no `await` inside, so it runs to its end when called. -/
def initWorker (g : Generator) : Generator :=
  if !g.worker && g.useWorker && g.workerDefined then { g with worker := true } else g

/-- What happens on the event loop of the page: a call of `generatePrimesProgressive` runs up
to its `await` (or to the main-thread search), a suspended call is resumed after its `await`,
or a message of the worker is delivered. -/
inductive Event
  | call
  | resume
  | message (m : Js.Message)
  deriving DecidableEq

/-- The method `generatePrimesProgressive` from its start to `await this.initWorker()`, where
the call is suspended, or to the main-thread search when the test
`this.useWorker && !this.workerBusy` fails. -/
def callStart (g : Generator) : Generator :=
  if g.useWorker && !g.workerBusy then
    { initWorker g with suspended := (initWorker g).suspended + 1 }
  else { g with mainThread := g.mainThread + 1 }

/-- The method `generatePrimesProgressive` after its `await`: with a worker it goes on into
`generatePrimesProgressiveWorker`, which sets `workerBusy`, registers its `messageHandler` and
posts the 'generate' request; without one it falls to the main-thread search. -/
def callResume (g : Generator) : Generator :=
  if g.suspended = 0 then g
  else if g.worker then
    { g with
      suspended := g.suspended - 1
      workerBusy := true
      handlers := g.handlers + 1
      posted := g.posted + 1 }
  else { g with suspended := g.suspended - 1, mainThread := g.mainThread + 1 }

/-- The delivery of one message of the worker to the registered `messageHandler`s: a terminal
message makes each of them remove itself and clear `workerBusy`. -/
def deliver (g : Generator) (m : Js.Message) : Generator :=
  match m with
  | .prime _ => g
  | _ =>
    { g with
      terminals := g.terminals + 1
      workerBusy := if g.handlers = 0 then g.workerBusy else false
      handlers := 0 }

/-- The state after one event. -/
def Generator.step (g : Generator) (e : Event) : Generator :=
  match e with
  | .call => callStart g
  | .resume => callResume g
  | .message m => deliver g m

/-- The state of a generator built with `useWorker` after the given events, in order. -/
def Generator.after (useWorker workerDefined : Bool) (events : List Event) : Generator :=
  events.foldl Generator.step (Generator.create useWorker workerDefined)

end PrimeGenerator

namespace PrimeCore

/-- The number of the `256 ^ byteLength range` values that a draw of `byteLength range` bytes
can take which the loop test of `randomBigIntInRange` lets through (`rnd ≤ range`). -/
def acceptedDraws (range : Int) : Nat :=
  ((Finset.range (256 ^ byteLength range)).filter (fun r : Nat => (r : Int) ≤ range)).card

/-- The arguments `(min, max)` of the calls of `randomBigIntInRange` made by the second `for`
loop of `isPrime` with `rounds` iterations left, in call order. -/
def randomRoundsCalls (fuel : Nat) (src : ByteSource) (N d s : Int) :
    Nat → Nat → List (Int × Int)
  | 0, _ => []
  | rounds + 1, pos =>
    (2, N - 2) ::
      match randomBigIntInRange fuel src pos 2 (N - 2) with
      | .error _ => []
      | .ok (a, pos1) =>
        match witnessRefutes fuel N d s a with
        | .ok false => randomRoundsCalls fuel src N d s rounds pos1
        | _ => []

/-- The arguments `(min, max)` of the calls of `randomBigIntInRange` made by `isPrime(N)`, in
call order. -/
def isPrimeCalls (fuel : Nat) (src : ByteSource) (pos : Nat) (N : Int) : List (Int × Int) :=
  if N < 2 ∨ Int.tmod (Int.tmod N 6) 4 ≠ 1 then []
  else
    match factorLoop fuel (N - 1) 0 with
    | .error _ => []
    | .ok (d, s) =>
      match fixedRounds fuel N d s fixedBases with
      | .ok true => randomRoundsCalls fuel src N d s 20 pos
      | _ => []

/-- The arguments `(min, max)` of the calls of `randomBigIntInRange` made by
`generateRandomOddNumber(digitLength)`. -/
def generateRandomOddNumberCalls (digitLength : Int) : List (Int × Int) :=
  if digitLength - 1 < 0 then []
  else [(10 ^ (digitLength - 1).toNat, 10 ^ digitLength.toNat - 1)]

end PrimeCore

namespace PrimeCore


set_option maxRecDepth 100000 in
theorem byteToHex_digits : ∀ b : Fin 256,
    (byteToHex b).map hexDigitValue = [some (b.val / 16), some (b.val % 16)] := by
  decide

theorem readHex_byteToHex (b : Fin 256) (rest : List Char) (acc : Nat) :
    readHex (byteToHex b ++ rest) acc = readHex rest (acc * 256 + b.val) := by
  have h := byteToHex_digits b
  generalize byteToHex b = l at h
  rcases l with _ | ⟨c1, _ | ⟨c2, _ | ⟨c3, l⟩⟩⟩ <;> simp at h
  simp only [List.cons_append, List.nil_append, readHex, h.1, h.2]
  congr 1
  omega

theorem byteToHex_ne_nil (b : Fin 256) : byteToHex b ≠ [] := by
  intro hb
  have h := byteToHex_digits b
  rw [hb] at h
  simp at h

theorem readHex_bufferToHex (buf : List (Fin 256)) : ∀ acc : Nat,
    readHex (bufferToHex buf) acc = some (buf.foldl (fun acc b => acc * 256 + b.val) acc) := by
  induction buf with
  | nil => intro acc; rfl
  | cons b bs ih =>
    intro acc
    show readHex (byteToHex b ++ bufferToHex bs) acc = _
    rw [readHex_byteToHex, ih]
    rfl

theorem bigIntOfHex_bufferToHex (buf : List (Fin 256)) (hbuf : buf ≠ []) :
    bigIntOfHex (bufferToHex buf) = .ok (beValue buf : Int) := by
  have hne : bufferToHex buf ≠ [] := by
    rcases buf with _ | ⟨b, bs⟩
    · exact absurd rfl hbuf
    · have hb := byteToHex_ne_nil b
      show byteToHex b ++ bufferToHex bs ≠ []
      simp [hb]
  unfold bigIntOfHex
  rw [if_neg hne, readHex_bufferToHex]
  rfl

theorem getRandomBytes_length (src : ByteSource) (pos bytes : Nat) :
    (getRandomBytes src pos bytes).length = bytes := by
  simp [getRandomBytes]

theorem byteLength_pos (range : Int) : 1 ≤ byteLength range := by
  unfold byteLength toString2
  have h : ∀ n : Nat, 1 ≤ (Nat.toDigits 2 n).length := by
    intro n
    unfold Nat.toDigits
    rw [Nat.toDigitsCore]
    split
    · simp
    · rw [Nat.toDigitsCore_lens_eq]; omega
  split
  · simp only [List.length_cons]; omega
  · have := h range.toNat; omega


theorem land_one_natCast (n : Nat) : Int.land (n : Int) 1 = ((n % 2 : Nat) : Int) := by
  show Int.land (Int.ofNat n) (Int.ofNat 1) = _
  simp only [Int.land]
  rw [Nat.and_one_is_mod]

theorem land_one_eq_emod (x : Int) : Int.land x 1 = x % 2 := by
  cases x with
  | ofNat n => 
    rw [Int.ofNat_eq_coe, land_one_natCast]; omega
  | negSucc m =>
    show Int.land (Int.negSucc m) (Int.ofNat 1) = _
    simp only [Int.land]
    have : Nat.ldiff 1 m = if m % 2 = 0 then 1 else 0 := by
      apply Nat.eq_of_testBit_eq
      intro i
      rw [Nat.testBit_ldiff]
      cases i with
      | zero => 
        split <;> simp [Nat.testBit_zero] <;> omega
      | succ i =>
        split <;> simp [Nat.testBit_succ] 
    rw [this, Int.negSucc_eq]
    by_cases h : m % 2 = 0
    · rw [if_pos h]; omega
    · rw [if_neg h]; omega

theorem mult64_natCast (a b m : Nat) : mult64 (a : Int) (b : Int) (m : Int) = ((a * b % m : Nat) : Int) := by
  unfold mult64
  rw [Int.ofNat_tmod]
  push_cast
  rfl

theorem shiftRight_one_natCast (p : Nat) : ((p : Int) >>> (1 : Nat)) = ((p / 2 : Nat) : Int) := by
  rw [Int.shiftRight_eq_div_pow]
  norm_num

theorem modPowLoop_natCast (m : Nat) : ∀ (fuel p r n : Nat), p < 2 ^ fuel →
    modPowLoop (m : Int) (fuel + 1) (r : Int) (n : Int) (p : Int)
      = .ok (((if p = 0 then r else r * n ^ p % m : Nat)) : Int) := by
  intro fuel
  induction fuel with
  | zero =>
    intro p r n hp
    have hp0 : p = 0 := by simpa using hp
    subst hp0
    simp [modPowLoop]
  | succ f ih =>
    intro p r n hp
    by_cases hp0 : p = 0
    · subst hp0
      simp [modPowLoop]
    · have hpz : (p : Int) ≠ 0 := by exact_mod_cast hp0
      have hhalf : p / 2 < 2 ^ f := by
        rw [pow_succ] at hp
        omega
      rw [modPowLoop, if_pos hpz, land_one_natCast, mult64_natCast, mult64_natCast,
        shiftRight_one_natCast]
      have hcast : (if ((p % 2 : Nat) : Int) ≠ 0 then ((r * n % m : Nat) : Int) else (r : Int))
          = ((if p % 2 = 1 then r * n % m else r : Nat) : Int) := by
        by_cases h : p % 2 = 1
        · simp [h]
        · have h0 : p % 2 = 0 := by omega
          simp [h0]
      rw [hcast, ih _ _ _ hhalf, if_neg hp0]
      congr 2
      have hdecomp : n ^ p = (n * n) ^ (p / 2) * n ^ (p % 2) := by
        rw [← pow_two, ← pow_mul, ← pow_add, Nat.div_add_mod]
      have hmod : (if p % 2 = 1 then r * n % m else r) * (n * n % m) ^ (p / 2)
          ≡ r * n ^ p [MOD m] := by
        rw [hdecomp]
        have h1 : (if p % 2 = 1 then r * n % m else r) ≡ r * n ^ (p % 2) [MOD m] := by
          by_cases h : p % 2 = 1
          · rw [if_pos h, h, pow_one]; exact Nat.mod_modEq _ _
          · have h0 : p % 2 = 0 := by omega
            rw [if_neg h, h0, pow_zero, mul_one]
        have h2 : (n * n % m) ^ (p / 2) ≡ (n * n) ^ (p / 2) [MOD m] :=
          (Nat.mod_modEq _ _).pow _
        calc (if p % 2 = 1 then r * n % m else r) * (n * n % m) ^ (p / 2)
            ≡ (r * n ^ (p % 2)) * (n * n) ^ (p / 2) [MOD m] := h1.mul h2
          _ = r * ((n * n) ^ (p / 2) * n ^ (p % 2)) := by ring
      by_cases hq : p / 2 = 0
      · have hp1 : p = 1 := by omega
        subst hp1
        simp
      · rw [if_neg hq]
        exact hmod

theorem modPow_natCast (b e m fuel : Nat) (hm : 1 ≤ m) (hne : 1 ≤ e ∨ ¬ m ∣ b)
    (hfuel : e < 2 ^ fuel) :
    modPow (fuel + 1) (b : Int) (e : Int) (m : Int) = .ok ((b ^ e % m : Nat) : Int) := by
  have hm0 : (m : Int) ≠ 0 := by exact_mod_cast (by omega : m ≠ 0)
  unfold modPow
  rw [if_neg hm0, ← Int.ofNat_tmod]
  by_cases hdiv : b % m = 0 ∨ b = 0
  · have hdvd : m ∣ b := by
      rcases hdiv with h | h
      · exact Nat.dvd_of_mod_eq_zero h
      · subst h; exact dvd_zero m
    have he : 1 ≤ e := by
      rcases hne with h | h
      · exact h
      · exact absurd hdvd h
    have hcond : ((b % m : Nat) : Int) = 0 ∨ (b : Int) = 0 := by
      rcases hdiv with h | h
      · left; exact_mod_cast h
      · right; exact_mod_cast h
    rw [if_pos hcond]
    have : b ^ e % m = 0 := Nat.mod_eq_zero_of_dvd (dvd_pow hdvd (by omega))
    rw [this]; rfl
  · have hcond : ¬ (((b % m : Nat) : Int) = 0 ∨ (b : Int) = 0) := by
      intro h
      apply hdiv
      rcases h with h | h
      · left; exact_mod_cast h
      · right; exact_mod_cast h
    rw [if_neg hcond]
    have hbm : b % m ≠ 0 := fun h => hdiv (Or.inl h)
    have hm2 : 2 ≤ m := by
      rcases Nat.lt_or_ge m 2 with h | h
      · have : m = 1 := by omega
        subst this
        exact absurd (Nat.mod_one b) hbm
      · exact h
    by_cases h1 : b = 1 ∨ e = 0
    · have hcond1 : (b : Int) = 1 ∨ (e : Int) = 0 := by
        rcases h1 with h | h
        · left; exact_mod_cast h
        · right; exact_mod_cast h
      rw [if_pos hcond1]
      have : b ^ e % m = 1 := by
        rcases h1 with h | h
        · subst h; rw [one_pow]; exact Nat.mod_eq_of_lt hm2
        · subst h; rw [pow_zero]; exact Nat.mod_eq_of_lt hm2
      rw [this]; rfl
    · have hcond1 : ¬ ((b : Int) = 1 ∨ (e : Int) = 0) := by
        intro h
        apply h1
        rcases h with h | h
        · left; exact_mod_cast h
        · right; exact_mod_cast h
      rw [if_neg hcond1]
      have he0 : e ≠ 0 := fun h => h1 (Or.inr h)
      have := modPowLoop_natCast m fuel e 1 b hfuel
      rw [if_neg he0, one_mul] at this
      exact_mod_cast this

/-- C9 (as stated) fails: with exponent 0 and modulus 2 > 1 the guard on the first line of
`modPow` answers 0 for the bases 0 and 4, which 2 divides. -/
theorem modPow_divisible_base_counterexample :
    modPow 8 0 0 2 = .ok 0 ∧ modPow 8 4 0 2 = .ok 0 := by
  decide

/-- C9 (amended): for every modulus m > 1 and every fuel, `modPow a 0 m` is 1 when m does not
divide the base a, and 0 when m divides a (the base 0 included). -/
theorem modPow_zero_exponent (fuel : Nat) (a m : Int) (hm : 1 < m) :
    (¬ m ∣ a → modPow fuel a 0 m = .ok 1) ∧ (m ∣ a → modPow fuel a 0 m = .ok 0) := by
  have hm0 : m ≠ 0 := by omega
  constructor
  · intro hdiv
    have h1 : ¬ (Int.tmod a m = 0 ∨ a = 0) := by
      rintro (h | h)
      · exact hdiv (Int.dvd_of_tmod_eq_zero h)
      · subst h; exact hdiv (dvd_zero m)
    simp [modPow, hm0, h1]
  · intro hdiv
    have h1 : Int.tmod a m = 0 := Int.tmod_eq_zero_of_dvd hdiv
    simp [modPow, hm0, h1]

theorem modPow_zero_exponent_witness :
    (¬ (2 : Int) ∣ 3 → modPow 0 3 0 2 = .ok 1) ∧ ((2 : Int) ∣ 3 → modPow 0 3 0 2 = .ok 0) :=
  modPow_zero_exponent 0 3 2 (by decide)

/-- C10: for base ≥ 0, exponent ≥ 0 and modulus ≥ 1, with exponent ≥ 1 or modulus not dividing
base, the loop of `modPow` exits within `fuel + 1` evaluations of its test as soon as
exponent < 2 ^ fuel, and the value returned is base ^ exponent mod modulus; for base 0 and a
positive exponent this value is 0. -/
theorem modPow_eq_pow_mod (base exponent modulus : Int) (hb : 0 ≤ base) (he : 0 ≤ exponent)
    (hm : 1 ≤ modulus) (hne : 1 ≤ exponent ∨ ¬ modulus ∣ base) :
    (∀ fuel : Nat, exponent < 2 ^ fuel →
      modPow (fuel + 1) base exponent modulus = .ok (base ^ exponent.toNat % modulus)) ∧
    (base = 0 → ∀ fuel : Nat, modPow fuel base exponent modulus = .ok 0) := by
  lift base to ℕ using hb
  lift exponent to ℕ using he
  lift modulus to ℕ using (by omega : 0 ≤ modulus)
  have hm1 : 1 ≤ modulus := by exact_mod_cast hm
  have hne1 : 1 ≤ exponent ∨ ¬ modulus ∣ base := by
    rcases hne with h | h
    · left; exact_mod_cast h
    · right; intro hd; exact h (Int.natCast_dvd_natCast.mpr hd)
  constructor
  · intro fuel hfuel
    have hfuel1 : exponent < 2 ^ fuel := by exact_mod_cast hfuel
    rw [modPow_natCast base exponent modulus fuel hm1 hne1 hfuel1]
    simp
  · intro hb0 fuel
    have hm0 : (modulus : Int) ≠ 0 := by omega
    simp [modPow, hm0, hb0]

theorem modPow_eq_pow_mod_witness :
    (∀ fuel : Nat, (35 : Int) < 2 ^ fuel →
      modPow (fuel + 1) 2 35 561 = .ok ((2 : Int) ^ (35 : Int).toNat % 561)) ∧
    ((2 : Int) = 0 → ∀ fuel : Nat, modPow fuel 2 35 561 = .ok 0) :=
  modPow_eq_pow_mod 2 35 561 (by decide) (by decide) (by decide) (Or.inl (by decide))


theorem drawValue_shift (src : ByteSource) (bytes pos k : Nat) :
    drawValue src bytes (pos + bytes) k = drawValue src bytes pos (k + 1) := by
  unfold drawValue
  have : pos + bytes + k * bytes = pos + (k + 1) * bytes := by ring
  rw [this]

theorem randomLoop_succ (src : ByteSource) (bytes : Nat) (hbytes : 1 ≤ bytes) (range : Int)
    (fuel pos : Nat) :
    randomLoop src bytes range (fuel + 1) pos =
      if drawValue src bytes pos 0 > range then randomLoop src bytes range fuel (pos + bytes)
      else .ok (drawValue src bytes pos 0, pos + bytes) := by
  have hne : getRandomBytes src pos bytes ≠ [] := by
    intro h
    have := getRandomBytes_length src pos bytes
    rw [h] at this
    simp at this
    omega
  rw [randomLoop, bigIntOfHex_bufferToHex _ hne]
  simp [drawValue]

/-- When draw `k` is the first one not above `range`, the loop returns it as soon as the fuel
exceeds `k`. -/
theorem randomLoop_first (src : ByteSource) (bytes : Nat) (hbytes : 1 ≤ bytes) (range : Int) :
    ∀ (k pos fuel : Nat), drawValue src bytes pos k ≤ range →
      (∀ j, j < k → range < drawValue src bytes pos j) → k < fuel →
      randomLoop src bytes range fuel pos
        = .ok (drawValue src bytes pos k, pos + (k + 1) * bytes) := by
  intro k
  induction k with
  | zero =>
    intro pos fuel hk _ hfuel
    obtain ⟨f, rfl⟩ : ∃ f, fuel = f + 1 := ⟨fuel - 1, by omega⟩
    rw [randomLoop_succ src bytes hbytes, if_neg (not_lt.mpr hk)]
    simp
  | succ k ih =>
    intro pos fuel hk hlt hfuel
    obtain ⟨f, rfl⟩ : ∃ f, fuel = f + 1 := ⟨fuel - 1, by omega⟩
    rw [randomLoop_succ src bytes hbytes, if_pos (hlt 0 (Nat.succ_pos k))]
    rw [ih (pos + bytes) f (by rw [drawValue_shift]; exact hk)
      (fun j hj => by rw [drawValue_shift]; exact hlt (j + 1) (by omega)) (by omega)]
    rw [drawValue_shift]
    congr 2
    ring

/-- A value returned by the loop is the first draw not above `range`. -/
theorem randomLoop_ok (src : ByteSource) (bytes : Nat) (hbytes : 1 ≤ bytes) (range : Int) :
    ∀ (fuel pos : Nat) (r : Int) (pos1 : Nat),
      randomLoop src bytes range fuel pos = .ok (r, pos1) →
      ∃ k, k < fuel ∧ r = drawValue src bytes pos k ∧ drawValue src bytes pos k ≤ range ∧
        (∀ j, j < k → range < drawValue src bytes pos j) ∧ pos1 = pos + (k + 1) * bytes := by
  intro fuel
  induction fuel with
  | zero => intro pos r pos1 h; simp [randomLoop] at h
  | succ f ih =>
    intro pos r pos1 h
    rw [randomLoop_succ src bytes hbytes] at h
    by_cases hgt : drawValue src bytes pos 0 > range
    · rw [if_pos hgt] at h
      obtain ⟨k, hk, hr, hle, hfirst, hpos⟩ := ih _ _ _ h
      refine ⟨k + 1, by omega, ?_, ?_, ?_, ?_⟩
      · rw [← drawValue_shift]; exact hr
      · rw [← drawValue_shift]; exact hle
      · intro j hj
        rcases j with _ | j
        · exact hgt
        · rw [← drawValue_shift]; exact hfirst j (by omega)
      · rw [hpos]; ring
    · rw [if_neg hgt] at h
      simp only [Except.ok.injEq, Prod.mk.injEq] at h
      refine ⟨0, by omega, h.1.symm, not_lt.mp hgt, fun j hj => absurd hj (Nat.not_lt_zero j), ?_⟩
      rw [← h.2]; ring

/-- The loop throws nothing: the only abnormal outcome is the fuel bound of the model. -/
theorem randomLoop_error (src : ByteSource) (bytes : Nat) (hbytes : 1 ≤ bytes) (range : Int) :
    ∀ (fuel pos : Nat) (e : Err), randomLoop src bytes range fuel pos = .error e →
      e = .outOfFuel := by
  intro fuel
  induction fuel with
  | zero => intro pos e h; simp [randomLoop] at h; exact h.symm
  | succ f ih =>
    intro pos e h
    rw [randomLoop_succ src bytes hbytes] at h
    by_cases hgt : drawValue src bytes pos 0 > range
    · rw [if_pos hgt] at h; exact ih _ _ h
    · rw [if_neg hgt] at h; cases h

theorem drawValue_nonneg (src : ByteSource) (bytes pos k : Nat) :
    0 ≤ drawValue src bytes pos k := by
  unfold drawValue
  exact Int.natCast_nonneg _

theorem randomBigIntInRange_first (src : ByteSource) (pos : Nat) (min max : Int) (k fuel : Nat)
    (hk : drawValue src (byteLength (max - min)) pos k ≤ max - min)
    (hfirst : ∀ j, j < k → max - min < drawValue src (byteLength (max - min)) pos j)
    (hfuel : k < fuel) :
    randomBigIntInRange fuel src pos min max
      = .ok (min + drawValue src (byteLength (max - min)) pos k,
          pos + (k + 1) * byteLength (max - min)) := by
  unfold randomBigIntInRange
  simp only
  rw [randomLoop_first src _ (byteLength_pos _) _ k pos fuel hk hfirst hfuel]

theorem randomBigIntInRange_ok (src : ByteSource) (pos : Nat) (min max : Int) (fuel : Nat)
    (v : Int) (pos1 : Nat) (h : randomBigIntInRange fuel src pos min max = .ok (v, pos1)) :
    ∃ k, k < fuel ∧ v = min + drawValue src (byteLength (max - min)) pos k ∧
      drawValue src (byteLength (max - min)) pos k ≤ max - min ∧
      (∀ j, j < k → max - min < drawValue src (byteLength (max - min)) pos j) ∧
      pos1 = pos + (k + 1) * byteLength (max - min) := by
  unfold randomBigIntInRange at h
  simp only at h
  cases hloop : randomLoop src (byteLength (max - min)) (max - min) fuel pos with
  | error e => rw [hloop] at h; cases h
  | ok res =>
    obtain ⟨r, p⟩ := res
    rw [hloop] at h
    simp only [Except.ok.injEq, Prod.mk.injEq] at h
    obtain ⟨k, hk, hr, hle, hfirst, hpos⟩ := randomLoop_ok src _ (byteLength_pos _) _ _ _ _ _ hloop
    exact ⟨k, hk, by rw [← h.1, hr], hle, hfirst, by rw [← h.2, hpos]⟩

theorem randomBigIntInRange_error (src : ByteSource) (pos : Nat) (min max : Int) (fuel : Nat)
    (e : Err) (h : randomBigIntInRange fuel src pos min max = .error e) : e = .outOfFuel := by
  unfold randomBigIntInRange at h
  simp only at h
  cases hloop : randomLoop src (byteLength (max - min)) (max - min) fuel pos with
  | error e1 =>
    rw [hloop] at h
    simp only [Except.error.injEq] at h
    rw [← h]
    exact randomLoop_error src _ (byteLength_pos _) _ _ _ _ hloop
  | ok res => rw [hloop] at h; cases h

/-- C4: for min ≤ max, every value returned by `randomBigIntInRange(min, max)` lies in
[min, max] and is min + r for the first drawn byteLength-byte value r with r ≤ max - min; and
whenever the byte source has such a first draw (number k), the call returns min + r as soon as
the fuel exceeds k. -/
theorem randomBigIntInRange_in_range (src : ByteSource) (pos : Nat) (min max : Int)
    (hle : min ≤ max) :
    (∀ (fuel : Nat) (v : Int) (pos1 : Nat),
      randomBigIntInRange fuel src pos min max = .ok (v, pos1) →
      min ≤ v ∧ v ≤ max ∧
      ∃ k, k < fuel ∧ v = min + drawValue src (byteLength (max - min)) pos k ∧
        drawValue src (byteLength (max - min)) pos k ≤ max - min ∧
        (∀ j, j < k → max - min < drawValue src (byteLength (max - min)) pos j) ∧
        pos1 = pos + (k + 1) * byteLength (max - min)) ∧
    (∀ k : Nat, drawValue src (byteLength (max - min)) pos k ≤ max - min →
      (∀ j, j < k → max - min < drawValue src (byteLength (max - min)) pos j) →
      ∀ fuel : Nat, k < fuel →
        randomBigIntInRange fuel src pos min max
          = .ok (min + drawValue src (byteLength (max - min)) pos k,
              pos + (k + 1) * byteLength (max - min))) := by
  have _ := hle
  constructor
  · intro fuel v pos1 h
    obtain ⟨k, hk, hv, hdraw, hfirst, hpos⟩ := randomBigIntInRange_ok src pos min max fuel v pos1 h
    have hnn := drawValue_nonneg src (byteLength (max - min)) pos k
    exact ⟨by omega, by omega, k, hk, hv, hdraw, hfirst, hpos⟩
  · intro k hk hfirst fuel hfuel
    exact randomBigIntInRange_first src pos min max k fuel hk hfirst hfuel

theorem randomBigIntInRange_in_range_witness :
    (∀ (fuel : Nat) (v : Int) (pos1 : Nat),
      randomBigIntInRange fuel (fun _ => 7) 0 2 100 = .ok (v, pos1) →
      2 ≤ v ∧ v ≤ 100 ∧
      ∃ k, k < fuel ∧ v = 2 + drawValue (fun _ => 7) (byteLength (100 - 2)) 0 k ∧
        drawValue (fun _ => 7) (byteLength (100 - 2)) 0 k ≤ 100 - 2 ∧
        (∀ j, j < k → 100 - 2 < drawValue (fun _ => 7) (byteLength (100 - 2)) 0 j) ∧
        pos1 = 0 + (k + 1) * byteLength (100 - 2)) ∧
    (∀ k : Nat, drawValue (fun _ => 7) (byteLength (100 - 2)) 0 k ≤ 100 - 2 →
      (∀ j, j < k → 100 - 2 < drawValue (fun _ => 7) (byteLength (100 - 2)) 0 j) →
      ∀ fuel : Nat, k < fuel →
        randomBigIntInRange fuel (fun _ => 7) 0 2 100
          = .ok (2 + drawValue (fun _ => 7) (byteLength (100 - 2)) 0 k,
              0 + (k + 1) * byteLength (100 - 2))) :=
  randomBigIntInRange_in_range (fun _ => 7) 0 2 100 (by decide)

theorem toDigitsCore_two_lt : ∀ (f n : Nat), n < f →
    n < 2 ^ (Nat.toDigitsCore 2 f n []).length := by
  intro f
  induction f with
  | zero => intro n h; omega
  | succ f ih =>
    intro n h
    rw [Nat.toDigitsCore]
    by_cases h0 : n / 2 = 0
    · simp only [h0, if_true, List.length_singleton, pow_one]
      omega
    · simp only [h0, if_false]
      rw [Nat.toDigitsCore_lens_eq, pow_succ]
      have := ih (n / 2) (by omega)
      omega

theorem toDigits_two_lt (n : Nat) : n < 2 ^ (Nat.toDigits 2 n).length := by
  unfold Nat.toDigits
  exact toDigitsCore_two_lt (n + 1) n (Nat.lt_succ_self n)

/-- The bytes drawn for a non-negative range can represent every value up to the range. -/
theorem lt_pow_byteLength (range : Int) (h : 0 ≤ range) :
    range < 256 ^ byteLength range := by
  lift range to ℕ using h
  have hlen : (toString2 (range : Int)).length = (Nat.toDigits 2 range).length := by
    unfold toString2
    rw [if_neg (by omega)]
    simp
  unfold byteLength
  rw [hlen]
  have h1 := toDigits_two_lt range
  have h2 : 2 ^ (Nat.toDigits 2 range).length ≤ 256 ^ (((Nat.toDigits 2 range).length + 7) / 8) := by
    have : (256 : Nat) = 2 ^ 8 := by norm_num
    rw [this, ← pow_mul]
    apply Nat.pow_le_pow_right (by norm_num)
    omega
  exact_mod_cast lt_of_lt_of_le h1 h2

theorem beValue_concat (buf : List (Fin 256)) (b : Fin 256) :
    beValue (buf ++ [b]) = beValue buf * 256 + b.val := by
  simp [beValue, List.foldl_append]

theorem beValue_lt : ∀ (n : Nat) (buf : List (Fin 256)), buf.length = n →
    beValue buf < 256 ^ n := by
  intro n
  induction n with
  | zero =>
    intro buf h
    rw [List.length_eq_zero] at h
    subst h
    simp [beValue]
  | succ n ih =>
    intro buf h
    rcases List.eq_nil_or_concat buf with hnil | ⟨init, b, rfl⟩
    · subst hnil; simp at h
    · rw [List.concat_eq_append] at h ⊢
      rw [beValue_concat, pow_succ]
      have hlen : init.length = n := by simpa using h
      have := ih init hlen
      have := b.isLt
      omega

theorem beValue_injective : ∀ (n : Nat) (l1 l2 : List (Fin 256)), l1.length = n →
    l2.length = n → beValue l1 = beValue l2 → l1 = l2 := by
  intro n
  induction n with
  | zero =>
    intro l1 l2 h1 h2 _
    rw [List.length_eq_zero] at h1 h2
    rw [h1, h2]
  | succ n ih =>
    intro l1 l2 h1 h2 h
    rcases List.eq_nil_or_concat l1 with hnil | ⟨i1, b1, rfl⟩
    · subst hnil; simp at h1
    rcases List.eq_nil_or_concat l2 with hnil | ⟨i2, b2, rfl⟩
    · subst hnil; simp at h2
    rw [List.concat_eq_append] at h h1 h2 ⊢
    rw [List.concat_eq_append] at h ⊢
    rw [beValue_concat, beValue_concat] at h
    have hb1 := b1.isLt
    have hb2 := b2.isLt
    have hv : beValue i1 = beValue i2 := by omega
    have hb : b1 = b2 := Fin.ext (by omega)
    have hl1 : i1.length = n := by simpa using h1
    have hl2 : i2.length = n := by simpa using h2
    rw [ih i1 i2 hl1 hl2 hv, hb]

theorem beValue_surjective : ∀ (n v : Nat), v < 256 ^ n →
    ∃ buf : List (Fin 256), buf.length = n ∧ beValue buf = v := by
  intro n
  induction n with
  | zero =>
    intro v hv
    refine ⟨[], rfl, ?_⟩
    simp at hv
    simp [beValue, hv]
  | succ n ih =>
    intro v hv
    rw [pow_succ] at hv
    obtain ⟨init, hlen, hval⟩ := ih (v / 256) (by omega)
    refine ⟨init ++ [⟨v % 256, Nat.mod_lt _ (by norm_num)⟩], by simp [hlen], ?_⟩
    rw [beValue_concat, hval]
    simp only
    omega

/-- C5: for min ≤ max the byte strings drawn are long enough for the range
(max - min < 256 ^ byteLength), and every v in [min, max] is the result of exactly one byte
string of that length among those the loop accepts: the draw is uniform over [min, max] when
the bytes are uniform. The byte length is the one of the code,
ceil((max - min).toString(2).length / 8), which is 1 when max = min. -/
theorem randomBigIntInRange_uniform (min max v : Int) (hle : min ≤ max)
    (hv : min ≤ v ∧ v ≤ max) :
    max - min < 256 ^ byteLength (max - min) ∧
    ∃! buf : List (Fin 256), buf.length = byteLength (max - min) ∧
      ∃ rnd : Int, bigIntOfHex (bufferToHex buf) = .ok rnd ∧ ¬ (rnd > max - min) ∧
        min + rnd = v := by
  have hspan := lt_pow_byteLength (max - min) (by omega)
  refine ⟨hspan, ?_⟩
  have hvn : 0 ≤ v - min := by omega
  obtain ⟨r, hr⟩ : ∃ r : Nat, (r : Int) = v - min := ⟨(v - min).toNat, Int.toNat_of_nonneg hvn⟩
  have hrlt : r < 256 ^ byteLength (max - min) := by
    have : (r : Int) < 256 ^ byteLength (max - min) := by omega
    exact_mod_cast this
  obtain ⟨buf, hlen, hval⟩ := beValue_surjective _ r hrlt
  have hpos := byteLength_pos (max - min)
  have hne : ∀ b : List (Fin 256), b.length = byteLength (max - min) → b ≠ [] := by
    intro b hb hnil
    rw [hnil] at hb
    simp at hb
    omega
  refine ⟨buf, ⟨hlen, (r : Int), ?_, by omega, by omega⟩, ?_⟩
  · rw [bigIntOfHex_bufferToHex buf (hne buf hlen), hval]
  · rintro buf2 ⟨hlen2, rnd, hrnd, _, hsum⟩
    rw [bigIntOfHex_bufferToHex buf2 (hne buf2 hlen2)] at hrnd
    simp only [Except.ok.injEq] at hrnd
    apply beValue_injective _ buf2 buf hlen2 hlen
    have : (beValue buf2 : Int) = (beValue buf : Int) := by rw [hval]; omega
    exact_mod_cast this

theorem randomBigIntInRange_uniform_witness :
    (100 : Int) - 2 < 256 ^ byteLength (100 - 2) ∧
    ∃! buf : List (Fin 256), buf.length = byteLength (100 - 2) ∧
      ∃ rnd : Int, bigIntOfHex (bufferToHex buf) = .ok rnd ∧ ¬ (rnd > 100 - 2) ∧
        2 + rnd = 50 :=
  randomBigIntInRange_uniform 2 100 50 (by decide) ⟨by decide, by decide⟩

/-- When some draw is not above the range, `randomBigIntInRange` returns once the fuel exceeds
the number of that draw. -/
theorem randomBigIntInRange_terminates (src : ByteSource) (pos : Nat) (min max : Int)
    (k fuel : Nat) (hk : drawValue src (byteLength (max - min)) pos k ≤ max - min)
    (hfuel : k < fuel) :
    ∃ (v : Int) (pos1 : Nat), randomBigIntInRange fuel src pos min max = .ok (v, pos1) := by
  have hex : ∃ j, drawValue src (byteLength (max - min)) pos j ≤ max - min := ⟨k, hk⟩
  have hmin : ∀ j, j < Nat.find hex →
      ¬ drawValue src (byteLength (max - min)) pos j ≤ max - min :=
    fun j hj => Nat.find_min hex hj
  have hspec := Nat.find_spec hex
  have hle : Nat.find hex ≤ k := Nat.find_min' hex hk
  exact ⟨_, _, randomBigIntInRange_first src pos min max (Nat.find hex) fuel hspec
    (fun j hj => not_le.mp (hmin j hj)) (by omega)⟩

theorem generateRandomOddNumber_ok (fuel : Nat) (src : ByteSource) (pos : Nat)
    (digitLength : Int) (v : Int) (pos1 : Nat)
    (h : generateRandomOddNumber fuel src pos digitLength = .ok (v, pos1)) :
    0 ≤ digitLength - 1 ∧ ∃ c : Int,
      randomBigIntInRange fuel src pos (10 ^ (digitLength - 1).toNat)
        (10 ^ digitLength.toNat - 1) = .ok (c, pos1) ∧
      v = if Int.land c 1 = 0 then c + 1 else c := by
  unfold generateRandomOddNumber at h
  by_cases hd : digitLength - 1 < 0
  · rw [if_pos hd] at h; cases h
  · rw [if_neg hd] at h
    simp only at h
    cases hr : randomBigIntInRange fuel src pos (10 ^ (digitLength - 1).toNat)
        (10 ^ digitLength.toNat - 1) with
    | error e => rw [hr] at h; cases h
    | ok res =>
      obtain ⟨c, p⟩ := res
      rw [hr] at h
      simp only [Except.ok.injEq, Prod.mk.injEq] at h
      exact ⟨by omega, c, by rw [← h.2], h.1.symm⟩

theorem ten_pow_even (n : Nat) (hn : 1 ≤ n) : ((10 : Int) ^ n) % 2 = 0 := by
  obtain ⟨m, rfl⟩ : ∃ m, n = m + 1 := ⟨n - 1, by omega⟩
  rw [pow_succ]
  omega

theorem ten_pow_le (d : Int) (hd : 1 ≤ d) :
    (10 : Int) ^ (d - 1).toNat ≤ 10 ^ d.toNat - 1 := by
  have h1 : d.toNat = (d - 1).toNat + 1 := by omega
  rw [h1, pow_succ]
  have : (0 : Int) < 10 ^ (d - 1).toNat := by positivity
  omega

/-- The odd adjustment keeps a value of [10^(d-1), 10^d - 1] inside that range: the upper end
is odd, so an even value is below it. -/
theorem oddAdjust_in_range (d : Int) (hd : 1 ≤ d) (c : Int)
    (hc : 10 ^ (d - 1).toNat ≤ c ∧ c ≤ 10 ^ d.toNat - 1) :
    (if Int.land c 1 = 0 then c + 1 else c) % 2 = 1 ∧
    10 ^ (d - 1).toNat ≤ (if Int.land c 1 = 0 then c + 1 else c) ∧
    (if Int.land c 1 = 0 then c + 1 else c) ≤ 10 ^ d.toNat - 1 := by
  have heven := ten_pow_even d.toNat (by omega)
  rw [land_one_eq_emod]
  by_cases h : c % 2 = 0
  · rw [if_pos h]
    refine ⟨by omega, by omega, by omega⟩
  · rw [if_neg h]
    refine ⟨by omega, hc.1, hc.2⟩

/-- C6: for digitLength ≥ 1, every value returned by `generateRandomOddNumber(digitLength)` is
odd and lies in [10^(digitLength-1), 10^digitLength - 1]; and the call does return as soon as
some draw of the sampling loop (number k) is within the range and the fuel exceeds k. -/
theorem generateRandomOddNumber_odd_in_range (digitLength : Int) (hd : 1 ≤ digitLength) :
    (∀ (fuel : Nat) (src : ByteSource) (pos : Nat) (v : Int) (pos1 : Nat),
      generateRandomOddNumber fuel src pos digitLength = .ok (v, pos1) →
      v % 2 = 1 ∧ 10 ^ (digitLength - 1).toNat ≤ v ∧ v ≤ 10 ^ digitLength.toNat - 1) ∧
    (∀ (src : ByteSource) (pos k fuel : Nat),
      drawValue src (byteLength (10 ^ digitLength.toNat - 1 - 10 ^ (digitLength - 1).toNat))
          pos k ≤ 10 ^ digitLength.toNat - 1 - 10 ^ (digitLength - 1).toNat →
      k < fuel →
      ∃ (v : Int) (pos1 : Nat),
        generateRandomOddNumber fuel src pos digitLength = .ok (v, pos1)) := by
  constructor
  · intro fuel src pos v pos1 h
    obtain ⟨_, c, hc, hv⟩ := generateRandomOddNumber_ok fuel src pos digitLength v pos1 h
    obtain ⟨k, _, hck, hdraw, _, _⟩ := randomBigIntInRange_ok src pos _ _ fuel c pos1 hc
    have hnn := drawValue_nonneg src
      (byteLength (10 ^ digitLength.toNat - 1 - 10 ^ (digitLength - 1).toNat)) pos k
    rw [hv]
    exact oddAdjust_in_range digitLength hd c ⟨by omega, by omega⟩
  · intro src pos k fuel hk hfuel
    obtain ⟨c, pos1, hc⟩ := randomBigIntInRange_terminates src pos _ _ k fuel hk hfuel
    unfold generateRandomOddNumber
    rw [if_neg (by omega)]
    simp only
    rw [hc]
    exact ⟨_, _, rfl⟩

theorem generateRandomOddNumber_odd_in_range_witness :
    (∀ (fuel : Nat) (src : ByteSource) (pos : Nat) (v : Int) (pos1 : Nat),
      generateRandomOddNumber fuel src pos 3 = .ok (v, pos1) →
      v % 2 = 1 ∧ 10 ^ ((3 : Int) - 1).toNat ≤ v ∧ v ≤ 10 ^ (3 : Int).toNat - 1) ∧
    (∀ (src : ByteSource) (pos k fuel : Nat),
      drawValue src (byteLength (10 ^ (3 : Int).toNat - 1 - 10 ^ ((3 : Int) - 1).toNat))
          pos k ≤ 10 ^ (3 : Int).toNat - 1 - 10 ^ ((3 : Int) - 1).toNat →
      k < fuel →
      ∃ (v : Int) (pos1 : Nat),
        generateRandomOddNumber fuel src pos 3 = .ok (v, pos1)) :=
  generateRandomOddNumber_odd_in_range 3 (by decide)

theorem modPowLoop_mono (mod : Int) : ∀ (fuel : Nat) (res N power v : Int),
    modPowLoop mod fuel res N power = .ok v → modPowLoop mod (fuel + 1) res N power = .ok v := by
  intro fuel
  induction fuel with
  | zero => intro res N power v h; simp [modPowLoop] at h
  | succ f ih =>
    intro res N power v h
    rw [modPowLoop] at h ⊢
    by_cases hp : power ≠ 0
    · rw [if_pos hp] at h ⊢
      exact ih _ _ _ _ h
    · rw [if_neg hp] at h ⊢
      exact h

theorem modPowLoop_mono_le (mod : Int) (fuel fuel1 : Nat) (hle : fuel ≤ fuel1)
    (res N power v : Int) (h : modPowLoop mod fuel res N power = .ok v) :
    modPowLoop mod fuel1 res N power = .ok v := by
  induction hle with
  | refl => exact h
  | step _ ih => exact modPowLoop_mono mod _ _ _ _ _ ih

theorem modPow_mono_le (fuel fuel1 : Nat) (hle : fuel ≤ fuel1) (N power mod v : Int)
    (h : modPow fuel N power mod = .ok v) : modPow fuel1 N power mod = .ok v := by
  unfold modPow at h ⊢
  by_cases h0 : mod = 0
  · rw [if_pos h0] at h; cases h
  · rw [if_neg h0] at h ⊢
    by_cases h1 : Int.tmod N mod = 0 ∨ N = 0
    · rw [if_pos h1] at h ⊢; exact h
    · rw [if_neg h1] at h ⊢
      by_cases h2 : N = 1 ∨ power = 0
      · rw [if_pos h2] at h ⊢; exact h
      · rw [if_neg h2] at h ⊢
        exact modPowLoop_mono_le mod fuel fuel1 hle _ _ _ _ h

theorem modPowLoop_error (mod : Int) : ∀ (fuel : Nat) (res N power : Int) (e : Err),
    modPowLoop mod fuel res N power = .error e → e = .outOfFuel := by
  intro fuel
  induction fuel with
  | zero => intro res N power e h; simp [modPowLoop] at h; exact h.symm
  | succ f ih =>
    intro res N power e h
    rw [modPowLoop] at h
    by_cases hp : power ≠ 0
    · rw [if_pos hp] at h; exact ih _ _ _ _ h
    · rw [if_neg hp] at h; cases h

theorem modPow_error (fuel : Nat) (N power mod : Int) (hmod : mod ≠ 0) (e : Err)
    (h : modPow fuel N power mod = .error e) : e = .outOfFuel := by
  unfold modPow at h
  rw [if_neg hmod] at h
  by_cases h1 : Int.tmod N mod = 0 ∨ N = 0
  · rw [if_pos h1] at h; cases h
  · rw [if_neg h1] at h
    by_cases h2 : N = 1 ∨ power = 0
    · rw [if_pos h2] at h; cases h
    · rw [if_neg h2] at h
      exact modPowLoop_error mod _ _ _ _ _ h

theorem squareLoop_mono (N a : Int) : ∀ (fuel : Nat) (p i : Int) (r : Int × Int),
    squareLoop N a fuel p i = .ok r → squareLoop N a (fuel + 1) p i = .ok r := by
  intro fuel
  induction fuel with
  | zero => intro p i r h; simp [squareLoop] at h
  | succ f ih =>
    intro p i r h
    rw [squareLoop] at h ⊢
    by_cases hc : p ≠ 1 ∧ p ≠ N - 1 ∧ Int.tmod a N ≠ 0
    · rw [if_pos hc] at h ⊢
      by_cases hi : i ≠ 0
      · rw [if_pos hi] at h ⊢
        exact ih _ _ _ h
      · rw [if_neg hi] at h ⊢
        exact h
    · rw [if_neg hc] at h ⊢
      exact h

theorem squareLoop_mono_le (N a : Int) (fuel fuel1 : Nat) (hle : fuel ≤ fuel1)
    (p i : Int) (r : Int × Int) (h : squareLoop N a fuel p i = .ok r) :
    squareLoop N a fuel1 p i = .ok r := by
  induction hle with
  | refl => exact h
  | step _ ih => exact squareLoop_mono N a _ _ _ _ ih

theorem squareLoop_error (N a : Int) : ∀ (fuel : Nat) (p i : Int) (e : Err),
    squareLoop N a fuel p i = .error e → e = .outOfFuel := by
  intro fuel
  induction fuel with
  | zero => intro p i e h; simp [squareLoop] at h; exact h.symm
  | succ f ih =>
    intro p i e h
    rw [squareLoop] at h
    by_cases hc : p ≠ 1 ∧ p ≠ N - 1 ∧ Int.tmod a N ≠ 0
    · rw [if_pos hc] at h
      by_cases hi : i ≠ 0
      · rw [if_pos hi] at h; exact ih _ _ _ h
      · rw [if_neg hi] at h; cases h
    · rw [if_neg hc] at h; cases h

theorem witnessRefutes_mono_le (fuel fuel1 : Nat) (hle : fuel ≤ fuel1) (N d s a : Int)
    (r : Bool) (h : witnessRefutes fuel N d s a = .ok r) :
    witnessRefutes fuel1 N d s a = .ok r := by
  unfold witnessRefutes at h ⊢
  cases hm : modPow fuel (Int.tmod a N) d N with
  | error e => rw [hm] at h; cases h
  | ok p0 =>
    rw [hm] at h
    rw [modPow_mono_le fuel fuel1 hle _ _ _ _ hm]
    simp only at h ⊢
    cases hs : squareLoop N a fuel p0 s with
    | error e => rw [hs] at h; cases h
    | ok res =>
      rw [hs] at h
      rw [squareLoop_mono_le N a fuel fuel1 hle _ _ _ hs]
      exact h

theorem witnessRefutes_error (fuel : Nat) (N d s a : Int) (hN : N ≠ 0) (e : Err)
    (h : witnessRefutes fuel N d s a = .error e) : e = .outOfFuel := by
  unfold witnessRefutes at h
  cases hm : modPow fuel (Int.tmod a N) d N with
  | error e1 =>
    rw [hm] at h
    simp only [Except.error.injEq] at h
    rw [← h]
    exact modPow_error _ _ _ _ hN _ hm
  | ok p0 =>
    rw [hm] at h
    simp only at h
    cases hs : squareLoop N a fuel p0 s with
    | error e1 =>
      rw [hs] at h
      simp only [Except.error.injEq] at h
      rw [← h]
      exact squareLoop_error _ _ _ _ _ _ hs
    | ok res => rw [hs] at h; cases h

/-- Any pair returned by the factoring loop started at `(d, s)` with `d > 0` is `(d / 2^t, s + t)`
for the number `t` of trailing zero bits of `d`. -/
theorem factorLoop_ok : ∀ (fuel d : Nat) (s : Int) (d1 s1 : Int), 0 < d →
    factorLoop fuel (d : Int) s = .ok (d1, s1) →
    ∃ (q t : Nat), d1 = (q : Int) ∧ s1 = s + (t : Int) ∧ d = q * 2 ^ t ∧ q % 2 = 1 := by
  intro fuel
  induction fuel with
  | zero => intro d s d1 s1 _ h; simp [factorLoop] at h
  | succ f ih =>
    intro d s d1 s1 hd h
    rw [factorLoop, land_one_natCast, shiftRight_one_natCast] at h
    by_cases hev : d % 2 = 0
    · have hc : ((d % 2 : Nat) : Int) = 0 := by exact_mod_cast hev
      rw [if_pos hc] at h
      obtain ⟨q, t, hq, hs, hdq, hodd⟩ := ih (d / 2) (s + 1) d1 s1 (by omega) h
      refine ⟨q, t + 1, hq, by rw [hs]; push_cast; ring, ?_, hodd⟩
      rw [pow_succ, ← mul_assoc, ← hdq]
      omega
    · have hc : ¬ ((d % 2 : Nat) : Int) = 0 := by exact_mod_cast hev
      rw [if_neg hc] at h
      simp only [Except.ok.injEq, Prod.mk.injEq] at h
      exact ⟨d, 0, h.1.symm, by rw [← h.2]; simp, by simp, by omega⟩

/-- The factoring loop returns for every `d > 0` once `d < 2 ^ fuel`. -/
theorem factorLoop_terminates : ∀ (fuel d : Nat) (s : Int), 0 < d → d < 2 ^ fuel →
    ∃ (d1 s1 : Int), factorLoop fuel (d : Int) s = .ok (d1, s1) := by
  intro fuel
  induction fuel with
  | zero => intro d s hd h; simp at h; omega
  | succ f ih =>
    intro d s hd h
    rw [factorLoop, land_one_natCast, shiftRight_one_natCast]
    by_cases hev : d % 2 = 0
    · have hc : ((d % 2 : Nat) : Int) = 0 := by exact_mod_cast hev
      rw [if_pos hc]
      rw [pow_succ] at h
      exact ih (d / 2) (s + 1) (by omega) (by omega)
    · have hc : ¬ ((d % 2 : Nat) : Int) = 0 := by exact_mod_cast hev
      rw [if_neg hc]
      exact ⟨_, _, rfl⟩

theorem factorLoop_error : ∀ (fuel : Nat) (d s : Int) (e : Err),
    factorLoop fuel d s = .error e → e = .outOfFuel := by
  intro fuel
  induction fuel with
  | zero => intro d s e h; simp [factorLoop] at h; exact h.symm
  | succ f ih =>
    intro d s e h
    rw [factorLoop] at h
    by_cases hc : Int.land d 1 = 0
    · rw [if_pos hc] at h; exact ih _ _ _ h
    · rw [if_neg hc] at h; cases h

theorem factorLoop_mono : ∀ (fuel : Nat) (d s : Int) (r : Int × Int),
    factorLoop fuel d s = .ok r → factorLoop (fuel + 1) d s = .ok r := by
  intro fuel
  induction fuel with
  | zero => intro d s r h; simp [factorLoop] at h
  | succ f ih =>
    intro d s r h
    rw [factorLoop] at h ⊢
    by_cases hc : Int.land d 1 = 0
    · rw [if_pos hc] at h ⊢
      exact ih _ _ _ h
    · rw [if_neg hc] at h ⊢
      exact h

theorem factorLoop_mono_le (fuel fuel1 : Nat) (hle : fuel ≤ fuel1) (d s : Int) (r : Int × Int)
    (h : factorLoop fuel d s = .ok r) : factorLoop fuel1 d s = .ok r := by
  induction hle with
  | refl => exact h
  | step _ ih => exact factorLoop_mono _ _ _ _ ih

theorem zmod_natCast_eq_one_iff (p x : Nat) (hp : 1 < p) (hx : x < p) :
    (x : ZMod p) = 1 ↔ x = 1 := by
  have h := ZMod.natCast_eq_natCast_iff' x 1 p
  rw [Nat.cast_one] at h
  rw [h, Nat.mod_eq_of_lt hx, Nat.mod_eq_of_lt hp]

theorem zmod_natCast_eq_neg_one_iff (p x : Nat) (hx : x < p) :
    (x : ZMod p) = -1 ↔ x + 1 = p := by
  rw [eq_neg_iff_add_eq_zero]
  have h := ZMod.natCast_zmod_eq_zero_iff_dvd (x + 1) p
  rw [Nat.cast_add, Nat.cast_one] at h
  rw [h]
  constructor
  · intro hd
    have := Nat.le_of_dvd (by omega) hd
    omega
  · intro he
    rw [he]

/-- The squaring loop on a prime modulus `p`: entered with a residue `x` whose `2^i`-th power
is 1, and with `x ≠ 1` unless the counter still has its start value `s`, it leaves with
`p - 1` or with the counter untouched. -/
theorem squareLoop_prime (p : Nat) (hp : p.Prime) (a s : Int) (ha : Int.tmod a p ≠ 0) :
    ∀ (i x : Nat), x < p → ((x : ZMod p)) ^ (2 ^ i) = 1 →
      ((x : ZMod p) ≠ 1 ∨ (i : Int) = s) →
      ∀ fuel : Nat, i < fuel →
        ∃ (x1 i1 : Int), squareLoop (p : Int) a fuel (x : Int) (i : Int) = .ok (x1, i1) ∧
          (x1 = (p : Int) - 1 ∨ i1 = s) := by
  haveI : Fact p.Prime := ⟨hp⟩
  have hp1 : 1 < p := hp.one_lt
  intro i
  induction i with
  | zero =>
    intro x hx hpow hor fuel hfuel
    obtain ⟨f, rfl⟩ : ∃ f, fuel = f + 1 := ⟨fuel - 1, by omega⟩
    rw [pow_zero, pow_one] at hpow
    have hx1 : x = 1 := (zmod_natCast_eq_one_iff p x hp1 hx).mp hpow
    have hs : ((0 : Nat) : Int) = s := by
      rcases hor with h | h
      · exact absurd hpow h
      · exact h
    subst hx1
    rw [squareLoop, if_neg (by simp)]
    exact ⟨_, _, rfl, Or.inr hs⟩
  | succ i ih =>
    intro x hx hpow hor fuel hfuel
    obtain ⟨f, rfl⟩ : ∃ f, fuel = f + 1 := ⟨fuel - 1, by omega⟩
    rw [squareLoop]
    by_cases hc : (x : Int) ≠ 1 ∧ (x : Int) ≠ (p : Int) - 1 ∧ Int.tmod a p ≠ 0
    · rw [if_pos hc, if_pos (by omega), mult64_natCast]
      have hx1 : (x : ZMod p) ≠ 1 := by
        rw [Ne, zmod_natCast_eq_one_iff p x hp1 hx]
        intro h
        exact hc.1 (by exact_mod_cast h)
      have hxm : (x : ZMod p) ≠ -1 := by
        rw [Ne, zmod_natCast_eq_neg_one_iff p x hx]
        intro h
        exact hc.2.1 (by omega)
      have hsq : ((x * x % p : Nat) : ZMod p) = (x : ZMod p) ^ 2 := by
        rw [ZMod.natCast_mod, Nat.cast_mul, sq]
      have hne : ((x * x % p : Nat) : ZMod p) ≠ 1 := by
        rw [hsq, Ne, sq_eq_one_iff]
        rintro (h | h)
        · exact hx1 h
        · exact hxm h
      have hpow1 : ((x * x % p : Nat) : ZMod p) ^ (2 ^ i) = 1 := by
        rw [hsq, ← pow_mul, ← pow_succ']
        exact hpow
      have hidx : ((i + 1 : Nat) : Int) - 1 = (i : Int) := by push_cast; ring
      rw [hidx]
      exact ih (x * x % p) (Nat.mod_lt _ (by omega)) hpow1 (Or.inl hne) f (by omega)
    · rw [if_neg hc]
      refine ⟨_, _, rfl, ?_⟩
      rcases hor with h | h
      · left
        by_contra hne
        apply hc
        refine ⟨?_, hne, ha⟩
        intro hx1
        apply h
        rw [zmod_natCast_eq_one_iff p x hp1 hx]
        exact_mod_cast hx1
      · right; exact h

/-- On a prime `p = q * 2^t + 1` no base makes the loop body of `isPrime` return false, once the
fuel exceeds `q` and `t`. -/
theorem witnessRefutes_prime (p q t : Nat) (hp : p.Prime) (hq : p = q * 2 ^ t + 1)
    (a : Nat) (fuel : Nat) (hfq : q < 2 ^ fuel) (hft : t < fuel + 1) :
    witnessRefutes (fuel + 1) (p : Int) (q : Int) (t : Int) (a : Int) = .ok false := by
  haveI : Fact p.Prime := ⟨hp⟩
  have hp1 : 1 < p := hp.one_lt
  have hq0 : 1 ≤ q := by
    rcases Nat.eq_zero_or_pos q with h | h
    · subst h; simp at hq; omega
    · exact h
  unfold witnessRefutes
  rw [← Int.ofNat_tmod, modPow_natCast (a % p) q p fuel (by omega) (Or.inl hq0) hfq]
  simp only
  by_cases ha : a % p = 0
  · have hz : (a % p) ^ q % p = 0 := by
      rw [ha, zero_pow (by omega)]; simp
    have hcond : ¬ ((((a % p) ^ q % p : Nat) : Int) ≠ 1 ∧
        (((a % p) ^ q % p : Nat) : Int) ≠ (p : Int) - 1 ∧ Int.tmod (a : Int) (p : Int) ≠ 0) := by
      rintro ⟨_, _, h3⟩
      rw [← Int.ofNat_tmod] at h3
      exact h3 (by exact_mod_cast ha)
    rw [squareLoop, if_neg hcond]
    simp
  · have hane : ((a % p : Nat) : Int) ≠ 0 := by exact_mod_cast ha
    have hazmod : (a : ZMod p) ≠ 0 := by
      rw [Ne, ZMod.natCast_zmod_eq_zero_iff_dvd]
      intro hd
      exact ha (Nat.mod_eq_zero_of_dvd hd)
    have hpow : ((((a % p) ^ q % p : Nat)) : ZMod p) ^ (2 ^ t) = 1 := by
      rw [ZMod.natCast_mod, Nat.cast_pow, ZMod.natCast_mod, ← pow_mul]
      have : q * 2 ^ t = p - 1 := by omega
      rw [this]
      exact ZMod.pow_card_sub_one_eq_one hazmod
    obtain ⟨x1, i1, hloop, hres⟩ := squareLoop_prime p hp (a : Int) (t : Int)
      (by rw [← Int.ofNat_tmod]; exact hane) t ((a % p) ^ q % p) (Nat.mod_lt _ (by omega))
      hpow (Or.inr rfl) (fuel + 1) hft
    rw [hloop]
    simp only [Except.ok.injEq, decide_eq_false_iff_not, not_and, not_not]
    intro h1
    rcases hres with h | h
    · exact absurd h h1
    · exact h

/-- On a prime, whatever the fuel, a pass of the loop body that comes to an end did not
return false. -/
theorem witnessRefutes_prime_ok (p q t : Nat) (hp : p.Prime) (hq : p = q * 2 ^ t + 1)
    (a : Nat) (fuel : Nat) (r : Bool)
    (h : witnessRefutes fuel (p : Int) (q : Int) (t : Int) (a : Int) = .ok r) : r = false := by
  have hbig := witnessRefutes_prime p q t hp hq a (fuel + q + t)
    (lt_of_lt_of_le (Nat.lt_two_pow q) (Nat.pow_le_pow_right (by norm_num) (by omega)))
    (by omega)
  have hmono := witnessRefutes_mono_le fuel (fuel + q + t + 1) (by omega) _ _ _ _ r h
  rw [hbig] at hmono
  simp only [Except.ok.injEq] at hmono
  exact hmono.symm

theorem fixedRounds_prime_ok (p q t : Nat) (hp : p.Prime) (hq : p = q * 2 ^ t + 1)
    (fuel : Nat) : ∀ (bases : List Int), (∀ a ∈ bases, 0 ≤ a) → ∀ r : Bool,
      fixedRounds fuel (p : Int) (q : Int) (t : Int) bases = .ok r → r = true := by
  intro bases
  induction bases with
  | nil =>
    intro _ r h
    simp only [fixedRounds, Except.ok.injEq] at h
    exact h.symm
  | cons a rest ih =>
    intro hnn r h
    have ha : 0 ≤ a := hnn a (List.mem_cons_self a rest)
    lift a to ℕ using ha
    rw [fixedRounds] at h
    cases hw : witnessRefutes fuel (p : Int) (q : Int) (t : Int) (a : Int) with
    | error e => rw [hw] at h; cases h
    | ok b =>
      have hb := witnessRefutes_prime_ok p q t hp hq a fuel b hw
      subst hb
      rw [hw] at h
      exact ih (fun x hx => hnn x (List.mem_cons_of_mem _ hx)) r h

theorem fixedRounds_prime (p q t : Nat) (hp : p.Prime) (hq : p = q * 2 ^ t + 1)
    (fuel : Nat) (hfq : q < 2 ^ fuel) (hft : t < fuel + 1) :
    ∀ (bases : List Int), (∀ a ∈ bases, 0 ≤ a) →
      fixedRounds (fuel + 1) (p : Int) (q : Int) (t : Int) bases = .ok true := by
  intro bases
  induction bases with
  | nil => intro _; rfl
  | cons a rest ih =>
    intro hnn
    have ha : 0 ≤ a := hnn a (List.mem_cons_self a rest)
    lift a to ℕ using ha
    rw [fixedRounds, witnessRefutes_prime p q t hp hq a fuel hfq hft]
    exact ih (fun x hx => hnn x (List.mem_cons_of_mem _ hx))

theorem randomRounds_prime_ok (p q t : Nat) (hp : p.Prime) (hq : p = q * 2 ^ t + 1)
    (fuel : Nat) (src : ByteSource) : ∀ (rounds pos : Nat) (r : Bool) (pos1 : Nat),
      randomRounds fuel src (p : Int) (q : Int) (t : Int) rounds pos = .ok (r, pos1) →
      r = true := by
  intro rounds
  induction rounds with
  | zero =>
    intro pos r pos1 h
    simp only [randomRounds, Except.ok.injEq, Prod.mk.injEq] at h
    exact h.1.symm
  | succ n ih =>
    intro pos r pos1 h
    rw [randomRounds] at h
    cases hr : randomBigIntInRange fuel src pos 2 ((p : Int) - 2) with
    | error e => rw [hr] at h; cases h
    | ok res =>
      obtain ⟨a, pos2⟩ := res
      rw [hr] at h
      simp only at h
      obtain ⟨k, _, hak, _, _, _⟩ := randomBigIntInRange_ok src pos 2 _ fuel a pos2 hr
      have hnn := drawValue_nonneg src (byteLength ((p : Int) - 2 - 2)) pos k
      have ha : 0 ≤ a := by omega
      lift a to ℕ using ha
      cases hw : witnessRefutes fuel (p : Int) (q : Int) (t : Int) (a : Int) with
      | error e => rw [hw] at h; cases h
      | ok b =>
        have hb := witnessRefutes_prime_ok p q t hp hq a fuel b hw
        subst hb
        rw [hw] at h
        exact ih pos2 r pos1 h

theorem randomRounds_prime (p q t : Nat) (hp : p.Prime) (hq : p = q * 2 ^ t + 1)
    (src : ByteSource)
    (hprod : Productive src (byteLength ((p : Int) - 2 - 2)) ((p : Int) - 2 - 2)) :
    ∀ (rounds pos : Nat), ∃ (F pos1 : Nat), ∀ fuel : Nat, F ≤ fuel →
      randomRounds fuel src (p : Int) (q : Int) (t : Int) rounds pos = .ok (true, pos1) := by
  intro rounds
  induction rounds with
  | zero => intro pos; exact ⟨0, pos, fun fuel _ => rfl⟩
  | succ n ih =>
    intro pos
    obtain ⟨k, hk⟩ := hprod pos
    have hex : ∃ j, drawValue src (byteLength ((p : Int) - 2 - 2)) pos j ≤ (p : Int) - 2 - 2 :=
      ⟨k, hk⟩
    have hmin : ∀ j, j < Nat.find hex →
        (p : Int) - 2 - 2 < drawValue src (byteLength ((p : Int) - 2 - 2)) pos j :=
      fun j hj => not_le.mp (Nat.find_min hex hj)
    have hspec := Nat.find_spec hex
    obtain ⟨F1, pos1, hF1⟩ := ih (pos + (Nat.find hex + 1) * byteLength ((p : Int) - 2 - 2))
    refine ⟨F1 + Nat.find hex + q + t + 2, pos1, ?_⟩
    intro fuel hfuel
    obtain ⟨f, rfl⟩ : ∃ f, fuel = f + 1 := ⟨fuel - 1, by omega⟩
    have hnn := drawValue_nonneg src (byteLength ((p : Int) - 2 - 2)) pos (Nat.find hex)
    obtain ⟨a, ha⟩ : ∃ a : Nat, (a : Int)
        = 2 + drawValue src (byteLength ((p : Int) - 2 - 2)) pos (Nat.find hex) :=
      ⟨(2 + drawValue src (byteLength ((p : Int) - 2 - 2)) pos (Nat.find hex)).toNat,
        Int.toNat_of_nonneg (by omega)⟩
    rw [randomRounds, randomBigIntInRange_first src pos 2 ((p : Int) - 2) (Nat.find hex) (f + 1)
      hspec hmin (by omega)]
    simp only
    rw [← ha, witnessRefutes_prime p q t hp hq a f
      (lt_of_lt_of_le (Nat.lt_two_pow q) (Nat.pow_le_pow_right (by norm_num) (by omega)))
      (by omega)]
    exact hF1 (f + 1) (by omega)

theorem fixedBases_nonneg : ∀ a ∈ fixedBases, (0 : Int) ≤ a := by
  decide

theorem lor_one_eq_three_iff (n : Int) : Int.lor n 1 = 3 ↔ n = 2 ∨ n = 3 := by
  cases n with
  | ofNat m =>
    show Int.lor (Int.ofNat m) (Int.ofNat 1) = 3 ↔ _
    simp only [Int.lor]
    have hlor : m ||| 1 = if m % 2 = 0 then m + 1 else m := by
      apply Nat.eq_of_testBit_eq
      intro i
      rw [Nat.testBit_lor]
      cases i with
      | zero =>
        by_cases h : m % 2 = 0
        · rw [if_pos h]; simp [Nat.testBit_zero]; omega
        · rw [if_neg h]; simp [Nat.testBit_zero]; omega
      | succ i =>
        by_cases h : m % 2 = 0
        · rw [if_pos h]
          simp only [Nat.testBit_succ]
          have : (m + 1) / 2 = m / 2 := by omega
          rw [this]
          simp
        · rw [if_neg h]
          simp [Nat.testBit_succ]
    rw [hlor]
    clear hlor
    simp only [Int.ofNat_eq_coe]
    by_cases h : m % 2 = 0
    · rw [if_pos h]; omega
    · rw [if_neg h]; omega
  | negSucc m =>
    show Int.lor (Int.negSucc m) (Int.ofNat 1) = 3 ↔ _
    simp only [Int.lor]
    constructor
    · intro h
      have := Int.negSucc_lt_zero (Nat.ldiff m 1)
      omega
    · intro h
      have := Int.negSucc_lt_zero m
      rcases h with h | h <;> omega

theorem prime_slow_path (p : Nat) (hp : p.Prime) (h5 : 5 ≤ p) :
    ¬ ((p : Int) < 2 ∨ Int.tmod (Int.tmod (p : Int) 6) 4 ≠ 1) := by
  have h2 : ¬ 2 ∣ p := fun hd => by
    rcases (Nat.dvd_prime hp).mp hd with h | h <;> omega
  have h3 : ¬ 3 ∣ p := fun hd => by
    rcases (Nat.dvd_prime hp).mp hd with h | h <;> omega
  have hmod : p % 6 = 1 ∨ p % 6 = 5 := by omega
  have e1 : Int.tmod (p : Int) 6 = ((p % 6 : Nat) : Int) := by
    rw [Int.ofNat_tmod]; rfl
  rw [e1]
  rintro (hlt | hne)
  · omega
  · rcases hmod with h | h <;> rw [h] at hne <;> exact hne (by decide)

theorem isPrime_slow (fuel : Nat) (src : ByteSource) (pos : Nat) (N : Int)
    (h : ¬ (N < 2 ∨ Int.tmod (Int.tmod N 6) 4 ≠ 1)) :
    isPrime fuel src pos N = millerRabin fuel src pos N := by
  rw [isPrime, if_neg h]

theorem isPrime_fast (fuel : Nat) (src : ByteSource) (pos : Nat) (N : Int)
    (h : N < 2 ∨ Int.tmod (Int.tmod N 6) 4 ≠ 1) :
    isPrime fuel src pos N = .ok (decide (N = 2 ∨ N = 3), pos) := by
  rw [isPrime, if_pos h]
  congr 2
  rw [decide_eq_decide]
  exact lor_one_eq_three_iff N

/-- On a prime, a call of `isPrime` that comes to an end answers true. -/
theorem isPrime_prime_ok (p : Nat) (hp : p.Prime) (fuel : Nat) (src : ByteSource)
    (pos : Nat) (r : Bool) (pos1 : Nat)
    (h : isPrime fuel src pos (p : Int) = .ok (r, pos1)) : r = true := by
  by_cases h5 : 5 ≤ p
  · rw [isPrime_slow fuel src pos _ (prime_slow_path p hp h5), millerRabin] at h
    have hcast : (p : Int) - 1 = ((p - 1 : Nat) : Int) := by omega
    rw [hcast] at h
    cases hf : factorLoop fuel ((p - 1 : Nat) : Int) 0 with
    | error e => rw [hf] at h; cases h
    | ok res =>
      obtain ⟨d, s⟩ := res
      rw [hf] at h
      simp only at h
      obtain ⟨q, t, hd, hs, hqt, _⟩ := factorLoop_ok fuel (p - 1) 0 d s (by omega) hf
      have hq : p = q * 2 ^ t + 1 := by omega
      rw [zero_add] at hs
      subst hd hs
      cases hfix : fixedRounds fuel (p : Int) (q : Int) (t : Int) fixedBases with
      | error e => rw [hfix] at h; cases h
      | ok b =>
        have hb := fixedRounds_prime_ok p q t hp hq fuel fixedBases fixedBases_nonneg b hfix
        subst hb
        rw [hfix] at h
        exact randomRounds_prime_ok p q t hp hq fuel src 20 pos r pos1 h
  · have hp2 := hp.two_le
    have hcases : p = 2 ∨ p = 3 := by
      rcases Nat.lt_or_ge p 4 with h4 | h4
      · omega
      · have : p = 4 := by omega
        subst this
        exact absurd hp (by decide)
    have hfast : (p : Int) < 2 ∨ Int.tmod (Int.tmod (p : Int) 6) 4 ≠ 1 := by
      rcases hcases with h2 | h3
      · subst h2; right; decide
      · subst h3; right; decide
    rw [isPrime_fast fuel src pos _ hfast] at h
    simp only [Except.ok.injEq, Prod.mk.injEq] at h
    rw [← h.1]
    rcases hcases with h2 | h3
    · subst h2; decide
    · subst h3; decide

/-- On a prime, `isPrime` does come to an end, with the answer true, for all fuel from some
bound on, provided the byte source lets the sampling loop of the random bases finish (needed
only for p ≥ 5: 2 and 3 are answered before any loop). -/
theorem isPrime_prime (p : Nat) (hp : p.Prime) (src : ByteSource) (pos : Nat)
    (hprod : 5 ≤ p → Productive src (byteLength ((p : Int) - 2 - 2)) ((p : Int) - 2 - 2)) :
    ∃ (F pos1 : Nat), ∀ fuel : Nat, F ≤ fuel →
      isPrime fuel src pos (p : Int) = .ok (true, pos1) := by
  by_cases h5 : 5 ≤ p
  · have hcast : (p : Int) - 1 = ((p - 1 : Nat) : Int) := by omega
    obtain ⟨d, s, hf⟩ := factorLoop_terminates p (p - 1) 0 (by omega)
      (lt_of_le_of_lt (Nat.sub_le p 1) (Nat.lt_two_pow p))
    obtain ⟨q, t, hd, hs, hqt, _⟩ := factorLoop_ok p (p - 1) 0 d s (by omega) hf
    have hq : p = q * 2 ^ t + 1 := by omega
    rw [zero_add] at hs
    subst hd hs
    obtain ⟨F1, pos1, hF1⟩ := randomRounds_prime p q t hp hq src (hprod h5) 20 pos
    refine ⟨F1 + p + q + t + 2, pos1, ?_⟩
    intro fuel hfuel
    obtain ⟨f, rfl⟩ : ∃ f, fuel = f + 1 := ⟨fuel - 1, by omega⟩
    rw [isPrime_slow (f + 1) src pos _ (prime_slow_path p hp h5), millerRabin, hcast,
      factorLoop_mono_le p (f + 1) (by omega) _ _ _ hf]
    simp only
    rw [fixedRounds_prime p q t hp hq f
      (lt_of_lt_of_le (Nat.lt_two_pow q) (Nat.pow_le_pow_right (by norm_num) (by omega)))
      (by omega) fixedBases fixedBases_nonneg]
    exact hF1 (f + 1) (by omega)
  · have hp2 := hp.two_le
    have hcases : p = 2 ∨ p = 3 := by
      rcases Nat.lt_or_ge p 4 with h4 | h4
      · omega
      · have : p = 4 := by omega
        subst this
        exact absurd hp (by decide)
    have hfast : (p : Int) < 2 ∨ Int.tmod (Int.tmod (p : Int) 6) 4 ≠ 1 := by
      rcases hcases with h2 | h3
      · subst h2; right; decide
      · subst h3; right; decide
    refine ⟨0, pos, fun fuel _ => ?_⟩
    rw [isPrime_fast fuel src pos _ hfast]
    rcases hcases with h2 | h3
    · subst h2; rfl
    · subst h3; rfl

theorem gcd_six_ne_one_iff (m : Nat) :
    Int.gcd (m : Int) 6 ≠ 1 ↔ Int.tmod (Int.tmod (m : Int) 6) 4 ≠ 1 := by
  have e1 : Int.tmod (m : Int) 6 = ((m % 6 : Nat) : Int) := by
    rw [Int.ofNat_tmod]; rfl
  have e2 : Int.gcd (m : Int) 6 = Nat.gcd (m % 6) 6 := by
    show Nat.gcd m 6 = _
    rw [Nat.gcd_comm m 6, Nat.gcd_rec 6 m, Nat.gcd_comm]
  rw [e1, e2]
  have hlt : m % 6 < 6 := Nat.mod_lt _ (by norm_num)
  generalize m % 6 = r at hlt
  interval_cases r <;> decide

/-- C7: for every integer n with n < 2 or n not coprime to 6, `isPrime(n)` answers true exactly
when n is 2 or 3; it does so for every fuel (no loop is entered, no witness is used) and
consumes no random byte. For n ≥ 0, "not coprime to 6" is the test `n % 6 % 4 !== 1` of the
code. -/
theorem isPrime_fast_path (fuel : Nat) (src : ByteSource) (pos : Nat) (n : Int)
    (h : n < 2 ∨ Int.gcd n 6 ≠ 1) :
    isPrime fuel src pos n = .ok (decide (n = 2 ∨ n = 3), pos) ∧
    (0 ≤ n → (Int.gcd n 6 ≠ 1 ↔ Int.tmod (Int.tmod n 6) 4 ≠ 1)) := by
  have hiff : 0 ≤ n → (Int.gcd n 6 ≠ 1 ↔ Int.tmod (Int.tmod n 6) 4 ≠ 1) := by
    intro hn
    lift n to ℕ using hn
    exact gcd_six_ne_one_iff n
  refine ⟨?_, hiff⟩
  apply isPrime_fast
  rcases h with h | h
  · exact Or.inl h
  · by_cases hn : n < 2
    · exact Or.inl hn
    · exact Or.inr ((hiff (by omega)).mp h)

theorem isPrime_fast_path_witness :
    isPrime 0 (fun _ => 0) 0 9 = .ok (decide ((9 : Int) = 2 ∨ (9 : Int) = 3), 0) ∧
    ((0 : Int) ≤ 9 → (Int.gcd 9 6 ≠ 1 ↔ Int.tmod (Int.tmod 9 6) 4 ≠ 1)) :=
  isPrime_fast_path 0 (fun _ => 0) 0 9 (Or.inr (by decide))

theorem beValue_replicate_zero (n : Nat) : beValue (List.replicate n (0 : Fin 256)) = 0 := by
  induction n with
  | zero => rfl
  | succ n ih =>
    rw [List.replicate_succ', beValue_concat, ih]
    rfl

theorem drawValue_zero (bytes pos k : Nat) : drawValue (fun _ => 0) bytes pos k = 0 := by
  unfold drawValue getRandomBytes
  have : List.map (fun _ : Nat => (0 : Fin 256)) (List.range bytes)
      = List.replicate bytes (0 : Fin 256) := by
    rw [List.eq_replicate_iff]
    simp
  rw [this, beValue_replicate_zero]
  rfl

/-- The all-zero byte source lets every sampling loop with a non-negative range finish. -/
theorem productive_zero (bytes : Nat) (range : Int) (h : 0 ≤ range) :
    Productive (fun _ => 0) bytes range := by
  intro pos
  exact ⟨0, by rw [drawValue_zero]; exact h⟩

/-- C8: whatever the random bytes and the fuel, `isPrime` answers true for 2 and 3 and false
for 0, 1, 4, 9, 15 and 561 (all on the first `if`, consuming no random byte); for 5, 7 and 11
every call that comes to an end answers true, and the call does come to an end, with true,
for all fuel from some bound on whenever the byte source lets the sampling of the random bases
finish. -/
theorem isPrime_small_values (fuel : Nat) (src : ByteSource) (pos : Nat) :
    isPrime fuel src pos 2 = .ok (true, pos) ∧
    isPrime fuel src pos 3 = .ok (true, pos) ∧
    isPrime fuel src pos 0 = .ok (false, pos) ∧
    isPrime fuel src pos 1 = .ok (false, pos) ∧
    isPrime fuel src pos 4 = .ok (false, pos) ∧
    isPrime fuel src pos 9 = .ok (false, pos) ∧
    isPrime fuel src pos 15 = .ok (false, pos) ∧
    isPrime fuel src pos 561 = .ok (false, pos) ∧
    (∀ n : Nat, n = 5 ∨ n = 7 ∨ n = 11 →
      (∀ (r : Bool) (pos1 : Nat), isPrime fuel src pos (n : Int) = .ok (r, pos1) → r = true) ∧
      (Productive src (byteLength ((n : Int) - 2 - 2)) ((n : Int) - 2 - 2) →
        ∃ (F pos1 : Nat), ∀ fuel1 : Nat, F ≤ fuel1 →
          isPrime fuel1 src pos (n : Int) = .ok (true, pos1))) := by
  refine ⟨rfl, rfl, rfl, rfl, rfl, rfl, rfl, rfl, ?_⟩
  intro n hn
  have hp : n.Prime := by
    rcases hn with h | h | h <;> subst h <;> norm_num
  exact ⟨fun r pos1 h => isPrime_prime_ok n hp fuel src pos r pos1 h,
    fun hprod => isPrime_prime n hp src pos (fun _ => hprod)⟩

theorem isPrime_small_values_witness :
    (∃ (F pos1 : Nat), ∀ fuel1 : Nat, F ≤ fuel1 →
      isPrime fuel1 (fun _ => 0) 0 ((5 : Nat) : Int) = .ok (true, pos1)) ∧
    isPrime 3 (fun _ => 0) 0 5 = .ok (true, 20) :=
  ⟨((isPrime_small_values 0 (fun _ => 0) 0).2.2.2.2.2.2.2.2 5 (Or.inl rfl)).2
    (productive_zero _ _ (by decide)), by decide⟩

/-- C1: `isPrime` gives no false negative. For a prime n, every call that comes to an end,
whatever the fuel and the random bytes (hence whatever the 20 random bases), answers true, so
an answer false means n is not prime; and the call does come to an end, with true, for all
fuel from some bound on whenever the byte source lets the sampling of the random bases finish
(a condition needed only for n ≥ 5). -/
theorem isPrime_no_false_negative (n : Nat) (hn : n.Prime) :
    (∀ (fuel : Nat) (src : ByteSource) (pos : Nat) (r : Bool) (pos1 : Nat),
      isPrime fuel src pos (n : Int) = .ok (r, pos1) → r = true) ∧
    (∀ (src : ByteSource) (pos : Nat),
      (5 ≤ n → Productive src (byteLength ((n : Int) - 2 - 2)) ((n : Int) - 2 - 2)) →
      ∃ (F pos1 : Nat), ∀ fuel : Nat, F ≤ fuel →
        isPrime fuel src pos (n : Int) = .ok (true, pos1)) :=
  ⟨fun fuel src pos r pos1 h => isPrime_prime_ok n hn fuel src pos r pos1 h,
    fun src pos hprod => isPrime_prime n hn src pos hprod⟩

theorem isPrime_no_false_negative_witness :
    (∀ (fuel : Nat) (src : ByteSource) (pos : Nat) (r : Bool) (pos1 : Nat),
      isPrime fuel src pos ((13 : Nat) : Int) = .ok (r, pos1) → r = true) ∧
    (∀ (src : ByteSource) (pos : Nat),
      (5 ≤ 13 → Productive src (byteLength (((13 : Nat) : Int) - 2 - 2))
        (((13 : Nat) : Int) - 2 - 2)) →
      ∃ (F pos1 : Nat), ∀ fuel : Nat, F ≤ fuel →
        isPrime fuel src pos ((13 : Nat) : Int) = .ok (true, pos1)) :=
  isPrime_no_false_negative 13 (by norm_num)

theorem fixedRounds_error (fuel : Nat) (N d s : Int) (hN : N ≠ 0) :
    ∀ (bases : List Int) (e : Err), fixedRounds fuel N d s bases = .error e →
      e = .outOfFuel := by
  intro bases
  induction bases with
  | nil => intro e h; simp [fixedRounds] at h
  | cons a rest ih =>
    intro e h
    rw [fixedRounds] at h
    cases hw : witnessRefutes fuel N d s a with
    | error e1 =>
      rw [hw] at h
      simp only [Except.error.injEq] at h
      rw [← h]
      exact witnessRefutes_error fuel N d s a hN e1 hw
    | ok b =>
      rw [hw] at h
      cases b with
      | true => cases h
      | false => exact ih e h

theorem randomRounds_error (fuel : Nat) (src : ByteSource) (N d s : Int) (hN : N ≠ 0) :
    ∀ (rounds pos : Nat) (e : Err), randomRounds fuel src N d s rounds pos = .error e →
      e = .outOfFuel := by
  intro rounds
  induction rounds with
  | zero => intro pos e h; simp [randomRounds] at h
  | succ n ih =>
    intro pos e h
    rw [randomRounds] at h
    cases hr : randomBigIntInRange fuel src pos 2 (N - 2) with
    | error e1 =>
      rw [hr] at h
      simp only [Except.error.injEq] at h
      rw [← h]
      exact randomBigIntInRange_error src pos _ _ fuel e1 hr
    | ok res =>
      obtain ⟨a, pos2⟩ := res
      rw [hr] at h
      simp only at h
      cases hw : witnessRefutes fuel N d s a with
      | error e1 =>
        rw [hw] at h
        simp only [Except.error.injEq] at h
        rw [← h]
        exact witnessRefutes_error fuel N d s a hN e1 hw
      | ok b =>
        rw [hw] at h
        cases b with
        | true => cases h
        | false => exact ih pos2 e h

/-- The test `isPrime` throws nothing: its only abnormal outcome is the fuel bound of the model. -/
theorem isPrime_error (fuel : Nat) (src : ByteSource) (pos : Nat) (N : Int) (e : Err)
    (h : isPrime fuel src pos N = .error e) : e = .outOfFuel := by
  unfold isPrime at h
  by_cases hc : N < 2 ∨ Int.tmod (Int.tmod N 6) 4 ≠ 1
  · rw [if_pos hc] at h; cases h
  · rw [if_neg hc] at h
    have hN : N ≠ 0 := by
      intro h0
      apply hc
      left
      omega
    unfold millerRabin at h
    cases hf : factorLoop fuel (N - 1) 0 with
    | error e1 =>
      rw [hf] at h
      simp only [Except.error.injEq] at h
      rw [← h]
      exact factorLoop_error _ _ _ _ hf
    | ok res =>
      obtain ⟨d, s⟩ := res
      rw [hf] at h
      simp only at h
      cases hfix : fixedRounds fuel N d s fixedBases with
      | error e1 =>
        rw [hfix] at h
        simp only [Except.error.injEq] at h
        rw [← h]
        exact fixedRounds_error fuel N d s hN _ _ hfix
      | ok b =>
        rw [hfix] at h
        cases b with
        | false => cases h
        | true => exact randomRounds_error fuel src N d s hN _ _ _ h

theorem generateRandomOddNumber_error (fuel : Nat) (src : ByteSource) (pos : Nat)
    (digitLength : Int) (hd : 1 ≤ digitLength) (e : Err)
    (h : generateRandomOddNumber fuel src pos digitLength = .error e) : e = .outOfFuel := by
  unfold generateRandomOddNumber at h
  rw [if_neg (by omega)] at h
  simp only at h
  cases hr : randomBigIntInRange fuel src pos (10 ^ (digitLength - 1).toNat)
      (10 ^ digitLength.toNat - 1) with
  | error e1 =>
    rw [hr] at h
    simp only [Except.error.injEq] at h
    rw [← h]
    exact randomBigIntInRange_error src pos _ _ fuel e1 hr
  | ok res => rw [hr] at h; cases h

theorem sampleCandidate_error (fuel : Nat) (src : ByteSource) (pos : Nat)
    (digitLength : Int) (hd : 1 ≤ digitLength) (e : Err)
    (h : sampleCandidate fuel src pos digitLength = .error e) : e = .outOfFuel := by
  unfold sampleCandidate at h
  cases hg : generateRandomOddNumber fuel src pos digitLength with
  | error e1 =>
    rw [hg] at h
    simp only [Except.error.injEq] at h
    rw [← h]
    exact generateRandomOddNumber_error fuel src pos digitLength hd e1 hg
  | ok res => rw [hg] at h; cases h

/-- A sampled candidate is the value of `generateRandomOddNumber`: it is odd already, so the
second adjustment in the loop body changes nothing; it is odd and has `digitLength` digits. -/
theorem sampleCandidate_ok (fuel : Nat) (src : ByteSource) (pos : Nat) (digitLength : Int)
    (hd : 1 ≤ digitLength) (c : Int) (pos1 : Nat)
    (h : sampleCandidate fuel src pos digitLength = .ok (c, pos1)) :
    generateRandomOddNumber fuel src pos digitLength = .ok (c, pos1) ∧
    c % 2 = 1 ∧ 10 ^ (digitLength - 1).toNat ≤ c ∧ c ≤ 10 ^ digitLength.toNat - 1 := by
  unfold sampleCandidate at h
  cases hg : generateRandomOddNumber fuel src pos digitLength with
  | error e => rw [hg] at h; cases h
  | ok res =>
    obtain ⟨v, p⟩ := res
    rw [hg] at h
    simp only [Except.ok.injEq, Prod.mk.injEq] at h
    obtain ⟨_, c0, hc0, hv⟩ := generateRandomOddNumber_ok fuel src pos digitLength v p hg
    obtain ⟨k, _, hck, hdraw, _, _⟩ := randomBigIntInRange_ok src pos _ _ fuel c0 p hc0
    have hnn := drawValue_nonneg src
      (byteLength (10 ^ digitLength.toNat - 1 - 10 ^ (digitLength - 1).toNat)) pos k
    have hprops := oddAdjust_in_range digitLength hd c0 ⟨by omega, by omega⟩
    rw [← hv] at hprops
    have hodd : ¬ Int.land v 1 = 0 := by
      rw [land_one_eq_emod]; omega
    rw [if_neg hodd] at h
    rw [← h.1, ← h.2]
    exact ⟨rfl, hprops⟩

theorem acceptsCandidate_error (fuel : Nat) (src : ByteSource) (primesSet : List Int)
    (pos : Nat) (c : Int) (e : Err)
    (h : acceptsCandidate fuel src primesSet pos c = .error e) : e = .outOfFuel := by
  unfold acceptsCandidate at h
  cases hp : isPrime fuel src pos c with
  | error e1 =>
    rw [hp] at h
    simp only [Except.error.injEq] at h
    rw [← h]
    exact isPrime_error fuel src pos c e1 hp
  | ok res => rw [hp] at h; cases h

theorem acceptsCandidate_true (fuel : Nat) (src : ByteSource) (primesSet : List Int)
    (pos : Nat) (c : Int) (pos1 : Nat)
    (h : acceptsCandidate fuel src primesSet pos c = .ok (true, pos1)) :
    isPrime fuel src pos c = .ok (true, pos1) ∧ c ∉ primesSet := by
  unfold acceptsCandidate at h
  cases hp : isPrime fuel src pos c with
  | error e => rw [hp] at h; cases h
  | ok res =>
    obtain ⟨b, p⟩ := res
    rw [hp] at h
    simp only [Except.ok.injEq, Prod.mk.injEq, Bool.and_eq_true, Bool.not_eq_true'] at h
    obtain ⟨⟨hb, hnot⟩, hpos⟩ := h
    subst hb hpos
    refine ⟨rfl, ?_⟩
    intro hmem
    have hc : primesSet.contains c = true := by simpa using hmem
    rw [hc] at hnot
    cases hnot

theorem searchLoop_ok (fuel : Nat) (src : ByteSource) (digitLength : Int) (cap : Nat)
    (primesSet : List Int) : ∀ (loopFuel attempts pos : Nat) (c : Int) (pos2 : Nat),
      searchLoop fuel src digitLength cap primesSet loopFuel attempts pos = .ok (c, pos2) →
      ∃ (posA posB : Nat), sampleCandidate fuel src posA digitLength = .ok (c, posB) ∧
        acceptsCandidate fuel src primesSet posB c = .ok (true, pos2) := by
  intro loopFuel
  induction loopFuel with
  | zero => intro attempts pos c pos2 h; simp [searchLoop] at h
  | succ lf ih =>
    intro attempts pos c pos2 h
    rw [searchLoop] at h
    cases hs : sampleCandidate fuel src pos digitLength with
    | error e => rw [hs] at h; cases h
    | ok res =>
      obtain ⟨c1, p1⟩ := res
      rw [hs] at h
      simp only at h
      by_cases hcap : attempts + 1 > cap
      · rw [if_pos hcap] at h; cases h
      · rw [if_neg hcap] at h
        cases ha : acceptsCandidate fuel src primesSet p1 c1 with
        | error e => rw [ha] at h; cases h
        | ok res2 =>
          obtain ⟨b, p2⟩ := res2
          rw [ha] at h
          cases b with
          | true =>
            simp only [Except.ok.injEq, Prod.mk.injEq] at h
            obtain ⟨hc, hp⟩ := h
            subst hc hp
            exact ⟨pos, p1, hs, ha⟩
          | false => exact ih _ _ _ _ h

theorem searchLoop_error (fuel : Nat) (src : ByteSource) (digitLength : Int)
    (hd : 1 ≤ digitLength) (cap : Nat) (primesSet : List Int) :
    ∀ (loopFuel attempts pos : Nat) (e : Err),
      searchLoop fuel src digitLength cap primesSet loopFuel attempts pos = .error e →
      e = .attemptsExhausted ∨ e = .outOfFuel := by
  intro loopFuel
  induction loopFuel with
  | zero =>
    intro attempts pos e h
    simp [searchLoop] at h
    exact Or.inr h.symm
  | succ lf ih =>
    intro attempts pos e h
    rw [searchLoop] at h
    cases hs : sampleCandidate fuel src pos digitLength with
    | error e1 =>
      rw [hs] at h
      simp only [Except.error.injEq] at h
      rw [← h]
      exact Or.inr (sampleCandidate_error fuel src pos digitLength hd e1 hs)
    | ok res =>
      obtain ⟨c1, p1⟩ := res
      rw [hs] at h
      simp only at h
      by_cases hcap : attempts + 1 > cap
      · rw [if_pos hcap] at h
        simp only [Except.error.injEq] at h
        exact Or.inl h.symm
      · rw [if_neg hcap] at h
        cases ha : acceptsCandidate fuel src primesSet p1 c1 with
        | error e1 =>
          rw [ha] at h
          simp only [Except.error.injEq] at h
          rw [← h]
          exact Or.inr (acceptsCandidate_error fuel src primesSet p1 c1 e1 ha)
        | ok res2 =>
          obtain ⟨b, p2⟩ := res2
          rw [ha] at h
          cases b with
          | true => cases h
          | false => exact ih _ _ _ h

/-- A search that throws the attempts error has sampled and rejected every candidate up to
the cap and has drawn one more sample. -/
theorem searchLoop_exhausted (fuel : Nat) (src : ByteSource) (digitLength : Int)
    (hd : 1 ≤ digitLength) (cap : Nat) (primesSet : List Int) :
    ∀ (loopFuel attempts pos : Nat), attempts ≤ cap →
      searchLoop fuel src digitLength cap primesSet loopFuel attempts pos
        = .error .attemptsExhausted →
      ∃ (pos1 : Nat) (c : Int) (pos2 : Nat),
        RejectedRun fuel src digitLength primesSet (cap - attempts) pos pos1 ∧
        sampleCandidate fuel src pos1 digitLength = .ok (c, pos2) := by
  intro loopFuel
  induction loopFuel with
  | zero => intro attempts pos _ h; simp [searchLoop] at h
  | succ lf ih =>
    intro attempts pos hle h
    rw [searchLoop] at h
    cases hs : sampleCandidate fuel src pos digitLength with
    | error e1 =>
      rw [hs] at h
      simp only [Except.error.injEq] at h
      have := sampleCandidate_error fuel src pos digitLength hd e1 hs
      rw [h] at this
      cases this
    | ok res =>
      obtain ⟨c1, p1⟩ := res
      rw [hs] at h
      simp only at h
      by_cases hcap : attempts + 1 > cap
      · have h0 : cap - attempts = 0 := by omega
        rw [h0]
        exact ⟨pos, c1, p1, RejectedRun.zero pos, hs⟩
      · rw [if_neg hcap] at h
        cases ha : acceptsCandidate fuel src primesSet p1 c1 with
        | error e1 =>
          rw [ha] at h
          simp only [Except.error.injEq] at h
          have := acceptsCandidate_error fuel src primesSet p1 c1 e1 ha
          rw [h] at this
          cases this
        | ok res2 =>
          obtain ⟨b, p2⟩ := res2
          rw [ha] at h
          cases b with
          | true => cases h
          | false =>
            obtain ⟨pos1, c, pos2, hrun, hsample⟩ := ih (attempts + 1) p2 (by omega) h
            have hk : cap - attempts = (cap - (attempts + 1)) + 1 := by omega
            rw [hk]
            exact ⟨pos1, c, pos2, RejectedRun.succ hs ha hrun, hsample⟩

/-- When the candidates up to the cap are all rejected and one more sample is drawn, the
search throws the attempts error. -/
theorem searchLoop_of_rejected (fuel : Nat) (src : ByteSource) (digitLength : Int) (cap : Nat)
    (primesSet : List Int) (k pos pos1 : Nat)
    (hrun : RejectedRun fuel src digitLength primesSet k pos pos1) :
    ∀ (c : Int) (pos2 : Nat), sampleCandidate fuel src pos1 digitLength = .ok (c, pos2) →
      ∀ (attempts loopFuel : Nat), attempts + k = cap → k < loopFuel →
        searchLoop fuel src digitLength cap primesSet loopFuel attempts pos
          = .error .attemptsExhausted := by
  induction hrun with
  | zero pos =>
    intro c pos2 hs attempts loopFuel hcap hlf
    obtain ⟨lf, rfl⟩ : ∃ lf, loopFuel = lf + 1 := ⟨loopFuel - 1, by omega⟩
    rw [searchLoop, hs]
    simp only
    rw [if_pos (by omega)]
  | succ hsample hreject _ ih =>
    intro c pos2 hs attempts loopFuel hcap hlf
    obtain ⟨lf, rfl⟩ : ∃ lf, loopFuel = lf + 1 := ⟨loopFuel - 1, by omega⟩
    rw [searchLoop, hsample]
    simp only
    rw [if_neg (by omega), hreject]
    exact ih c pos2 hs (attempts + 1) lf (by omega) (by omega)

/-- What holds whenever the outer loop is at its test: the set and the reported list agree,
`foundCount` is their length and does not exceed `count`, the reported values are pairwise
distinct, and each is an odd `digitLength`-digit value that `isPrime` accepted in this run. -/
theorem reaches_invariant (fuel : Nat) (src : ByteSource) (digitLength count : Int) (pos : Nat)
    (hd : 1 ≤ digitLength) (hc : 0 ≤ count) (st : SearchState)
    (hst : Reaches fuel src digitLength count pos st) :
    st.primesSet = st.reported ∧ (st.reported.length : Int) = st.foundCount ∧
    st.foundCount ≤ count ∧ st.reported.Nodup ∧
    ∀ p ∈ st.reported, p % 2 = 1 ∧ 10 ^ (digitLength - 1).toNat ≤ p ∧
      p ≤ 10 ^ digitLength.toNat - 1 ∧
      ∃ (posA posB : Nat), isPrime fuel src posA p = .ok (true, posB) := by
  induction hst with
  | start => exact ⟨rfl, rfl, hc, List.nodup_nil, fun p hp => by cases hp⟩
  | step hprev hlt hfound ih =>
    rename_i st c pos1
    obtain ⟨hset, hlen, hle, hnodup, hall⟩ := ih
    obtain ⟨posA, posB, hsample, haccept⟩ :=
      searchLoop_ok fuel src digitLength _ _ _ _ _ _ _ hfound
    obtain ⟨hprime, hnotin⟩ := acceptsCandidate_true fuel src _ _ _ _ haccept
    obtain ⟨_, hodd, hlo, hhi⟩ := sampleCandidate_ok fuel src posA digitLength hd c posB hsample
    have hcontains : st.primesSet.contains c = false := by
      cases hcon : st.primesSet.contains c with
      | false => rfl
      | true => exact absurd (by simpa using hcon) hnotin
    have hnotin2 : c ∉ st.reported := by rw [← hset]; exact hnotin
    refine ⟨?_, ?_, ?_, ?_, ?_⟩
    · simp only [SearchState.accept]
      rw [if_neg (by rw [hcontains]; exact Bool.false_ne_true), hset]
    · simp only [SearchState.accept, List.length_append, List.length_singleton]
      push_cast
      omega
    · simp only [SearchState.accept]
      omega
    · simp only [SearchState.accept]
      rw [List.nodup_append]
      refine ⟨hnodup, List.nodup_singleton c, ?_⟩
      intro a ha hb
      rw [List.mem_singleton] at hb
      subst hb
      exact hnotin2 ha
    · intro p hp
      simp only [SearchState.accept, List.mem_append, List.mem_singleton] at hp
      rcases hp with hp | hp
      · exact hall p hp
      · subst hp
        exact ⟨hodd, hlo, hhi, posB, _, hprime⟩

theorem generateLoop_found (fuel : Nat) (src : ByteSource) (digitLength count : Int)
    (loopFuel : Nat) (st : SearchState) (c : Int) (pos1 : Nat) (hlt : st.foundCount < count)
    (hs : searchLoop fuel src digitLength (maxAttempts digitLength) st.primesSet fuel 0 st.pos
      = .ok (c, pos1)) :
    generateLoop fuel src digitLength count (loopFuel + 1) st
      = generateLoop fuel src digitLength count loopFuel (st.accept c pos1) := by
  rw [generateLoop, if_pos hlt, hs]

theorem generateLoop_failed (fuel : Nat) (src : ByteSource) (digitLength count : Int)
    (loopFuel : Nat) (st : SearchState) (e : Err) (hlt : st.foundCount < count)
    (hs : searchLoop fuel src digitLength (maxAttempts digitLength) st.primesSet fuel 0 st.pos
      = .error e) :
    generateLoop fuel src digitLength count (loopFuel + 1) st = ⟨st.reported, .error e⟩ := by
  rw [generateLoop, if_pos hlt, hs]

theorem generateLoop_done (fuel : Nat) (src : ByteSource) (digitLength count : Int)
    (loopFuel : Nat) (st : SearchState) (hlt : ¬ st.foundCount < count) :
    generateLoop fuel src digitLength count (loopFuel + 1) st = ⟨st.reported, .ok st.pos⟩ := by
  rw [generateLoop, if_neg hlt]

theorem generateLoop_ok (fuel : Nat) (src : ByteSource) (digitLength count : Int) (pos : Nat) :
    ∀ (loopFuel : Nat) (st : SearchState), Reaches fuel src digitLength count pos st →
      ∀ pos1 : Nat, (generateLoop fuel src digitLength count loopFuel st).outcome = .ok pos1 →
      ∃ st1 : SearchState, Reaches fuel src digitLength count pos st1 ∧
        ¬ st1.foundCount < count ∧
        (generateLoop fuel src digitLength count loopFuel st).reported = st1.reported := by
  intro loopFuel
  induction loopFuel with
  | zero => intro st _ pos1 h; simp [generateLoop] at h
  | succ lf ih =>
    intro st hst pos1 h
    by_cases hlt : st.foundCount < count
    · cases hs : searchLoop fuel src digitLength (maxAttempts digitLength) st.primesSet fuel 0
          st.pos with
      | error e =>
        rw [generateLoop_failed fuel src digitLength count lf st e hlt hs] at h
        cases h
      | ok res =>
        obtain ⟨c, p1⟩ := res
        rw [generateLoop_found fuel src digitLength count lf st c p1 hlt hs] at h ⊢
        exact ih _ (Reaches.step hst hlt hs) pos1 h
    · rw [generateLoop_done fuel src digitLength count lf st hlt]
      exact ⟨st, hst, hlt, rfl⟩

theorem generateLoop_error (fuel : Nat) (src : ByteSource) (digitLength count : Int)
    (hd : 1 ≤ digitLength) : ∀ (loopFuel : Nat) (st : SearchState) (e : Err),
      (generateLoop fuel src digitLength count loopFuel st).outcome = .error e →
      e = .attemptsExhausted ∨ e = .outOfFuel := by
  intro loopFuel
  induction loopFuel with
  | zero =>
    intro st e h
    simp [generateLoop] at h
    exact Or.inr h.symm
  | succ lf ih =>
    intro st e h
    by_cases hlt : st.foundCount < count
    · cases hs : searchLoop fuel src digitLength (maxAttempts digitLength) st.primesSet fuel 0
          st.pos with
      | error e1 =>
        rw [generateLoop_failed fuel src digitLength count lf st e1 hlt hs] at h
        simp only [Except.error.injEq] at h
        rw [← h]
        exact searchLoop_error fuel src digitLength hd _ _ _ _ _ _ hs
      | ok res =>
        obtain ⟨c, p1⟩ := res
        rw [generateLoop_found fuel src digitLength count lf st c p1 hlt hs] at h
        exact ih _ e h
    · rw [generateLoop_done fuel src digitLength count lf st hlt] at h
      cases h

theorem generateLoop_exhausted (fuel : Nat) (src : ByteSource) (digitLength count : Int)
    (pos : Nat) : ∀ (loopFuel : Nat) (st : SearchState),
      Reaches fuel src digitLength count pos st →
      (generateLoop fuel src digitLength count loopFuel st).outcome
        = .error .attemptsExhausted →
      ∃ st1 : SearchState, Reaches fuel src digitLength count pos st1 ∧
        st1.foundCount < count ∧
        searchLoop fuel src digitLength (maxAttempts digitLength) st1.primesSet fuel 0 st1.pos
          = .error .attemptsExhausted := by
  intro loopFuel
  induction loopFuel with
  | zero => intro st _ h; simp [generateLoop] at h
  | succ lf ih =>
    intro st hst h
    by_cases hlt : st.foundCount < count
    · cases hs : searchLoop fuel src digitLength (maxAttempts digitLength) st.primesSet fuel 0
          st.pos with
      | error e1 =>
        rw [generateLoop_failed fuel src digitLength count lf st e1 hlt hs] at h
        simp only [Except.error.injEq] at h
        subst h
        exact ⟨st, hst, hlt, hs⟩
      | ok res =>
        obtain ⟨c, p1⟩ := res
        rw [generateLoop_found fuel src digitLength count lf st c p1 hlt hs] at h
        exact ih _ (Reaches.step hst hlt hs) h
    · rw [generateLoop_done fuel src digitLength count lf st hlt] at h
      cases h

theorem generateLoop_of_reaches (fuel : Nat) (src : ByteSource) (digitLength count : Int)
    (pos : Nat) (st : SearchState) (hst : Reaches fuel src digitLength count pos st) :
    ∃ n : Nat, (n : Int) = st.foundCount ∧ ∀ loopFuel : Nat,
      generateLoop fuel src digitLength count (loopFuel + n) ⟨[], 0, [], pos⟩
        = generateLoop fuel src digitLength count loopFuel st := by
  induction hst with
  | start => exact ⟨0, rfl, fun _ => rfl⟩
  | step hprev hlt hfound ih =>
    obtain ⟨n, hn, hloop⟩ := ih
    refine ⟨n + 1, by simp only [SearchState.accept]; push_cast; omega, ?_⟩
    intro loopFuel
    have := hloop (loopFuel + 1)
    rw [show loopFuel + (n + 1) = loopFuel + 1 + n by omega, this]
    exact generateLoop_found fuel src digitLength count loopFuel _ _ _ hlt hfound

/-- C2: whenever `generatePrimesProgressive(digitLength, count, …)` with digitLength ≥ 1 and
count ≥ 1 completes normally, `onPrimeFound` has been called exactly `count` times, with
pairwise distinct values, each odd, each in [10^(digitLength-1), 10^digitLength - 1], and each
accepted by `isPrime` in this run. -/
theorem generatePrimesProgressive_complete (fuel : Nat) (src : ByteSource) (pos : Nat)
    (digitLength count : Int) (pos1 : Nat) (hd : 1 ≤ digitLength) (hc : 1 ≤ count)
    (h : (generatePrimesProgressive fuel src pos digitLength count).outcome = .ok pos1) :
    ((generatePrimesProgressive fuel src pos digitLength count).reported.length : Int) = count ∧
    (generatePrimesProgressive fuel src pos digitLength count).reported.Nodup ∧
    ∀ p ∈ (generatePrimesProgressive fuel src pos digitLength count).reported,
      p % 2 = 1 ∧ 10 ^ (digitLength - 1).toNat ≤ p ∧ p ≤ 10 ^ digitLength.toNat - 1 ∧
      ∃ (posA posB : Nat), isPrime fuel src posA p = .ok (true, posB) := by
  unfold generatePrimesProgressive at h ⊢
  obtain ⟨st1, hreach, hdone, hrep⟩ :=
    generateLoop_ok fuel src digitLength count pos fuel _ Reaches.start pos1 h
  obtain ⟨_, hlen, hle, hnodup, hall⟩ :=
    reaches_invariant fuel src digitLength count pos hd (by omega) st1 hreach
  rw [hrep]
  exact ⟨by omega, hnodup, hall⟩

theorem generatePrimesProgressive_complete_witness :
    ((generatePrimesProgressive 5 (fun _ => 2) 0 1 1).reported.length : Int) = 1 ∧
    (generatePrimesProgressive 5 (fun _ => 2) 0 1 1).reported.Nodup ∧
    ∀ p ∈ (generatePrimesProgressive 5 (fun _ => 2) 0 1 1).reported,
      p % 2 = 1 ∧ 10 ^ ((1 : Int) - 1).toNat ≤ p ∧ p ≤ 10 ^ (1 : Int).toNat - 1 ∧
      ∃ (posA posB : Nat), isPrime 5 (fun _ => 2) posA p = .ok (true, posB) :=
  generatePrimesProgressive_complete 5 (fun _ => 2) 0 1 1 1 (by decide) (by decide) (by decide)

/-- On the all-zero byte source every 1-digit candidate is 1, drawn with one byte. -/
theorem sampleCandidate_zero_source (fuel pos : Nat) (hfuel : 0 < fuel) :
    sampleCandidate fuel (fun _ => 0) pos 1 = .ok (1, pos + 1) := by
  have hmin : (10 : Int) ^ ((1 : Int) - 1).toNat = 1 := by decide
  have hmax : (10 : Int) ^ (1 : Int).toNat - 1 = 9 := by decide
  have hlen : byteLength ((9 : Int) - 1) = 1 := by decide
  have hr : randomBigIntInRange fuel (fun _ => 0) pos 1 9 = .ok (1, pos + 1) := by
    rw [randomBigIntInRange_first (fun _ => 0) pos 1 9 0 fuel
      (by rw [drawValue_zero]; decide) (fun j hj => absurd hj (Nat.not_lt_zero j)) hfuel,
      drawValue_zero, hlen]
    rfl
  unfold sampleCandidate generateRandomOddNumber
  rw [if_neg (by decide), hmin, hmax]
  simp only
  rw [hr]
  rfl

/-- On the all-zero byte source with nothing accepted yet, any number of 1-digit candidates in
a row is rejected: each is 1, which `isPrime` refuses. -/
theorem rejectedRun_zero_source (fuel : Nat) (hfuel : 0 < fuel) :
    ∀ (k pos : Nat), RejectedRun fuel (fun _ => 0) 1 [] k pos (pos + k) := by
  intro k
  induction k with
  | zero => intro pos; exact RejectedRun.zero pos
  | succ k ih =>
    intro pos
    have hacc : acceptsCandidate fuel (fun _ => 0) [] (pos + 1) 1 = .ok (false, pos + 1) := by
      unfold acceptsCandidate
      rw [isPrime_fast fuel _ _ 1 (Or.inl (by decide))]
      rfl
    have hrest := ih (pos + 1)
    rw [show pos + 1 + k = pos + (k + 1) by omega] at hrest
    exact RejectedRun.succ (sampleCandidate_zero_source fuel pos hfuel) hacc hrest

theorem maxAttempts_eq (digitLength : Int) :
    maxAttempts digitLength = if digitLength ≤ 100 then 10000 else 500000 := by
  unfold maxAttempts
  by_cases h : digitLength > 100
  · rw [if_pos h, if_neg (by omega)]
  · rw [if_neg h, if_pos (by omega)]

/-- C3: with digitLength ≥ 1, count ≥ 1 and fuel above the cap and above count,
`generatePrimesProgressive` throws the attempts error exactly when the outer loop reaches the
search for some target (`foundCount < count`) whose first cap sampled candidates are all
rejected and a further, (cap+1)-th, candidate is sampled, where cap is 10000 for
digitLength ≤ 100 and 500000 otherwise; nothing else is thrown (the only other abnormal outcome
is the fuel bound of the model); and a call that completes normally has reported exactly
`count` primes. -/
theorem generatePrimesProgressive_fails_iff (fuel : Nat) (src : ByteSource) (pos : Nat)
    (digitLength count : Int) (hd : 1 ≤ digitLength) (hc : 1 ≤ count)
    (hcap : maxAttempts digitLength < fuel) (hcount : count < (fuel : Int)) :
    (maxAttempts digitLength = if digitLength ≤ 100 then 10000 else 500000) ∧
    ((generatePrimesProgressive fuel src pos digitLength count).outcome
        = .error .attemptsExhausted ↔
      ∃ (st : SearchState) (pos1 : Nat) (c : Int) (pos2 : Nat),
        Reaches fuel src digitLength count pos st ∧ st.foundCount < count ∧
        RejectedRun fuel src digitLength st.primesSet (maxAttempts digitLength) st.pos pos1 ∧
        sampleCandidate fuel src pos1 digitLength = .ok (c, pos2)) ∧
    (∀ e : Err, (generatePrimesProgressive fuel src pos digitLength count).outcome = .error e →
      e = .attemptsExhausted ∨ e = .outOfFuel) ∧
    (∀ pos1 : Nat,
      (generatePrimesProgressive fuel src pos digitLength count).outcome = .ok pos1 →
      ((generatePrimesProgressive fuel src pos digitLength count).reported.length : Int)
        = count) := by
  refine ⟨maxAttempts_eq digitLength, ⟨?_, ?_⟩, ?_, ?_⟩
  · intro h
    unfold generatePrimesProgressive at h
    obtain ⟨st, hreach, hlt, hsearch⟩ :=
      generateLoop_exhausted fuel src digitLength count pos fuel _ Reaches.start h
    obtain ⟨pos1, c, pos2, hrun, hsample⟩ :=
      searchLoop_exhausted fuel src digitLength hd _ _ fuel 0 st.pos (Nat.zero_le _) hsearch
    exact ⟨st, pos1, c, pos2, hreach, hlt, hrun, hsample⟩
  · rintro ⟨st, pos1, c, pos2, hreach, hlt, hrun, hsample⟩
    obtain ⟨n, hn, hloop⟩ := generateLoop_of_reaches fuel src digitLength count pos st hreach
    have hsearch := searchLoop_of_rejected fuel src digitLength (maxAttempts digitLength)
      st.primesSet _ _ _ hrun c pos2 hsample 0 fuel (by omega) hcap
    obtain ⟨lf, hlf⟩ : ∃ lf, fuel = lf + 1 + n := ⟨fuel - 1 - n, by omega⟩
    unfold generatePrimesProgressive
    have h1 : generateLoop fuel src digitLength count fuel ⟨[], 0, [], pos⟩
        = generateLoop fuel src digitLength count (lf + 1) st := by
      have := hloop (lf + 1)
      rw [← hlf] at this
      exact this
    rw [h1, generateLoop_failed fuel src digitLength count lf st _ hlt hsearch]
  · intro e h
    exact generateLoop_error fuel src digitLength count hd fuel _ e h
  · intro pos1 h
    unfold generatePrimesProgressive at h ⊢
    obtain ⟨st1, hreach, hdone, hrep⟩ :=
      generateLoop_ok fuel src digitLength count pos fuel _ Reaches.start pos1 h
    obtain ⟨_, hlen, hle, _, _⟩ :=
      reaches_invariant fuel src digitLength count pos hd (by omega) st1 hreach
    rw [hrep]
    omega

theorem generatePrimesProgressive_fails_iff_witness :
    (generatePrimesProgressive 10001 (fun _ => 0) 0 1 1).outcome = .error .attemptsExhausted :=
  (generatePrimesProgressive_fails_iff 10001 (fun _ => 0) 0 1 1 (by decide) (by decide)
    (by decide) (by decide)).2.1.mpr
    ⟨⟨[], 0, [], 0⟩, 0 + maxAttempts 1, 1, 0 + maxAttempts 1 + 1, Reaches.start, by decide,
      rejectedRun_zero_source 10001 (by decide) (maxAttempts 1) 0,
      sampleCandidate_zero_source 10001 (0 + maxAttempts 1) (by decide)⟩

end PrimeCore

namespace PrimeClient

/-- C11: `selectMode` returns the configured mode whenever it is not 'auto'; in 'auto' mode,
with complexity = digitLength * count, it returns 'server' iff complexity > 1000, 'worker' iff
200 < complexity ≤ 1000 and a Worker is defined, and 'mainthread' otherwise. So complexity
1010 gives the server, 250 the worker when defined, 50 the main thread, and the boundaries
1000 and 200 fall to the lower tier. -/
theorem selectMode_spec (mode : String) (workerDefined : Bool) (digitLength count : Int) :
    (mode ≠ "auto" → selectMode mode workerDefined digitLength count = mode) ∧
    (selectMode "auto" workerDefined digitLength count = "server" ↔
      digitLength * count > 1000) ∧
    (selectMode "auto" workerDefined digitLength count = "worker" ↔
      200 < digitLength * count ∧ digitLength * count ≤ 1000 ∧ workerDefined = true) ∧
    (selectMode "auto" workerDefined digitLength count = "mainthread" ↔
      ¬ digitLength * count > 1000 ∧
        ¬ (200 < digitLength * count ∧ digitLength * count ≤ 1000 ∧ workerDefined = true)) ∧
    selectMode "auto" workerDefined 10 101 = "server" ∧
    selectMode "auto" true 5 50 = "worker" ∧
    selectMode "auto" false 5 50 = "mainthread" ∧
    selectMode "auto" workerDefined 5 10 = "mainthread" ∧
    selectMode "auto" true 10 100 = "worker" ∧
    selectMode "auto" workerDefined 10 20 = "mainthread" := by
  have hauto : ¬ ("auto" ≠ "auto") := fun h => h rfl
  refine ⟨fun h => by rw [selectMode, if_pos h], ?_, ?_, ?_, ?_, ?_, ?_, ?_, ?_, ?_⟩
  · rw [selectMode, if_neg hauto]
    by_cases h1 : digitLength * count > 1000
    · simp [h1]
    · rw [if_neg h1]
      by_cases h2 : digitLength * count > 200 ∧ workerDefined = true
      · rw [if_pos h2]; simp [h1]
      · rw [if_neg h2]; simp [h1]
  · rw [selectMode, if_neg hauto]
    by_cases h1 : digitLength * count > 1000
    · rw [if_pos h1]
      constructor
      · intro h; exact absurd h (by decide)
      · intro h; omega
    · rw [if_neg h1]
      by_cases h2 : digitLength * count > 200 ∧ workerDefined = true
      · rw [if_pos h2]
        exact ⟨fun _ => ⟨h2.1, by omega, h2.2⟩, fun _ => rfl⟩
      · rw [if_neg h2]
        constructor
        · intro h; exact absurd h (by decide)
        · intro h; exact absurd ⟨h.1, h.2.2⟩ h2
  · rw [selectMode, if_neg hauto]
    by_cases h1 : digitLength * count > 1000
    · rw [if_pos h1]
      constructor
      · intro h; exact absurd h (by decide)
      · intro h; exact absurd h1 h.1
    · rw [if_neg h1]
      by_cases h2 : digitLength * count > 200 ∧ workerDefined = true
      · rw [if_pos h2]
        constructor
        · intro h; exact absurd h (by decide)
        · intro h; exact absurd ⟨h2.1, by omega, h2.2⟩ h.2
      · rw [if_neg h2]
        exact ⟨fun _ => ⟨h1, fun h => h2 ⟨h.1, h.2.2⟩⟩, fun _ => rfl⟩
  · cases workerDefined <;> decide
  · decide
  · decide
  · cases workerDefined <;> decide
  · decide
  · cases workerDefined <;> decide

/-- The calls that `generateViaServer` makes, in order, and its outcome, case by case. -/
theorem generateViaServer_cases {κ : Type} (env : Call κ → Attempt) (d c : Int) (cb : κ) :
    (generateViaServer env d c cb).calls =
      ⟨.server, d, c, cb⟩ ::
        (match (env ⟨.server, d, c, cb⟩).outcome with
          | .ok _ => []
          | .error _ =>
            ⟨.worker, d, c, cb⟩ ::
              (match (env ⟨.worker, d, c, cb⟩).outcome with
                | .ok _ => []
                | .error _ => [⟨.mainThread, d, c, cb⟩])) ∧
    (generateViaServer env d c cb).outcome =
      (match (env ⟨.server, d, c, cb⟩).outcome with
        | .ok _ => .ok ()
        | .error _ =>
          match (env ⟨.worker, d, c, cb⟩).outcome with
          | .ok _ => .ok ()
          | .error _ => (env ⟨.mainThread, d, c, cb⟩).outcome) := by
  unfold generateViaServer generateViaWorker generateViaMainThread
  dsimp only
  cases hs : (env ⟨.server, d, c, cb⟩).outcome <;>
    cases hw : (env ⟨.worker, d, c, cb⟩).outcome <;> exact ⟨rfl, rfl⟩

/-- The calls that `generateViaWorker` makes, in order, and its outcome, case by case. -/
theorem generateViaWorker_cases {κ : Type} (env : Call κ → Attempt) (d c : Int) (cb : κ) :
    (generateViaWorker env d c cb).calls =
      ⟨.worker, d, c, cb⟩ ::
        (match (env ⟨.worker, d, c, cb⟩).outcome with
          | .ok _ => []
          | .error _ => [⟨.mainThread, d, c, cb⟩]) ∧
    (generateViaWorker env d c cb).outcome =
      (match (env ⟨.worker, d, c, cb⟩).outcome with
        | .ok _ => .ok ()
        | .error _ => (env ⟨.mainThread, d, c, cb⟩).outcome) := by
  unfold generateViaWorker generateViaMainThread
  dsimp only
  cases hw : (env ⟨.worker, d, c, cb⟩).outcome <;> exact ⟨rfl, rfl⟩

/-- C12: the fallback chain is sequential and ordered. Starting on the server, the calls made
are the server's, then the worker's exactly when the server's attempt failed, then the main
thread's exactly when the worker's attempt failed too; every call carries the same
digitLength, count and onPrimeFound; the whole call fails exactly when the main thread is
reached and fails, and then with the main thread's error. Starting on the worker, no call goes
to the server. -/
theorem fallback_chain {κ : Type} (env : Call κ → Attempt) (digitLength count : Int)
    (onPrimeFound : κ) :
    (generateViaServer env digitLength count onPrimeFound).calls.head?
      = some ⟨.server, digitLength, count, onPrimeFound⟩ ∧
    ((⟨.worker, digitLength, count, onPrimeFound⟩ : Call κ) ∈
        (generateViaServer env digitLength count onPrimeFound).calls ↔
      ∃ e, (env ⟨.server, digitLength, count, onPrimeFound⟩).outcome = .error e) ∧
    ((⟨.mainThread, digitLength, count, onPrimeFound⟩ : Call κ) ∈
        (generateViaServer env digitLength count onPrimeFound).calls ↔
      (∃ e, (env ⟨.server, digitLength, count, onPrimeFound⟩).outcome = .error e) ∧
        ∃ e, (env ⟨.worker, digitLength, count, onPrimeFound⟩).outcome = .error e) ∧
    (∀ call ∈ (generateViaServer env digitLength count onPrimeFound).calls,
      call.digitLength = digitLength ∧ call.count = count ∧
        call.onPrimeFound = onPrimeFound) ∧
    (∀ e, (generateViaServer env digitLength count onPrimeFound).outcome = .error e ↔
      (⟨.mainThread, digitLength, count, onPrimeFound⟩ : Call κ) ∈
          (generateViaServer env digitLength count onPrimeFound).calls ∧
        (env ⟨.mainThread, digitLength, count, onPrimeFound⟩).outcome = .error e) ∧
    (∀ call ∈ (generateViaWorker env digitLength count onPrimeFound).calls,
      call.substrate ≠ .server ∧ call.digitLength = digitLength ∧ call.count = count ∧
        call.onPrimeFound = onPrimeFound) ∧
    (∀ e, (generateViaWorker env digitLength count onPrimeFound).outcome = .error e ↔
      (⟨.mainThread, digitLength, count, onPrimeFound⟩ : Call κ) ∈
          (generateViaWorker env digitLength count onPrimeFound).calls ∧
        (env ⟨.mainThread, digitLength, count, onPrimeFound⟩).outcome = .error e) := by
  obtain ⟨hcalls, hout⟩ := generateViaServer_cases env digitLength count onPrimeFound
  obtain ⟨hwcalls, hwout⟩ := generateViaWorker_cases env digitLength count onPrimeFound
  rw [hcalls, hout, hwcalls, hwout]
  cases hs : (env ⟨.server, digitLength, count, onPrimeFound⟩).outcome <;>
    cases hw : (env ⟨.worker, digitLength, count, onPrimeFound⟩).outcome <;>
    simp [Call.mk.injEq]

end PrimeClient

namespace PrimeCore

/-- C20 (as stated) fails: the draw that samples 9 for digitLength = 1 (the byte 8, added to
the lower end 1) returns 9, not 10, since 9 is odd already. -/
theorem generateRandomOddNumber_nine_counterexample :
    randomBigIntInRange 1 (fun _ => 8) 0 1 9 = .ok (9, 1) ∧
    generateRandomOddNumber 1 (fun _ => 8) 0 1 = .ok (9, 1) := by
  decide

/-- C20 (amended): for digitLength = 1 the odd adjustment never leaves the digit length. Every
value returned by `generateRandomOddNumber(1)` is odd and lies in [1, 9], so it is never 10;
and when the value sampled is 9 the value returned is 9. -/
theorem generateRandomOddNumber_one_digit (fuel : Nat) (src : ByteSource) (pos : Nat) (v : Int)
    (pos1 : Nat) (h : generateRandomOddNumber fuel src pos 1 = .ok (v, pos1)) :
    v % 2 = 1 ∧ 1 ≤ v ∧ v ≤ 9 ∧ v ≠ 10 ∧
    (randomBigIntInRange fuel src pos 1 9 = .ok (9, pos1) → v = 9) := by
  obtain ⟨_, c, hc, hv⟩ := generateRandomOddNumber_ok fuel src pos 1 v pos1 h
  have hmin : (10 : Int) ^ ((1 : Int) - 1).toNat = 1 := by decide
  have hmax : (10 : Int) ^ (1 : Int).toNat - 1 = 9 := by decide
  rw [hmin, hmax] at hc
  obtain ⟨k, _, hck, hdraw, _, _⟩ := randomBigIntInRange_ok src pos 1 9 fuel c pos1 hc
  have hnn := drawValue_nonneg src (byteLength ((9 : Int) - 1)) pos k
  have hprops := oddAdjust_in_range 1 (by decide) c (by rw [hmin, hmax]; omega)
  rw [hmin, hmax, ← hv] at hprops
  refine ⟨hprops.1, hprops.2.1, hprops.2.2, by omega, ?_⟩
  intro h9
  rw [hc] at h9
  simp only [Except.ok.injEq, Prod.mk.injEq, and_true] at h9
  rw [hv, h9]
  decide

theorem generateRandomOddNumber_one_digit_witness :
    (9 : Int) % 2 = 1 ∧ (1 : Int) ≤ 9 ∧ (9 : Int) ≤ 9 ∧ (9 : Int) ≠ 10 ∧
    (randomBigIntInRange 1 (fun _ => 8) 0 1 9 = .ok (9, 1) → (9 : Int) = 9) :=
  generateRandomOddNumber_one_digit 1 (fun _ => 8) 0 9 1 (by decide)

end PrimeCore

namespace Server
open Js PrimeCore

/-- C15: for a body whose fields are integers or missing, the handler answers 400 with the
body of type 'error' and message 'Invalid digitLength or count', writes no stream line and
starts no search exactly when digitLength < 1 or count < 1 or a field is missing; otherwise
every answer is a stream with status 200, a started search and at least one line written. The
body with digitLength 0 and count 5 is answered 400. -/
theorem postPrimes_validation (engineMessage : Err → List Char) (fuel : Nat) (src : ByteSource)
    (pos : Nat) (digitLength count : Option Int) :
    (invalid digitLength count = true ↔
      digitLength = none ∨ count = none ∨ (∃ d, digitLength = some d ∧ d < 1) ∨
        ∃ c, count = some c ∧ c < 1) ∧
    (invalid digitLength count = true →
      postPrimes engineMessage fuel src pos digitLength count =
        .ok ⟨400, some (.error "Invalid digitLength or count".toList), [], false⟩) ∧
    (invalid digitLength count = false →
      ∀ r, postPrimes engineMessage fuel src pos digitLength count = .ok r →
        r.status = 200 ∧ r.json = none ∧ r.searchStarted = true ∧ r.written ≠ []) ∧
    (invalid digitLength count = false →
      (PrimeCore.generatePrimesProgressive fuel src pos (digitLength.getD 0)
        (count.getD 0)).outcome ≠ .error .outOfFuel →
      ∃ r, postPrimes engineMessage fuel src pos digitLength count = .ok r) ∧
    postPrimes engineMessage fuel src pos (some 0) (some 5) =
      .ok ⟨400, some (.error "Invalid digitLength or count".toList), [], false⟩ := by
  refine ⟨?_, ?_, ?_, ?_, rfl⟩
  · cases digitLength with
    | none => simp [invalid]
    | some d =>
      cases count with
      | none => simp [invalid]
      | some c =>
        simp only [invalid, Bool.or_eq_true, decide_eq_true_eq, Option.some.injEq,
          exists_eq_left', false_or, reduceCtorEq]
        omega
  · intro h
    rw [postPrimes, if_pos h]
  · intro h r hr
    rw [postPrimes, if_neg (by rw [h]; exact Bool.false_ne_true)] at hr
    dsimp only at hr
    split at hr
    · simp only [Except.ok.injEq] at hr
      subst hr
      exact ⟨rfl, rfl, rfl, by simp⟩
    · cases hr
    · simp only [Except.ok.injEq] at hr
      subst hr
      exact ⟨rfl, rfl, rfl, by simp⟩
  · intro h hrun
    rw [postPrimes, if_neg (by rw [h]; exact Bool.false_ne_true)]
    dsimp only
    split
    · exact ⟨_, rfl⟩
    · rename_i heq
      exact absurd heq hrun
    · exact ⟨_, rfl⟩

end Server

namespace Js

theorem splitNewline_ne_nil (l : List Char) : splitNewline l ≠ [] := by
  cases l with
  | nil => simp [splitNewline]
  | cons c cs =>
    rw [splitNewline]
    split
    · simp
    · split <;> simp

/-- A line without line feed, followed by a line feed, is the first piece of the split. -/
theorem splitNewline_line (l t : List Char) (hl : '\n' ∉ l) :
    splitNewline (l ++ '\n' :: t) = l :: splitNewline t := by
  induction l with
  | nil => simp [splitNewline]
  | cons c cs ih =>
    have hc : c ≠ '\n' := fun h => hl (by rw [h]; exact List.mem_cons_self _ _)
    have hcs : '\n' ∉ cs := fun h => hl (List.mem_cons_of_mem _ h)
    show splitNewline (c :: (cs ++ '\n' :: t)) = _
    rw [splitNewline, if_neg hc, ih hcs]

theorem splitNewline_of_not_mem (l : List Char) (hl : '\n' ∉ l) : splitNewline l = [l] := by
  induction l with
  | nil => rfl
  | cons c cs ih =>
    have hc : c ≠ '\n' := fun h => hl (by rw [h]; exact List.mem_cons_self _ _)
    have hcs : '\n' ∉ cs := fun h => hl (List.mem_cons_of_mem _ h)
    rw [splitNewline, if_neg hc, ih hcs]

/-- No piece of a split contains a line feed. -/
theorem not_mem_of_mem_splitNewline (l : List Char) :
    ∀ piece ∈ splitNewline l, '\n' ∉ piece := by
  induction l with
  | nil => intro piece h; simp [splitNewline] at h; subst h; simp
  | cons c cs ih =>
    intro piece h
    rw [splitNewline] at h
    by_cases hc : c = '\n'
    · rw [if_pos hc] at h
      rcases List.mem_cons.mp h with h | h
      · subst h; simp
      · exact ih piece h
    · rw [if_neg hc] at h
      cases hs : splitNewline cs with
      | nil => exact absurd hs (splitNewline_ne_nil cs)
      | cons p ps =>
        rw [hs] at h ih
        rcases List.mem_cons.mp h with h | h
        · subst h
          intro hmem
          rcases List.mem_cons.mp hmem with h1 | h1
          · exact hc h1.symm
          · exact ih p (List.mem_cons_self _ _) h1
        · exact ih piece (List.mem_cons_of_mem _ h)

/-- Splitting a text read in two parts: the complete lines of the first part, then the split of
what the first part left in the buffer followed by the second part. -/
theorem splitNewline_append (a b : List Char) :
    splitNewline (a ++ b) =
      (splitNewline a).dropLast ++ splitNewline ((splitNewline a).getLastD [] ++ b) := by
  induction a with
  | nil => simp [splitNewline]
  | cons c cs ih =>
    show splitNewline (c :: (cs ++ b)) = _
    by_cases hc : c = '\n'
    · rw [splitNewline, if_pos hc, splitNewline, if_pos hc, ih]
      cases hs : splitNewline cs with
      | nil => exact absurd hs (splitNewline_ne_nil cs)
      | cons p ps => simp [List.getLastD_cons]
    · rw [splitNewline, if_neg hc, splitNewline, if_neg hc, ih]
      cases hs : splitNewline cs with
      | nil => exact absurd hs (splitNewline_ne_nil cs)
      | cons p ps =>
        cases ps with
        | nil =>
          simp only [List.dropLast_single, List.nil_append, List.getLastD_cons,
            List.getLastD_nil, List.cons_append]
          conv_rhs => rw [splitNewline, if_neg hc]
        | cons q qs =>
          simp only [List.dropLast_cons₂, List.cons_append, List.getLastD_cons]

end Js

namespace Js

/-- The text made of lines without line feed, each followed by a line feed, splits into those
lines and an empty rest. -/
theorem splitNewline_lines (ls : List (List Char)) (hls : ∀ l ∈ ls, '\n' ∉ l) :
    splitNewline ((ls.map (fun l => l ++ ['\n'])).flatten) = ls ++ [[]] := by
  induction ls with
  | nil => rfl
  | cons l rest ih =>
    have hl : '\n' ∉ l := hls l (List.mem_cons_self _ _)
    have hrest : ∀ x ∈ rest, '\n' ∉ x := fun x hx => hls x (List.mem_cons_of_mem _ hx)
    rw [List.map_cons, List.flatten_cons, List.append_assoc, List.singleton_append,
      splitNewline_line l _ hl, ih hrest]
    rfl

theorem digitChar_ne_newline (k : Nat) (hk : k < 16) : Nat.digitChar k ≠ '\n' := by
  interval_cases k <;> decide

theorem newline_not_mem_quoteChar (c : Char) : '\n' ∉ quoteChar c := by
  unfold quoteChar
  split
  · decide
  split
  · decide
  split
  · decide
  split
  · decide
  split
  · decide
  split
  · decide
  split
  · decide
  split
  · rename_i h32
    have hd1 := digitChar_ne_newline (c.toNat / 16) (by omega)
    have hd2 := digitChar_ne_newline (c.toNat % 16) (by omega)
    simp only [List.mem_cons, List.mem_singleton, not_or, List.not_mem_nil, or_false]
    refine ⟨by decide, by decide, by decide, by decide, fun h => hd1 h.symm, fun h => hd2 h.symm⟩
  · rename_i h5 _ _ _
    simp only [List.mem_singleton]
    intro h
    apply h5
    rw [← h]
    decide

theorem newline_not_mem_quoteJsonString (s : List Char) : '\n' ∉ quoteJsonString s := by
  unfold quoteJsonString
  intro h
  rcases List.mem_cons.mp h with h | h
  · exact absurd h (by decide)
  rcases List.mem_append.mp h with h | h
  · obtain ⟨l, hl, hmem⟩ := List.mem_flatten.mp h
    obtain ⟨c, _, rfl⟩ := List.mem_map.mp hl
    exact newline_not_mem_quoteChar c hmem
  · rw [List.mem_singleton] at h
    exact absurd h (by decide)

/-- The text of a message written by `JSON.stringify` holds no line feed. -/
theorem newline_not_mem_jsonStringify (m : Message) : '\n' ∉ jsonStringify m := by
  have hq := newline_not_mem_quoteJsonString
  cases m with
  | prime p =>
    simp only [jsonStringify, List.mem_append, not_or, List.mem_singleton]
    exact ⟨⟨by decide, hq p⟩, by decide⟩
  | complete => decide
  | error e =>
    simp only [jsonStringify, List.mem_append, not_or, List.mem_singleton]
    exact ⟨⟨by decide, hq e⟩, by decide⟩

/-- A text that starts with a character that is not white space is not blank. -/
theorem trim_ne_nil (c : Char) (cs : List Char) (hc : isWhiteSpace c = false) :
    trim (c :: cs) ≠ [] := by
  unfold trim
  rw [List.dropWhile_cons_of_neg (by rw [hc]; exact Bool.false_ne_true)]
  intro h
  rw [List.reverse_eq_nil_iff, List.dropWhile_eq_nil_iff] at h
  have := h c (by simp)
  rw [hc] at this
  cases this

theorem trim_jsonStringify_ne_nil (m : Message) : trim (jsonStringify m) ≠ [] := by
  cases m with
  | prime p => exact trim_ne_nil _ _ (by decide)
  | complete => exact trim_ne_nil _ _ (by decide)
  | error e => exact trim_ne_nil _ _ (by decide)

end Js

namespace PrimeServerAPI
open Js PrimeClient

theorem getLastD_append_of_ne_nil (xs ys : List (List Char)) (h : ys ≠ []) :
    (xs ++ ys).getLastD [] = ys.getLastD [] := by
  rw [List.getLastD_eq_getLast?, List.getLastD_eq_getLast?, List.getLast?_append_of_ne_nil _ h]

/-- The read loop over any chunks amounts to one read of their concatenation: the buffer ends
as what follows the last line feed, and the lines before it have been processed in order. -/
theorem foldl_readChunk (pf : Platform) : ∀ (chunks : List (List Char)) (st : ReadState),
    '\n' ∉ st.buffer →
    chunks.foldl (readChunk pf) st =
      ⟨(splitNewline (st.buffer ++ chunks.flatten)).getLastD [],
        st.reported ++
          (splitNewline (st.buffer ++ chunks.flatten)).dropLast.filterMap (processLine pf)⟩ := by
  intro chunks
  induction chunks with
  | nil =>
    intro st hbuf
    simp [splitNewline_of_not_mem _ hbuf]
  | cons chunk rest ih =>
    intro st hbuf
    have hne := splitNewline_ne_nil (st.buffer ++ chunk)
    have hlast : '\n' ∉ (splitNewline (st.buffer ++ chunk)).getLastD [] := by
      apply not_mem_of_mem_splitNewline (st.buffer ++ chunk)
      cases hs : splitNewline (st.buffer ++ chunk) with
      | nil => exact absurd hs hne
      | cons p ps =>
        rw [List.getLastD_cons]
        cases ps with
        | nil => simp
        | cons q qs =>
          rw [List.getLastD_eq_getLast?, List.getLast?_eq_getLast _ (by simp)]
          simp only [Option.getD_some]
          exact List.mem_cons_of_mem _ (List.getLast_mem _)
    rw [List.foldl_cons, ih (readChunk pf st chunk) hlast]
    have hsplit := splitNewline_append (st.buffer ++ chunk) rest.flatten
    have hne2 := splitNewline_ne_nil
      ((splitNewline (st.buffer ++ chunk)).getLastD [] ++ rest.flatten)
    simp only [readChunk, List.flatten_cons, ← List.append_assoc]
    rw [hsplit]
    congr 1
    · rw [getLastD_append_of_ne_nil _ _ hne2]
    · rw [List.dropLast_append_of_ne_nil _ hne2, List.filterMap_append, List.append_assoc]

/-- A body made of whole lines, however it is cut into chunks, has each line processed once,
in order, and leaves the buffer empty. -/
theorem foldl_readChunk_lines (pf : Platform) (ls : List (List Char))
    (hls : ∀ l ∈ ls, '\n' ∉ l) (chunks : List (List Char))
    (hchunks : chunks.flatten = (ls.map (fun l => l ++ ['\n'])).flatten) :
    chunks.foldl (readChunk pf) ⟨[], []⟩ = ⟨[], ls.filterMap (processLine pf)⟩ := by
  rw [foldl_readChunk pf chunks ⟨[], []⟩ (by simp)]
  simp only [List.nil_append]
  rw [hchunks, splitNewline_lines ls hls]
  simp

end PrimeServerAPI

namespace Js

theorem toDigitsCore_append (b : Nat) : ∀ (f n : Nat) (ds : List Char),
    Nat.toDigitsCore b f n ds = Nat.toDigitsCore b f n [] ++ ds := by
  intro f
  induction f with
  | zero => intro n ds; simp [Nat.toDigitsCore]
  | succ f ih =>
    intro n ds
    rw [Nat.toDigitsCore, Nat.toDigitsCore]
    by_cases h : n / b = 0
    · simp [h]
    · simp only [h, if_false]
      rw [ih (n / b) (Nat.digitChar (n % b) :: ds), ih (n / b) [Nat.digitChar (n % b)]]
      simp

theorem digitValue_digitChar (k : Nat) (hk : k < 10) :
    digitValue 10 (Nat.digitChar k) = some k := by
  interval_cases k <;> decide

theorem digitChar_isDigit (k : Nat) (hk : k < 10) :
    48 ≤ (Nat.digitChar k).toNat ∧ (Nat.digitChar k).toNat ≤ 57 := by
  interval_cases k <;> decide

theorem readDigits_append (radix : Nat) : ∀ (l1 l2 : List Char) (acc : Nat),
    readDigits radix (l1 ++ l2) acc = (readDigits radix l1 acc).bind (readDigits radix l2) := by
  intro l1
  induction l1 with
  | nil => intro l2 acc; rfl
  | cons c cs ih =>
    intro l2 acc
    show readDigits radix (c :: (cs ++ l2)) acc = _
    rw [readDigits, readDigits]
    cases digitValue radix c with
    | none => rfl
    | some v => exact ih l2 _

/-- The decimal digits that the core prints for `n` read back as `n`, and all are digits. -/
theorem toDigitsCore_decimal : ∀ (f n : Nat), n < f →
    readDigits 10 (Nat.toDigitsCore 10 f n []) 0 = some n ∧
    Nat.toDigitsCore 10 f n [] ≠ [] ∧
    ∀ c ∈ Nat.toDigitsCore 10 f n [], 48 ≤ c.toNat ∧ c.toNat ≤ 57 := by
  intro f
  induction f with
  | zero => intro n h; omega
  | succ f ih =>
    intro n h
    have hmod : n % 10 < 10 := Nat.mod_lt _ (by norm_num)
    rw [Nat.toDigitsCore]
    by_cases h0 : n / 10 = 0
    · simp only [h0, if_true]
      refine ⟨?_, by simp, ?_⟩
      · rw [readDigits, digitValue_digitChar _ hmod]
        simp only [readDigits, zero_mul, zero_add]
        congr 1
        omega
      · intro c hc
        rw [List.mem_singleton] at hc
        subst hc
        exact digitChar_isDigit _ hmod
    · simp only [h0, if_false]
      rw [toDigitsCore_append]
      obtain ⟨hread, hne, hall⟩ := ih (n / 10) (by omega)
      refine ⟨?_, by simp, ?_⟩
      · rw [readDigits_append, hread]
        simp only [readDigits, digitValue_digitChar _ hmod]
        show some (n / 10 * 10 + n % 10) = some n
        congr 1
        omega
      · intro c hc
        rcases List.mem_append.mp hc with hc | hc
        · exact hall c hc
        · rw [List.mem_singleton] at hc
          subst hc
          exact digitChar_isDigit _ hmod

theorem toDigits_decimal (n : Nat) :
    readDigits 10 (Nat.toDigits 10 n) 0 = some n ∧ Nat.toDigits 10 n ≠ [] ∧
    ∀ c ∈ Nat.toDigits 10 n, 48 ≤ c.toNat ∧ c.toNat ≤ 57 :=
  toDigitsCore_decimal (n + 1) n (Nat.lt_succ_self n)

theorem isWhiteSpace_of_ascii (c : Char) (h1 : 33 ≤ c.toNat) (h2 : c.toNat ≤ 126) :
    isWhiteSpace c = false := by
  unfold isWhiteSpace
  simp only [Bool.or_eq_false_iff, decide_eq_false_iff_not, Bool.and_eq_false_imp,
    decide_eq_true_eq]
  omega

/-- Trimming leaves a text alone when it has no white space at all. -/
theorem trim_eq_self (l : List Char) (h : ∀ c ∈ l, isWhiteSpace c = false) : trim l = l := by
  have hdrop : ∀ l : List Char, (∀ c ∈ l, isWhiteSpace c = false) →
      l.dropWhile isWhiteSpace = l := by
    intro l hl
    cases l with
    | nil => rfl
    | cons c cs =>
      rw [List.dropWhile_cons_of_neg]
      rw [hl c (List.mem_cons_self _ _)]
      exact Bool.false_ne_true
  unfold trim
  rw [hdrop l h, hdrop l.reverse (fun c hc => h c (List.mem_reverse.mp hc)), List.reverse_reverse]

/-- Reading a run of decimal digits as a BigInt, when the run is not empty. -/
theorem stringToBigInt_digits (ds : List Char) (n : Nat) (hread : readDigits 10 ds 0 = some n)
    (hne : ds ≠ []) (hall : ∀ c ∈ ds, 48 ≤ c.toNat ∧ c.toNat ≤ 57) :
    stringToBigInt ds = some (n : Int) ∧ stringToBigInt ('-' :: ds) = some (-(n : Int)) := by
  have hws : ∀ c ∈ ds, isWhiteSpace c = false := fun c hc =>
    isWhiteSpace_of_ascii c (by have := hall c hc; omega) (by have := hall c hc; omega)
  have hnum : readNumber 10 ds = some n := by
    rw [readNumber, if_neg hne, hread]
  constructor
  · unfold stringToBigInt
    rw [trim_eq_self ds hws]
    cases ds with
    | nil => exact absurd rfl hne
    | cons c cs =>
      have hc := hall c (List.mem_cons_self _ _)
      have hhead : ∀ x : Char, (x.toNat < 48 ∨ 57 < x.toNat) → cs.head? ≠ some x := by
        intro x hx hh
        cases cs with
        | nil => cases hh
        | cons c2 cs2 =>
          simp only [List.head?_cons, Option.some.injEq] at hh
          have := hall c2 (by simp)
          rw [hh] at this
          omega
      have hx := hhead 'x' (by decide)
      have hX := hhead 'X' (by decide)
      have ho := hhead 'o' (by decide)
      have hO := hhead 'O' (by decide)
      have hb := hhead 'b' (by decide)
      have hB := hhead 'B' (by decide)
      have hplus : c ≠ '+' := by
        intro h; rw [h] at hc; revert hc; decide
      have hminus : c ≠ '-' := by
        intro h; rw [h] at hc; revert hc; decide
      simp only [hx, hX, ho, hO, hb, hB, hplus, hminus, or_self, and_false, if_false, hnum,
        Option.map_some']
      rfl
  · unfold stringToBigInt
    have hws2 : ∀ c ∈ '-' :: ds, isWhiteSpace c = false := by
      intro c hc
      rcases List.mem_cons.mp hc with h | h
      · subst h; decide
      · exact hws c h
    rw [trim_eq_self _ hws2]
    have h0 : ('-' : Char) ≠ '0' := by decide
    have hp : ('-' : Char) ≠ '+' := by decide
    simp only [h0, hp, false_and, if_false, if_true, hnum, Option.map_some']
    rfl

/-- The decimal string of a BigInt reads back as the same BigInt: `BigInt(p.toString()) = p`.
-/
theorem stringToBigInt_bigIntToString (p : Int) : stringToBigInt (bigIntToString p) = some p := by
  unfold bigIntToString
  by_cases hneg : p < 0
  · rw [if_pos hneg]
    obtain ⟨hread, hne, hall⟩ := toDigits_decimal p.natAbs
    rw [(stringToBigInt_digits _ _ hread hne hall).2]
    congr 1
    omega
  · rw [if_neg hneg]
    obtain ⟨hread, hne, hall⟩ := toDigits_decimal p.toNat
    rw [(stringToBigInt_digits _ _ hread hne hall).1]
    congr 1
    omega

end Js

namespace PrimeServerAPI
open Js PrimeClient

/-- Once a response with `ok` status has arrived and its body has been read to the end, the
call resolves, whatever the lines were: nothing thrown while a line is processed leaves the
inner `try`. -/
theorem generatePrimesProgressive_resolves (pf : Platform) (status : Nat)
    (chunks : List (List Char)) :
    (generatePrimesProgressive pf (.response true status chunks none)).outcome = .ok () := by
  rfl

/-- C13 (the code at the failing input): when `JSON.parse` reads the server's error line as
the object it stands for, the body of the inner `try` does throw the server's error, but
`catch (parseError)` swallows it: the line reports nothing, the call on a response made of
that line resolves, and `generateViaServer` then makes no call to the worker. -/
theorem error_line_swallowed (pf : Platform) (msg : List Char) (digitLength count : Int)
    (env : Call Unit → Attempt)
    (hparse : pf.jsonParse (jsonStringify (.error msg)) = some (Message.error msg).toJson)
    (henv : env ⟨.server, digitLength, count, ()⟩ =
      generatePrimesProgressive pf (.response true 200 [Server.line (.error msg)] none)) :
    (∃ thrown, lineBody pf (jsonStringify (.error msg)) = .error thrown) ∧
    processLine pf (jsonStringify (.error msg)) = none ∧
    generatePrimesProgressive pf (.response true 200 [Server.line (.error msg)] none)
      = ⟨[], .ok ()⟩ ∧
    (generateViaServer env digitLength count ()).calls = [⟨.server, digitLength, count, ()⟩] ∧
    (generateViaServer env digitLength count ()).outcome = .ok () := by
  have hbody : ∃ thrown, lineBody pf (jsonStringify (.error msg)) = .error thrown := by
    refine ⟨.serverError (some (.str msg)), ?_⟩
    rw [lineBody, hparse]
    rfl
  have hline : processLine pf (jsonStringify (.error msg)) = none := by
    obtain ⟨thrown, hthrown⟩ := hbody
    rw [processLine, hthrown]
    split <;> rfl
  have hrun : generatePrimesProgressive pf (.response true 200 [Server.line (.error msg)] none)
      = ⟨[], .ok ()⟩ := by
    have hfold := foldl_readChunk_lines pf [jsonStringify (.error msg)]
      (fun l hl => by
        rw [List.mem_singleton] at hl
        subst hl
        exact newline_not_mem_jsonStringify _)
      [Server.line (.error msg)] rfl
    simp only [List.filterMap_cons, hline, List.filterMap_nil] at hfold
    simp only [generatePrimesProgressive, Bool.not_true, Bool.false_eq_true, if_false, hfold]
  refine ⟨hbody, hline, hrun, ?_, ?_⟩
  · rw [generateViaServer, henv, hrun]
  · rw [generateViaServer, henv, hrun]

theorem error_line_swallowed_witness :
    (∃ thrown, lineBody
      (tablePlatform [(jsonStringify (.error "boom".toList), (Message.error "boom".toList).toJson)])
      (jsonStringify (.error "boom".toList)) = .error thrown) ∧
    processLine
      (tablePlatform [(jsonStringify (.error "boom".toList), (Message.error "boom".toList).toJson)])
      (jsonStringify (.error "boom".toList)) = none ∧
    generatePrimesProgressive
      (tablePlatform [(jsonStringify (.error "boom".toList), (Message.error "boom".toList).toJson)])
      (.response true 200 [Server.line (.error "boom".toList)] none) = ⟨[], .ok ()⟩ ∧
    (generateViaServer (fun _ => ⟨[], .ok ()⟩) 3 5 ()).calls = [⟨.server, 3, 5, ()⟩] ∧
    (generateViaServer (fun _ => ⟨[], .ok ()⟩) 3 5 ()).outcome = .ok () :=
  error_line_swallowed
    (tablePlatform [(jsonStringify (.error "boom".toList), (Message.error "boom".toList).toJson)])
    "boom".toList 3 5 (fun _ => ⟨[], .ok ()⟩) (by simp [tablePlatform, List.lookup])
    (by
      have h := foldl_readChunk_lines
        (tablePlatform
          [(jsonStringify (.error "boom".toList), (Message.error "boom".toList).toJson)])
        [jsonStringify (.error "boom".toList)]
        (fun l hl => by
          rw [List.mem_singleton] at hl
          subst hl
          exact newline_not_mem_jsonStringify _)
        [Server.line (.error "boom".toList)] rfl
      simp only [generatePrimesProgressive, Bool.not_true, Bool.false_eq_true, if_false, h]
      rfl)

end PrimeServerAPI

namespace PrimeServerAPI
open Js PrimeClient

/-- A line of type 'prime' carrying the decimal string of `p`, once `JSON.parse` reads it as
the object it stands for, makes the client call `onPrimeFound` with `p`. -/
theorem processLine_prime (pf : Platform) (p : Int)
    (hparse : pf.jsonParse (jsonStringify (.prime (bigIntToString p)))
      = some (Message.prime (bigIntToString p)).toJson) :
    processLine pf (jsonStringify (.prime (bigIntToString p))) = some p := by
  rw [processLine, if_neg (trim_jsonStringify_ne_nil _), lineBody, hparse]
  have htype : (Message.prime (bigIntToString p)).toJson.get "type".toList
      = some (some (.str "prime".toList)) := rfl
  have hprime : (Message.prime (bigIntToString p)).toJson.get "prime".toList
      = some (some (.str (bigIntToString p))) := rfl
  simp only [htype, hprime]
  have his : isString (some (Json.str "prime".toList)) "prime".toList = true := by decide
  rw [if_pos his]
  simp only [Option.getD_some, toBigInt, stringToBigInt_bigIntToString]

/-- The line of type 'complete' makes the client call nothing. -/
theorem processLine_complete (pf : Platform)
    (hparse : pf.jsonParse (jsonStringify .complete) = some Message.complete.toJson) :
    processLine pf (jsonStringify .complete) = none := by
  rw [processLine, if_neg (trim_jsonStringify_ne_nil _), lineBody, hparse]
  have htype : Message.complete.toJson.get "type".toList
      = some (some (.str "complete".toList)) := rfl
  simp only [htype]
  have h1 : isString (some (Json.str "complete".toList)) "prime".toList = false := by decide
  have h2 : isString (some (Json.str "complete".toList)) "error".toList = false := by decide
  rw [if_neg (by rw [h1]; exact Bool.false_ne_true), if_neg (by rw [h2]; exact Bool.false_ne_true)]

/-- The client on the stream of a successful search over `primes`, however the stream is cut
into chunks: `onPrimeFound` is called with the primes, in order, and the call resolves. -/
theorem generatePrimesProgressive_stream (pf : Platform) (primes : List Int) (status : Nat)
    (hprime : ∀ p ∈ primes, pf.jsonParse (jsonStringify (.prime (bigIntToString p)))
      = some (Message.prime (bigIntToString p)).toJson)
    (hcomplete : pf.jsonParse (jsonStringify .complete) = some Message.complete.toJson)
    (chunks : List (List Char))
    (hchunks : chunks.flatten =
      (primes.map (fun p => Server.line (.prime (bigIntToString p)))
        ++ [Server.line .complete]).flatten) :
    generatePrimesProgressive pf (.response true status chunks none) = ⟨primes, .ok ()⟩ := by
  have hlines : primes.map (fun p => Server.line (.prime (bigIntToString p)))
      ++ [Server.line .complete]
      = ((primes.map (fun p => jsonStringify (.prime (bigIntToString p))))
          ++ [jsonStringify .complete]).map (fun l => l ++ ['\n']) := by
    simp [Server.line, Function.comp_def]
  rw [hlines] at hchunks
  have hfold := foldl_readChunk_lines pf _
    (fun l hl => by
      rcases List.mem_append.mp hl with h | h
      · obtain ⟨p, _, rfl⟩ := List.mem_map.mp h
        exact newline_not_mem_jsonStringify _
      · rw [List.mem_singleton] at h
        subst h
        exact newline_not_mem_jsonStringify _)
    chunks hchunks
  have hfilter : ∀ ps : List Int, (∀ p ∈ ps, pf.jsonParse
      (jsonStringify (.prime (bigIntToString p)))
        = some (Message.prime (bigIntToString p)).toJson) →
      (ps.map (fun p => jsonStringify (.prime (bigIntToString p)))).filterMap (processLine pf)
        = ps := by
    intro ps
    induction ps with
    | nil => intro _; rfl
    | cons p rest ih =>
      intro h
      rw [List.map_cons, List.filterMap_cons,
        processLine_prime pf p (h p (List.mem_cons_self _ _)),
        ih (fun q hq => h q (List.mem_cons_of_mem _ hq))]
  rw [List.filterMap_append, hfilter primes hprime, List.filterMap_cons,
    processLine_complete pf hcomplete] at hfold
  simp only [List.filterMap_nil, List.append_nil] at hfold
  simp only [generatePrimesProgressive, Bool.not_true, Bool.false_eq_true, if_false, hfold]

/-- C14: for a valid request whose search completes, the server writes, for the primes
p1..pk that its generator reported, exactly k+1 texts, each one line ended by a line feed: the
k lines of type 'prime' in order, then the line of type 'complete'. When `JSON.parse` reads
these lines as the objects they stand for, then for every way of cutting the text into read
chunks the client calls `onPrimeFound` exactly with p1..pk in order, as BigInts (the decimal
string of a BigInt reads back as the same BigInt), and resolves. -/
theorem stream_round_trip (pf : Platform) (engineMessage : PrimeCore.Err → List Char)
    (fuel : Nat) (src : PrimeCore.ByteSource) (pos : Nat) (digitLength count : Int) (pos1 : Nat)
    (hvalid : Server.invalid (some digitLength) (some count) = false)
    (hrun : (PrimeCore.generatePrimesProgressive fuel src pos digitLength count).outcome
      = .ok pos1)
    (hprime : ∀ p ∈ (PrimeCore.generatePrimesProgressive fuel src pos digitLength count).reported,
      pf.jsonParse (jsonStringify (.prime (bigIntToString p)))
        = some (Message.prime (bigIntToString p)).toJson)
    (hcomplete : pf.jsonParse (jsonStringify .complete) = some Message.complete.toJson) :
    ∃ r, Server.postPrimes engineMessage fuel src pos (some digitLength) (some count) = .ok r ∧
      r.written =
        (PrimeCore.generatePrimesProgressive fuel src pos digitLength count).reported.map
          (fun p => Server.line (.prime (bigIntToString p))) ++ [Server.line .complete] ∧
      r.written.length =
        (PrimeCore.generatePrimesProgressive fuel src pos digitLength count).reported.length + 1 ∧
      (∀ w ∈ r.written, ∃ l, w = l ++ ['\n'] ∧ '\n' ∉ l) ∧
      (∀ p, stringToBigInt (bigIntToString p) = some p) ∧
      ∀ chunks : List (List Char), chunks.flatten = r.written.flatten →
        generatePrimesProgressive pf (.response true r.status chunks none) =
          ⟨(PrimeCore.generatePrimesProgressive fuel src pos digitLength count).reported,
            .ok ()⟩ := by
  refine ⟨⟨200, none, _, true⟩, ?_, rfl, by simp, ?_, stringToBigInt_bigIntToString, ?_⟩
  · rw [Server.postPrimes, if_neg (by rw [hvalid]; exact Bool.false_ne_true)]
    simp only [Option.getD_some, hrun]
  · intro w hw
    rcases List.mem_append.mp hw with h | h
    · obtain ⟨p, _, rfl⟩ := List.mem_map.mp h
      exact ⟨_, rfl, newline_not_mem_jsonStringify _⟩
    · rw [List.mem_singleton] at h
      subst h
      exact ⟨_, rfl, newline_not_mem_jsonStringify _⟩
  · intro chunks hchunks
    exact generatePrimesProgressive_stream pf _ 200 hprime hcomplete chunks hchunks

theorem stream_round_trip_witness :
    ∃ r, Server.postPrimes (fun _ => []) 5 (fun _ => 2) 0 (some 1) (some 1) = .ok r ∧
      r.written =
        (PrimeCore.generatePrimesProgressive 5 (fun _ => 2) 0 1 1).reported.map
          (fun p => Server.line (.prime (bigIntToString p))) ++ [Server.line .complete] ∧
      r.written.length = (PrimeCore.generatePrimesProgressive 5 (fun _ => 2) 0 1 1).reported.length + 1 ∧
      (∀ w ∈ r.written, ∃ l, w = l ++ ['\n'] ∧ '\n' ∉ l) ∧
      (∀ p, stringToBigInt (bigIntToString p) = some p) ∧
      ∀ chunks : List (List Char), chunks.flatten = r.written.flatten →
        generatePrimesProgressive
          (tablePlatform
            [(jsonStringify (.prime (bigIntToString 3)), (Message.prime (bigIntToString 3)).toJson),
              (jsonStringify .complete, Message.complete.toJson)])
          (.response true r.status chunks none) =
          ⟨(PrimeCore.generatePrimesProgressive 5 (fun _ => 2) 0 1 1).reported, .ok ()⟩ :=
  stream_round_trip
    (tablePlatform
      [(jsonStringify (.prime (bigIntToString 3)), (Message.prime (bigIntToString 3)).toJson),
        (jsonStringify .complete, Message.complete.toJson)])
    (fun _ => []) 5 (fun _ => 2) 0 1 1 1 (by decide) (by decide)
    (by
      have hrep : (PrimeCore.generatePrimesProgressive 5 (fun _ => 2) 0 1 1).reported = [3] := by
        decide
      intro p hp
      rw [hrep, List.mem_singleton] at hp
      subst hp
      simp [tablePlatform, List.lookup])
    (by
      have hne : (jsonStringify .complete == jsonStringify (.prime (bigIntToString 3))) = false := by
        decide
      simp [tablePlatform, List.lookup, hne])

end PrimeServerAPI

namespace PrimeGenerator
open Js PrimeCore

/-- While `messageHandler` is registered, the 'prime' messages carrying the decimal strings of
`primes` make it call `onPrimeFound` with each of them in order, and change nothing else. -/
theorem foldl_messageHandler_primes : ∀ (primes : List Int) (st : WorkerCall),
    st.listening = true →
    (primes.map (fun p => Message.prime (bigIntToString p))).foldl messageHandler st =
      { st with reported := st.reported ++ primes } := by
  intro primes
  induction primes with
  | nil => intro st _; simp
  | cons p rest ih =>
    intro st hst
    rw [List.map_cons, List.foldl_cons]
    have hstep : messageHandler st (.prime (bigIntToString p)) =
        { st with reported := st.reported ++ [p] } := by
      rw [messageHandler]
      simp only [hst, Bool.not_true, Bool.false_eq_true, if_false,
        stringToBigInt_bigIntToString]
    rw [hstep, ih ⟨st.reported ++ [p], st.settled, st.listening, st.workerBusy⟩ hst]
    simp

/-- C16: the worker channel end to end. Whenever the worker's `generatePrimes` returns, it has
posted the 'prime' messages carrying the decimal strings of the primes the core reported, in
discovery order, followed by exactly one terminal message: 'complete' iff the core search
succeeded, otherwise 'error' carrying the core's error message. `messageHandler` run over
these messages calls `onPrimeFound` with exactly those primes in order, then resolves iff the
terminal message is 'complete' and rejects with the same message iff it is 'error', clearing
`workerBusy`. The worker does return unless the search is cut off by the fuel bound. -/
theorem worker_channel (engineMessage : Err → List Char) (fuel : Nat) (src : ByteSource)
    (pos : Nat) (digitLength count : Int) :
    (∀ messages,
      PrimeGeneratorWorker.generatePrimes engineMessage fuel src pos digitLength count
        = .ok messages →
      ∃ terminal : Message,
        messages =
          (PrimeCore.generatePrimesProgressive fuel src pos digitLength count).reported.map
            (fun p => Message.prime (bigIntToString p)) ++ [terminal] ∧
        (terminal = .complete ↔
          ∃ pos1, (PrimeCore.generatePrimesProgressive fuel src pos digitLength count).outcome
            = .ok pos1) ∧
        (∀ e, (PrimeCore.generatePrimesProgressive fuel src pos digitLength count).outcome
            = .error e →
          terminal = .error (Server.errorMessage engineMessage digitLength count e)) ∧
        (generatePrimesProgressiveWorker messages).reported =
          (PrimeCore.generatePrimesProgressive fuel src pos digitLength count).reported ∧
        ((generatePrimesProgressiveWorker messages).settled = some (.ok ()) ↔
          terminal = .complete) ∧
        (∀ m, (generatePrimesProgressiveWorker messages).settled = some (.error m) ↔
          terminal = .error m) ∧
        (generatePrimesProgressiveWorker messages).workerBusy = false) ∧
    ((PrimeCore.generatePrimesProgressive fuel src pos digitLength count).outcome
        ≠ .error .outOfFuel →
      ∃ messages,
        PrimeGeneratorWorker.generatePrimes engineMessage fuel src pos digitLength count
          = .ok messages) := by
  constructor
  · intro messages h
    have hfold : ∀ terminal : Message,
        generatePrimesProgressiveWorker
          ((PrimeCore.generatePrimesProgressive fuel src pos digitLength count).reported.map
            (fun p => Message.prime (bigIntToString p)) ++ [terminal])
          = messageHandler
              ⟨(PrimeCore.generatePrimesProgressive fuel src pos digitLength count).reported,
                none, true, true⟩ terminal := by
      intro terminal
      rw [generatePrimesProgressiveWorker, List.foldl_append,
        foldl_messageHandler_primes _ WorkerCall.start rfl]
      simp [WorkerCall.start]
    rw [PrimeGeneratorWorker.generatePrimes] at h
    cases hout : (PrimeCore.generatePrimesProgressive fuel src pos digitLength count).outcome with
    | ok p =>
      rw [hout] at h
      simp only [Except.ok.injEq] at h
      subst h
      refine ⟨.complete, rfl, ⟨fun _ => ⟨p, rfl⟩, fun _ => rfl⟩, ?_, ?_, ?_, ?_, ?_⟩
      · intro e he; cases he
      · rw [hfold]; rfl
      · rw [hfold]; exact ⟨fun _ => rfl, fun _ => rfl⟩
      · intro m
        rw [hfold]
        constructor
        · intro hm; simp [messageHandler] at hm
        · intro hm; cases hm
      · rw [hfold]; rfl
    | error e =>
      rw [hout] at h
      cases e with
      | outOfFuel => cases h
      | rangeError =>
        simp only [Except.ok.injEq] at h
        subst h
        refine ⟨_, rfl, ⟨fun hc => (by cases hc), fun ⟨_, hc⟩ => (by cases hc)⟩, ?_, ?_, ?_, ?_, ?_⟩
        · intro e he
          simp only [Except.error.injEq] at he
          subst he; rfl
        · rw [hfold]; rfl
        · rw [hfold]
          constructor
          · intro hm; simp [messageHandler] at hm
          · intro hm; cases hm
        · intro m
          rw [hfold]
          simp [messageHandler, eq_comm]
        · rw [hfold]; rfl
      | syntaxError =>
        simp only [Except.ok.injEq] at h
        subst h
        refine ⟨_, rfl, ⟨fun hc => (by cases hc), fun ⟨_, hc⟩ => (by cases hc)⟩, ?_, ?_, ?_, ?_, ?_⟩
        · intro e he
          simp only [Except.error.injEq] at he
          subst he; rfl
        · rw [hfold]; rfl
        · rw [hfold]
          constructor
          · intro hm; simp [messageHandler] at hm
          · intro hm; cases hm
        · intro m
          rw [hfold]
          simp [messageHandler, eq_comm]
        · rw [hfold]; rfl
      | attemptsExhausted =>
        simp only [Except.ok.injEq] at h
        subst h
        refine ⟨_, rfl, ⟨fun hc => (by cases hc), fun ⟨_, hc⟩ => (by cases hc)⟩, ?_, ?_, ?_, ?_, ?_⟩
        · intro e he
          simp only [Except.error.injEq] at he
          subst he; rfl
        · rw [hfold]; rfl
        · rw [hfold]
          constructor
          · intro hm; simp [messageHandler] at hm
          · intro hm; cases hm
        · intro m
          rw [hfold]
          simp [messageHandler, eq_comm]
        · rw [hfold]; rfl
  · intro hne
    rw [PrimeGeneratorWorker.generatePrimes]
    cases hout : (PrimeCore.generatePrimesProgressive fuel src pos digitLength count).outcome with
    | ok p => exact ⟨_, rfl⟩
    | error e =>
      cases e with
      | outOfFuel => exact absurd hout hne
      | rangeError => exact ⟨_, rfl⟩
      | syntaxError => exact ⟨_, rfl⟩
      | attemptsExhausted => exact ⟨_, rfl⟩

end PrimeGenerator

namespace PrimeCore

/-- On the byte source that always gives 2, every 1-digit candidate is 3, drawn with one
byte. -/
theorem sampleCandidate_two_source (fuel pos : Nat) (hfuel : 0 < fuel) :
    sampleCandidate fuel (fun _ => 2) pos 1 = .ok (3, pos + 1) := by
  have hmin : (10 : Int) ^ ((1 : Int) - 1).toNat = 1 := by decide
  have hmax : (10 : Int) ^ (1 : Int).toNat - 1 = 9 := by decide
  have hlen : byteLength ((9 : Int) - 1) = 1 := by decide
  have hdraw : ∀ k, drawValue (fun _ => 2) 1 pos k = 2 := by
    intro k
    unfold drawValue getRandomBytes
    rfl
  have hr : randomBigIntInRange fuel (fun _ => 2) pos 1 9 = .ok (3, pos + 1) := by
    rw [randomBigIntInRange_first (fun _ => 2) pos 1 9 0 fuel
      (by rw [hlen, hdraw]; decide) (fun j hj => absurd hj (Nat.not_lt_zero j)) hfuel,
      hlen, hdraw]
    rfl
  unfold sampleCandidate generateRandomOddNumber
  rw [if_neg (by decide), hmin, hmax]
  simp only
  rw [hr]
  rfl

/-- On the byte source that always gives 2, once 3 has been accepted, any number of 1-digit
candidates in a row is rejected: each is 3 again. -/
theorem rejectedRun_two_source (fuel : Nat) (hfuel : 0 < fuel) :
    ∀ (k pos : Nat), RejectedRun fuel (fun _ => 2) 1 [3] k pos (pos + k) := by
  intro k
  induction k with
  | zero => intro pos; exact RejectedRun.zero pos
  | succ k ih =>
    intro pos
    have hacc : acceptsCandidate fuel (fun _ => 2) [3] (pos + 1) 3 = .ok (false, pos + 1) := by
      unfold acceptsCandidate
      rw [isPrime_fast fuel _ _ 3 (Or.inr (by decide))]
      rfl
    have hrest := ih (pos + 1)
    rw [show pos + 1 + k = pos + (k + 1) by omega] at hrest
    exact RejectedRun.succ (sampleCandidate_two_source fuel pos hfuel) hacc hrest

/-- A search whose outer loop reaches a target for which the candidates up to the cap are all
rejected, and one more is sampled, ends with the attempts error, having reported what was
reported before that target. -/
theorem generatePrimesProgressive_of_rejected (fuel : Nat) (src : ByteSource) (pos : Nat)
    (digitLength count : Int) (hcap : maxAttempts digitLength < fuel)
    (hcount : count < (fuel : Int)) (st : SearchState) (pos1 pos2 : Nat) (c : Int)
    (hreach : Reaches fuel src digitLength count pos st) (hlt : st.foundCount < count)
    (hrun : RejectedRun fuel src digitLength st.primesSet (maxAttempts digitLength) st.pos pos1)
    (hsample : sampleCandidate fuel src pos1 digitLength = .ok (c, pos2)) :
    generatePrimesProgressive fuel src pos digitLength count
      = ⟨st.reported, .error .attemptsExhausted⟩ := by
  obtain ⟨n, hn, hloop⟩ := generateLoop_of_reaches fuel src digitLength count pos st hreach
  have hsearch := searchLoop_of_rejected fuel src digitLength (maxAttempts digitLength)
    st.primesSet _ _ _ hrun c pos2 hsample 0 fuel (by omega) hcap
  obtain ⟨lf, hlf⟩ : ∃ lf, fuel = lf + 1 + n := ⟨fuel - 1 - n, by omega⟩
  unfold generatePrimesProgressive
  have h1 : generateLoop fuel src digitLength count fuel ⟨[], 0, [], pos⟩
      = generateLoop fuel src digitLength count (lf + 1) st := by
    have := hloop (lf + 1)
    rw [← hlf] at this
    exact this
  rw [h1, generateLoop_failed fuel src digitLength count lf st _ hlt hsearch]

/-- On the byte source that always gives 2, the search for two 1-digit primes reports 3 and
then runs out of attempts. -/
theorem generatePrimesProgressive_two_source :
    generatePrimesProgressive 10001 (fun _ => 2) 0 1 2 = ⟨[3], .error .attemptsExhausted⟩ := by
  have hfirst : searchLoop 10001 (fun _ => 2) 1 (maxAttempts 1) [] 10001 0 0 = .ok (3, 1) := by
    rw [searchLoop, sampleCandidate_two_source 10001 0 (by decide)]
    simp only
    rw [if_neg (by decide)]
    have hacc : acceptsCandidate 10001 (fun _ => 2) [] (0 + 1) 3 = .ok (true, 0 + 1) := by
      unfold acceptsCandidate
      rw [isPrime_fast 10001 _ _ 3 (Or.inr (by decide))]
      rfl
    rw [hacc]
  have hreach : Reaches 10001 (fun _ => 2) 1 2 0
      ((⟨[], 0, [], 0⟩ : SearchState).accept 3 1) :=
    Reaches.step Reaches.start (by decide) hfirst
  have hres := generatePrimesProgressive_of_rejected 10001 (fun _ => 2) 0 1 2 (by decide)
    (by decide) _ (1 + maxAttempts 1) (1 + maxAttempts 1 + 1) 3 hreach (by decide)
    (rejectedRun_two_source 10001 (by decide) (maxAttempts 1) 1)
    (sampleCandidate_two_source 10001 (1 + maxAttempts 1) (by decide))
  exact hres

end PrimeCore

namespace PrimeClient
open Js PrimeCore

/-- A main-thread search that completes for digitLength ≥ 1 and count ≥ 1 has delivered
exactly `count` values. -/
theorem mainThread_delivers_count (engineMessage : Err → List Char) (fuel : Nat)
    (src : ByteSource) (pos : Nat) (digitLength count : Int) (hd : 1 ≤ digitLength)
    (hc : 1 ≤ count) (ms : List Int)
    (h : PrimeGenerator.generatePrimesProgressiveMainThread engineMessage fuel src pos
      digitLength count = .ok ⟨ms, .ok ()⟩) : (ms.length : Int) = count := by
  rw [PrimeGenerator.generatePrimesProgressiveMainThread] at h
  cases hout : (PrimeCore.generatePrimesProgressive fuel src pos digitLength count).outcome with
  | ok p =>
    rw [hout] at h
    simp only [Except.ok.injEq, Attempt.mk.injEq, and_true] at h
    unfold PrimeCore.generatePrimesProgressive at hout h
    obtain ⟨st1, hreach, hdone, hrep⟩ :=
      generateLoop_ok fuel src digitLength count pos fuel _ Reaches.start p hout
    obtain ⟨_, hlen, hle, _, _⟩ :=
      reaches_invariant fuel src digitLength count pos hd (by omega) st1 hreach
    rw [← h, hrep]
    omega
  | error e =>
    rw [hout] at h
    cases e <;> simp at h

/-- C18: what a failed attempt delivered stays with the caller. When the worker is selected,
its attempt delivers `ws` and then fails, and the main-thread attempt delivers `ms` and
succeeds, `PrimeClient.generatePrimes` returns `ws` followed by `ms`; when the main-thread
attempt is a completed search for digitLength ≥ 1 and count ≥ 1 that is k + count values,
k being the number the worker delivered. The array can so be longer than count and hold a
value twice: a worker search for two 1-digit primes that reports 3 and runs out of attempts,
followed by a main-thread search that reports 3 and 5, returns 3, 3, 5. -/
theorem failed_attempt_retained (mode : String) (workerDefined : Bool)
    (env : Call Unit → Attempt) (digitLength count : Int) :
    (∀ (ws ms : List Int) (e : List Char),
      selectMode mode workerDefined digitLength count = "worker" →
      env ⟨.worker, digitLength, count, ()⟩ = ⟨ws, .error e⟩ →
      env ⟨.mainThread, digitLength, count, ()⟩ = ⟨ms, .ok ()⟩ →
      generatePrimes mode workerDefined env digitLength count = .ok (ws ++ ms) ∧
      (∀ (engineMessage : Err → List Char) (fuel : Nat) (src : ByteSource) (pos : Nat),
        1 ≤ digitLength → 1 ≤ count →
        PrimeGenerator.generatePrimesProgressiveMainThread engineMessage fuel src pos
          digitLength count = .ok ⟨ms, .ok ()⟩ →
        ((ws ++ ms).length : Int) = ws.length + count)) ∧
    (∃ (messages : List Message) (worker mainThread : Attempt),
      PrimeGeneratorWorker.generatePrimes (fun _ => []) 10001 (fun _ => 2) 0 1 2
        = .ok messages ∧
      (PrimeGenerator.generatePrimesProgressiveWorker messages).attempt = some worker ∧
      PrimeGenerator.generatePrimesProgressiveMainThread (fun _ => []) 5
        (fun i => if i = 0 then 2 else if i = 1 then 4 else 0) 0 1 2 = .ok mainThread ∧
      generatePrimes "worker" true
        (fun call => if call.substrate = .worker then worker else mainThread) 1 2
        = .ok [3, 3, 5]) := by
  constructor
  · intro ws ms e hmode hworker hmain
    constructor
    · rw [generatePrimes, generatePrimesProgressive]
      simp only [hmode]
      rw [if_neg (by decide), if_pos trivial, generateViaWorker]
      simp only [hworker, generateViaMainThread, hmain]
    · intro engineMessage fuel src pos hd hc hms
      have := mainThread_delivers_count engineMessage fuel src pos digitLength count hd hc ms hms
      rw [List.length_append]
      push_cast
      omega
  · have hrun := generatePrimesProgressive_two_source
    have hmsgs : PrimeGeneratorWorker.generatePrimes (fun _ => []) 10001 (fun _ => 2) 0 1 2
        = .ok [.prime (bigIntToString 3),
            .error (Server.errorMessage (fun _ => []) 1 2 .attemptsExhausted)] := by
      rw [PrimeGeneratorWorker.generatePrimes, hrun]
      rfl
    refine ⟨_, ⟨[3], .error (Server.errorMessage (fun _ => []) 1 2 .attemptsExhausted)⟩,
      ⟨[3, 5], .ok ()⟩, hmsgs, by decide, by decide, by decide⟩

end PrimeClient

namespace PrimeCore

theorem acceptsCandidate_false (fuel : Nat) (src : ByteSource) (primesSet : List Int)
    (pos : Nat) (c : Int) (pos1 : Nat)
    (h : acceptsCandidate fuel src primesSet pos c = .ok (false, pos1)) :
    ∃ b : Bool, isPrime fuel src pos c = .ok (b, pos1) ∧ (b = true → c ∈ primesSet) := by
  unfold acceptsCandidate at h
  cases hp : isPrime fuel src pos c with
  | error e => rw [hp] at h; cases h
  | ok res =>
    obtain ⟨b, p⟩ := res
    rw [hp] at h
    simp only [Except.ok.injEq, Prod.mk.injEq, Bool.and_eq_false_imp, Bool.not_eq_false'] at h
    obtain ⟨hb, hpos⟩ := h
    subst hpos
    refine ⟨b, rfl, fun hbt => ?_⟩
    have := hb hbt
    simpa using this

theorem sampled_append (fuel : Nat) (src : ByteSource) (digitLength : Int)
    {pos pos1 pos2 : Nat} {l1 l2 : List (Int × Bool)}
    (h1 : Sampled fuel src digitLength pos l1 pos1)
    (h2 : Sampled fuel src digitLength pos1 l2 pos2) :
    Sampled fuel src digitLength pos (l1 ++ l2) pos2 := by
  induction h1 with
  | nil pos => exact h2
  | cons hsample htest _ ih => exact Sampled.cons hsample htest (ih h2)

theorem accepted_append (l1 l2 : List (Int × Bool)) :
    accepted (l1 ++ l2) = accepted l1 ++ accepted l2 := by
  simp [accepted]

theorem firstOccurrences_append : ∀ (xs ys seen : List Int),
    firstOccurrences seen (xs ++ ys) =
      firstOccurrences seen xs ++ firstOccurrences (seen ++ firstOccurrences seen xs) ys := by
  intro xs
  induction xs with
  | nil => intro ys seen; simp [firstOccurrences]
  | cons x rest ih =>
    intro ys seen
    show firstOccurrences seen (x :: (rest ++ ys)) = _
    by_cases hx : x ∈ seen
    · rw [firstOccurrences, if_pos hx, firstOccurrences, if_pos hx, ih]
    · rw [firstOccurrences, if_neg hx, firstOccurrences, if_neg hx, ih]
      simp

theorem firstOccurrences_of_mem : ∀ (xs seen : List Int), (∀ x ∈ xs, x ∈ seen) →
    firstOccurrences seen xs = [] := by
  intro xs
  induction xs with
  | nil => intro seen _; rfl
  | cons x rest ih =>
    intro seen h
    rw [firstOccurrences, if_pos (h x (List.mem_cons_self _ _))]
    exact ih seen (fun y hy => h y (List.mem_cons_of_mem _ hy))

/-- A search for one target that returns `c` has sampled, before `c`, only candidates that the
loop test rejects: those accepted by `isPrime` among them are already in the set, and `c` is
not. -/
theorem searchLoop_sampled (fuel : Nat) (src : ByteSource) (digitLength : Int) (cap : Nat)
    (primesSet : List Int) : ∀ (loopFuel attempts pos : Nat) (c : Int) (pos2 : Nat),
      searchLoop fuel src digitLength cap primesSet loopFuel attempts pos = .ok (c, pos2) →
      ∃ cs, Sampled fuel src digitLength pos (cs ++ [(c, true)]) pos2 ∧
        (∀ x ∈ accepted cs, x ∈ primesSet) ∧ c ∉ primesSet := by
  intro loopFuel
  induction loopFuel with
  | zero => intro attempts pos c pos2 h; simp [searchLoop] at h
  | succ lf ih =>
    intro attempts pos c pos2 h
    rw [searchLoop] at h
    cases hs : sampleCandidate fuel src pos digitLength with
    | error e => rw [hs] at h; cases h
    | ok res =>
      obtain ⟨c1, p1⟩ := res
      rw [hs] at h
      simp only at h
      by_cases hcap : attempts + 1 > cap
      · rw [if_pos hcap] at h; cases h
      · rw [if_neg hcap] at h
        cases ha : acceptsCandidate fuel src primesSet p1 c1 with
        | error e => rw [ha] at h; cases h
        | ok res2 =>
          obtain ⟨b, p2⟩ := res2
          rw [ha] at h
          cases b with
          | true =>
            simp only [Except.ok.injEq, Prod.mk.injEq] at h
            obtain ⟨hc, hp⟩ := h
            subst hc hp
            obtain ⟨hprime, hnot⟩ := acceptsCandidate_true fuel src _ _ _ _ ha
            exact ⟨[], Sampled.cons hs hprime (Sampled.nil _), fun x hx => (by simp [accepted] at hx), hnot⟩
          | false =>
            obtain ⟨cs, hsampled, hall, hnot⟩ := ih _ _ _ _ h
            obtain ⟨b, hprime, hmem⟩ := acceptsCandidate_false fuel src _ _ _ _ ha
            refine ⟨(c1, b) :: cs, Sampled.cons hs hprime hsampled, ?_, hnot⟩
            intro x hx
            cases b with
            | true =>
              simp only [accepted, List.filter_cons_of_pos, List.map_cons, List.mem_cons] at hx
              rcases hx with hx | hx
              · rw [hx]; exact hmem rfl
              · exact hall x hx
            | false =>
              simp only [accepted, Bool.false_eq_true, not_false_eq_true,
                List.filter_cons_of_neg] at hx
              exact hall x hx

/-- Whenever the outer loop is at its test, what has been reported is the sequence of all
candidates sampled so far, filtered to those `isPrime` accepted, without later repeats. -/
theorem reaches_sampled (fuel : Nat) (src : ByteSource) (digitLength count : Int) (pos : Nat)
    (hd : 1 ≤ digitLength) (hc : 0 ≤ count) (st : SearchState)
    (hst : Reaches fuel src digitLength count pos st) :
    ∃ cs, Sampled fuel src digitLength pos cs st.pos ∧
      st.reported = firstOccurrences [] (accepted cs) := by
  induction hst with
  | start => exact ⟨[], Sampled.nil _, rfl⟩
  | step hprev hlt hfound ih =>
    rename_i st c pos1
    obtain ⟨cs, hsampled, hrep⟩ := ih
    obtain ⟨hset, _, _, _, _⟩ :=
      reaches_invariant fuel src digitLength count pos hd hc st hprev
    obtain ⟨cs1, hsampled1, hall, hnot⟩ :=
      searchLoop_sampled fuel src digitLength _ _ _ _ _ _ _ hfound
    refine ⟨cs ++ (cs1 ++ [(c, true)]), sampled_append fuel src digitLength hsampled hsampled1, ?_⟩
    rw [hset] at hall hnot
    rw [accepted_append, firstOccurrences_append, ← hrep, accepted_append,
      firstOccurrences_append, List.nil_append, firstOccurrences_of_mem _ _ hall]
    simp only [SearchState.accept, List.nil_append, List.append_nil]
    congr 1
    symm
    show firstOccurrences st.reported [c] = [c]
    rw [firstOccurrences, if_neg hnot]
    rfl

theorem generateLoop_ok_state (fuel : Nat) (src : ByteSource) (digitLength count : Int)
    (pos : Nat) : ∀ (loopFuel : Nat) (st : SearchState),
      Reaches fuel src digitLength count pos st →
      ∀ pos1 : Nat, (generateLoop fuel src digitLength count loopFuel st).outcome = .ok pos1 →
      ∃ st1 : SearchState, Reaches fuel src digitLength count pos st1 ∧
        ¬ st1.foundCount < count ∧
        generateLoop fuel src digitLength count loopFuel st = ⟨st1.reported, .ok st1.pos⟩ := by
  intro loopFuel
  induction loopFuel with
  | zero => intro st _ pos1 h; simp [generateLoop] at h
  | succ lf ih =>
    intro st hst pos1 h
    by_cases hlt : st.foundCount < count
    · cases hs : searchLoop fuel src digitLength (maxAttempts digitLength) st.primesSet fuel 0
          st.pos with
      | error e =>
        rw [generateLoop_failed fuel src digitLength count lf st e hlt hs] at h
        cases h
      | ok res =>
        obtain ⟨c, p1⟩ := res
        rw [generateLoop_found fuel src digitLength count lf st c p1 hlt hs] at h ⊢
        exact ih _ (Reaches.step hst hlt hs) pos1 h
    · rw [generateLoop_done fuel src digitLength count lf st hlt]
      exact ⟨st, hst, hlt, rfl⟩

/-- C17: emission order is discovery order. In a run of `generatePrimesProgressive`
(digitLength ≥ 1, count ≥ 1) that completes, the values passed to `onPrimeFound`, which are
also the array returned by `generatePrimes`, are the first `count` elements of the sequence of
candidates sampled in the run, filtered to those accepted by `isPrime`, with later repeats of
a value removed (that filtered sequence has exactly `count` elements). They are in sampling
order, not sorted by magnitude. -/
theorem emission_order (fuel : Nat) (src : ByteSource) (pos : Nat) (digitLength count : Int)
    (pos1 : Nat) (hd : 1 ≤ digitLength) (hc : 1 ≤ count)
    (h : (generatePrimesProgressive fuel src pos digitLength count).outcome = .ok pos1) :
    ∃ cs, Sampled fuel src digitLength pos cs pos1 ∧
      (generatePrimesProgressive fuel src pos digitLength count).reported
        = (firstOccurrences [] (accepted cs)).take count.toNat ∧
      (firstOccurrences [] (accepted cs)).length = count.toNat ∧
      generatePrimes fuel src pos digitLength count
        = .ok ((firstOccurrences [] (accepted cs)).take count.toNat) := by
  have hgen : generatePrimes fuel src pos digitLength count
      = .ok (generatePrimesProgressive fuel src pos digitLength count).reported := by
    rw [generatePrimes, h]
  rw [hgen]
  unfold generatePrimesProgressive at h ⊢
  obtain ⟨st1, hreach, hdone, hrun⟩ :=
    generateLoop_ok_state fuel src digitLength count pos fuel _ Reaches.start pos1 h
  obtain ⟨_, hlen, hle, _, _⟩ :=
    reaches_invariant fuel src digitLength count pos hd (by omega) st1 hreach
  obtain ⟨cs, hsampled, hrep⟩ :=
    reaches_sampled fuel src digitLength count pos hd (by omega) st1 hreach
  rw [hrun] at h ⊢
  simp only [Except.ok.injEq] at h
  subst h
  have hlen2 : (firstOccurrences [] (accepted cs)).length = count.toNat := by
    rw [← hrep]; omega
  refine ⟨cs, hsampled, ?_, hlen2, ?_⟩
  · simp only
    rw [hrep, ← hlen2, List.take_length]
  · simp only
    rw [hrep, ← hlen2, List.take_length]

theorem emission_order_witness :
    (∃ cs, Sampled 5 (fun i => if i = 0 then 4 else if i = 21 then 2 else 0) 1 0 cs 22 ∧
      (generatePrimesProgressive 5 (fun i => if i = 0 then 4 else if i = 21 then 2 else 0)
          0 1 2).reported
        = (firstOccurrences [] (accepted cs)).take (2 : Int).toNat ∧
      (firstOccurrences [] (accepted cs)).length = (2 : Int).toNat ∧
      generatePrimes 5 (fun i => if i = 0 then 4 else if i = 21 then 2 else 0) 0 1 2
        = .ok ((firstOccurrences [] (accepted cs)).take (2 : Int).toNat)) ∧
    (generatePrimesProgressive 5 (fun i => if i = 0 then 4 else if i = 21 then 2 else 0)
        0 1 2).reported = [5, 3] :=
  ⟨emission_order 5 (fun i => if i = 0 then 4 else if i = 21 then 2 else 0) 0 1 2 22
    (by decide) (by decide) (by decide), by decide⟩

end PrimeCore

namespace PrimeCore

theorem natCast_eq_one_of_primeFactors (m n : Nat) (hn : n ≠ 0)
    (h : ∀ p : Nat, p.Prime → p ∣ n → (p : ZMod m) = 1) : (n : ZMod m) = 1 := by
  conv_lhs => rw [← Nat.prod_primeFactorsList hn]
  rw [Nat.cast_list_prod]
  apply List.prod_eq_one
  intro x hx
  rw [List.mem_map] at hx
  obtain ⟨p, hp, rfl⟩ := hx
  exact h p (Nat.prime_of_mem_primeFactorsList hp) (Nat.dvd_of_mem_primeFactorsList hp)

/-- For an odd `n = q * 2^t + 1` with `q` odd, no `(n - 1)`-th power is `-1` modulo `n`: every
prime factor of such an `n` would be `1` modulo `2^(t+1)`, hence `n` too. -/
theorem pow_pred_ne_neg_one (n q t a : Nat) (hn : n = q * 2 ^ t + 1) (hq : q % 2 = 1)
    (hodd : n % 2 = 1) : a ^ (q * 2 ^ t) % n ≠ n - 1 := by
  intro h
  have hdvd : n ∣ a ^ (q * 2 ^ t) + 1 := by
    have hdm := Nat.div_add_mod (a ^ (q * 2 ^ t)) n
    rw [h] at hdm
    refine ⟨a ^ (q * 2 ^ t) / n + 1, ?_⟩
    rw [mul_add, mul_one]
    omega
  have key : ∀ p : Nat, p.Prime → p ∣ n → (p : ZMod (2 ^ (t + 1))) = 1 := by
    intro p hp hpn
    haveI : Fact p.Prime := ⟨hp⟩
    have hp2 : 2 < p := by
      have h2 := hp.two_le
      rcases Nat.lt_or_ge 2 p with hlt | hge
      · exact hlt
      · have : p = 2 := by omega
        subst this
        omega
    haveI : Fact (2 < p) := ⟨hp2⟩
    have h0 : ((a ^ (q * 2 ^ t) + 1 : Nat) : ZMod p) = 0 :=
      (ZMod.natCast_zmod_eq_zero_iff_dvd _ _).mpr (hpn.trans hdvd)
    have h1 : ((a : ZMod p) ^ q) ^ (2 ^ t) = -1 := by
      push_cast at h0
      rw [← pow_mul]
      exact eq_neg_of_add_eq_zero_left h0
    have hne : ((a : ZMod p) ^ q) ^ (2 ^ t) ≠ 1 := by
      rw [h1]
      exact ZMod.neg_one_ne_one
    have h2 : ((a : ZMod p) ^ q) ^ (2 ^ (t + 1)) = 1 := by
      rw [pow_succ, pow_mul, h1]
      norm_num
    have hord := orderOf_eq_prime_pow hne h2
    have hb0 : (a : ZMod p) ^ q ≠ 0 := by
      intro hz
      rw [hz, zero_pow (by positivity)] at h1
      exact neg_ne_zero.mpr one_ne_zero h1.symm
    have hdiv := ZMod.orderOf_dvd_card_sub_one hb0
    rw [hord] at hdiv
    have hp1 : p = (p - 1) + 1 := by omega
    rw [hp1]
    push_cast
    rw [(ZMod.natCast_zmod_eq_zero_iff_dvd _ _).mpr hdiv, zero_add]
  have hn1 := natCast_eq_one_of_primeFactors (2 ^ (t + 1)) n (by omega) key
  rw [hn] at hn1
  push_cast at hn1
  have hz : ((q * 2 ^ t : Nat) : ZMod (2 ^ (t + 1))) = 0 := by
    push_cast
    exact add_left_eq_self.mp hn1
  have hd := (ZMod.natCast_zmod_eq_zero_iff_dvd _ _).mp hz
  rw [pow_succ, mul_comm q] at hd
  have := Nat.dvd_of_mul_dvd_mul_left (by positivity) hd
  omega

end PrimeCore

namespace PrimeCore

theorem sq_mod_pow (n x k : Nat) : (x * x % n) ^ (2 ^ k) % n = x ^ (2 ^ (k + 1)) % n := by
  have h : (x * x % n) ^ (2 ^ k) ≡ (x * x) ^ (2 ^ k) [MOD n] := (Nat.mod_modEq _ _).pow _
  have e : (x * x) ^ (2 ^ k) = x ^ (2 ^ (k + 1)) := by
    rw [← sq, ← pow_mul, pow_succ']
  rw [e] at h
  exact h

/-- The squaring loop entered with the residue `x` and the counter `i`: it leaves with
`n - 1` exactly when one of `x, x^2, …, x^(2^i)` is `n - 1` modulo `n`, and with the counter
untouched exactly when `x` is `1` or `n - 1`. -/
theorem squareLoop_spec (n : Nat) (hn : 3 ≤ n) (a : Int) (ha : Int.tmod a n ≠ 0) :
    ∀ (i x fuel : Nat), x < n → i < fuel →
      ∃ (x1 i1 : Int), squareLoop (n : Int) a fuel (x : Int) (i : Int) = .ok (x1, i1) ∧
        i1 ≤ (i : Int) ∧
        (x1 = (n : Int) - 1 ↔ ∃ k, k ≤ i ∧ x ^ (2 ^ k) % n = n - 1) ∧
        (i1 = (i : Int) ↔ (x = 1 ∨ x = n - 1)) := by
  intro i
  induction i with
  | zero =>
    intro x fuel hx hfuel
    obtain ⟨f, rfl⟩ : ∃ f, fuel = f + 1 := ⟨fuel - 1, by omega⟩
    rw [squareLoop]
    by_cases hc : x = 1 ∨ x = n - 1
    · have hcond : ¬ ((x : Int) ≠ 1 ∧ (x : Int) ≠ (n : Int) - 1 ∧ Int.tmod a n ≠ 0) := by
        rintro ⟨h1, h2, _⟩
        rcases hc with h | h
        · exact h1 (by exact_mod_cast h)
        · exact h2 (by omega)
      rw [if_neg hcond]
      refine ⟨x, ((0 : Nat) : Int), rfl, le_refl _, ?_, by simp [hc]⟩
      constructor
      · intro h
        exact ⟨0, le_refl _, by rw [pow_zero, pow_one, Nat.mod_eq_of_lt hx]; omega⟩
      · rintro ⟨k, hk, h⟩
        have hk0 : k = 0 := by omega
        subst hk0
        rw [pow_zero, pow_one, Nat.mod_eq_of_lt hx] at h
        omega
    · have hcond : (x : Int) ≠ 1 ∧ (x : Int) ≠ (n : Int) - 1 ∧ Int.tmod a n ≠ 0 := by
        refine ⟨fun h => hc (Or.inl (by exact_mod_cast h)), fun h => hc (Or.inr (by omega)), ha⟩
      rw [if_pos hcond, if_neg (by simp)]
      refine ⟨x, ((0 : Nat) : Int) - 1, rfl, by omega, ?_, ?_⟩
      · constructor
        · intro h; exact absurd h hcond.2.1
        · rintro ⟨k, hk, h⟩
          have hk0 : k = 0 := by omega
          subst hk0
          rw [pow_zero, pow_one, Nat.mod_eq_of_lt hx] at h
          exact absurd (Or.inr h) hc
      · constructor
        · intro h; omega
        · intro h; exact absurd h hc
  | succ j ih =>
    intro x fuel hx hfuel
    obtain ⟨f, rfl⟩ : ∃ f, fuel = f + 1 := ⟨fuel - 1, by omega⟩
    rw [squareLoop]
    by_cases hc : x = 1 ∨ x = n - 1
    · have hcond : ¬ ((x : Int) ≠ 1 ∧ (x : Int) ≠ (n : Int) - 1 ∧ Int.tmod a n ≠ 0) := by
        rintro ⟨h1, h2, _⟩
        rcases hc with h | h
        · exact h1 (by exact_mod_cast h)
        · exact h2 (by omega)
      rw [if_neg hcond]
      refine ⟨x, ((j + 1 : Nat) : Int), rfl, le_refl _, ?_, by simp [hc]⟩
      constructor
      · intro h
        exact ⟨0, by omega, by rw [pow_zero, pow_one, Nat.mod_eq_of_lt hx]; omega⟩
      · rintro ⟨k, hk, h⟩
        rcases hc with h1 | h1
        · subst h1
          rw [one_pow, Nat.mod_eq_of_lt hx] at h
          omega
        · omega
    · have hcond : (x : Int) ≠ 1 ∧ (x : Int) ≠ (n : Int) - 1 ∧ Int.tmod a n ≠ 0 := by
        refine ⟨fun h => hc (Or.inl (by exact_mod_cast h)), fun h => hc (Or.inr (by omega)), ha⟩
      have hi : ((j + 1 : Nat) : Int) ≠ 0 := by omega
      have hi1 : ((j + 1 : Nat) : Int) - 1 = (j : Int) := by omega
      rw [if_pos hcond, if_pos hi, mult64_natCast, hi1]
      obtain ⟨x1, i1, hrun, hle, h1, h2⟩ :=
        ih (x * x % n) f (Nat.mod_lt _ (by omega)) (by omega)
      refine ⟨x1, i1, hrun, by omega, ?_, ?_⟩
      · rw [h1]
        constructor
        · rintro ⟨k, hk, h⟩
          exact ⟨k + 1, by omega, by rw [← sq_mod_pow]; exact h⟩
        · rintro ⟨k, hk, h⟩
          cases k with
          | zero =>
            rw [pow_zero, pow_one, Nat.mod_eq_of_lt hx] at h
            exact absurd (Or.inr h) hc
          | succ k1 => exact ⟨k1, by omega, by rw [sq_mod_pow]; exact h⟩
      · constructor
        · intro h; omega
        · intro h; exact absurd h hc

theorem natCast_emod_eq_pred_iff (y n : Nat) (hn : 1 ≤ n) :
    (y : Int) % (n : Int) = (n : Int) - 1 ↔ y % n = n - 1 := by
  rw [← Int.natCast_mod]
  generalize y % n = z
  omega

theorem natCast_emod_eq_one_iff (y n : Nat) :
    (y : Int) % (n : Int) = 1 ↔ y % n = 1 := by
  rw [← Int.natCast_mod]
  generalize y % n = z
  omega

theorem natCast_emod_eq_zero_iff (y n : Nat) :
    (y : Int) % (n : Int) = 0 ↔ y % n = 0 := by
  rw [← Int.natCast_mod]
  generalize y % n = z
  omega

/-- The strong probable prime condition on natural numbers. -/
theorem strongProbablePrime_iff (n q t a : Nat) (hn : 1 ≤ n) :
    strongProbablePrime (n : Int) (q : Int) (t : Int) (a : Int) = true ↔
      (a % n = 0 ∨ a ^ q % n = 1 ∨ ∃ r, r < t ∧ a ^ (q * 2 ^ r) % n = n - 1) := by
  unfold strongProbablePrime
  simp only [Bool.or_eq_true, decide_eq_true_eq, List.any_eq_true, List.mem_range,
    Int.toNat_ofNat, or_assoc]
  have e1 : ((a : Int) ^ q % (n : Int) = 1) ↔ a ^ q % n = 1 := by
    rw [← natCast_emod_eq_one_iff]; push_cast; rfl
  have e2 : ∀ r, ((a : Int) ^ (q * 2 ^ r) % (n : Int) = (n : Int) - 1) ↔
      a ^ (q * 2 ^ r) % n = n - 1 := by
    intro r
    rw [← natCast_emod_eq_pred_iff _ _ hn]; push_cast; rfl
  rw [natCast_emod_eq_zero_iff, e1]
  simp only [e2]

/-- One pass of the loop body on an odd `n = q * 2^t + 1` with `q` odd returns false from
`isPrime` exactly when the base is not a strong probable prime base. -/
theorem witnessRefutes_strong (n q t a : Nat) (hn : n = q * 2 ^ t + 1) (hq : q % 2 = 1)
    (hodd : n % 2 = 1) (h3 : 3 ≤ n) (fuel : Nat) (hfq : q < 2 ^ fuel) (hft : t < fuel + 1) :
    witnessRefutes (fuel + 1) (n : Int) (q : Int) (t : Int) (a : Int)
      = .ok (!strongProbablePrime (n : Int) (q : Int) (t : Int) (a : Int)) := by
  have ht : 1 ≤ t := by
    rcases Nat.eq_zero_or_pos t with h | h
    · subst h; simp at hn; omega
    · exact h
  have htmod : Int.tmod (a : Int) (n : Int) = ((a % n : Nat) : Int) := (Int.ofNat_tmod a n).symm
  unfold witnessRefutes
  rw [htmod, modPow_natCast (a % n) q n fuel (by omega) (Or.inl (by omega)) hfq]
  simp only
  have hpow : ∀ k, (a ^ q % n) ^ (2 ^ k) % n = a ^ (q * 2 ^ k) % n := by
    intro k
    have h1 : (a ^ q % n) ^ (2 ^ k) ≡ (a ^ q) ^ (2 ^ k) [MOD n] :=
      (Nat.mod_modEq _ _).pow _
    rw [pow_mul]
    exact h1
  have hx0 : (a % n) ^ q % n = a ^ q % n := ((Nat.mod_modEq a n).pow q)
  by_cases ha : a % n = 0
  · have hcond : ¬ ((((a % n) ^ q % n : Nat) : Int) ≠ 1 ∧
        (((a % n) ^ q % n : Nat) : Int) ≠ (n : Int) - 1 ∧ Int.tmod (a : Int) (n : Int) ≠ 0) := by
      rintro ⟨_, _, h⟩
      rw [htmod] at h
      exact h (by exact_mod_cast ha)
    rw [squareLoop, if_neg hcond]
    have hspp : strongProbablePrime (n : Int) (q : Int) (t : Int) (a : Int) = true :=
      (strongProbablePrime_iff n q t a (by omega)).mpr (Or.inl ha)
    rw [hspp]
    simp
  · have hat : Int.tmod (a : Int) (n : Int) ≠ 0 := by
      rw [htmod]; exact_mod_cast ha
    obtain ⟨x1, i1, hrun, _, h1, h2⟩ :=
      squareLoop_spec n h3 (a : Int) hat t ((a % n) ^ q % n) (fuel + 1)
        (Nat.mod_lt _ (by omega)) hft
    rw [hrun]
    simp only
    have hiff : (x1 ≠ (n : Int) - 1 ∧ i1 ≠ (t : Int)) ↔
        ¬ strongProbablePrime (n : Int) (q : Int) (t : Int) (a : Int) = true := by
      rw [strongProbablePrime_iff n q t a (by omega), Ne, Ne, h1, h2, hx0]
      constructor
      · rintro ⟨hno, hx⟩ (h | h | ⟨r, hr, h⟩)
        · exact ha h
        · exact hx (Or.inl h)
        · exact hno ⟨r, by omega, by rw [hpow]; exact h⟩
      · intro hnot
        refine ⟨?_, ?_⟩
        · rintro ⟨k, hk, h⟩
          rw [hpow] at h
          rcases Nat.lt_or_ge k t with hlt | hge
          · exact hnot (Or.inr (Or.inr ⟨k, hlt, h⟩))
          · have hkt : k = t := by omega
            subst hkt
            exact pow_pred_ne_neg_one n q k a hn hq hodd h
        · rintro (h | h)
          · exact hnot (Or.inr (Or.inl h))
          · exact hnot (Or.inr (Or.inr ⟨0, by omega, by rw [pow_zero, mul_one]; exact h⟩))
    congr 1
    rw [Bool.eq_iff_iff]
    simp only [decide_eq_true_eq, Bool.not_eq_true']
    rw [hiff]
    simp

end PrimeCore

namespace PrimeCore

theorem odd_mul_two_pow_inj (q d : Nat) (hq : q % 2 = 1) (hd : d % 2 = 1) :
    ∀ (t s : Nat), q * 2 ^ t = d * 2 ^ s → q = d ∧ t = s := by
  intro t
  induction t with
  | zero =>
    intro s h
    cases s with
    | zero => simpa using h
    | succ s1 =>
      rw [pow_zero, mul_one, pow_succ, ← mul_assoc] at h
      omega
  | succ t1 ih =>
    intro s h
    cases s with
    | zero =>
      rw [pow_zero, mul_one, pow_succ, ← mul_assoc] at h
      omega
    | succ s1 =>
      rw [pow_succ, ← mul_assoc, pow_succ, ← mul_assoc] at h
      obtain ⟨h1, h2⟩ := ih s1 (by omega)
      exact ⟨h1, by omega⟩

theorem fixedRounds_strong (n q t : Nat) (hn : n = q * 2 ^ t + 1) (hq : q % 2 = 1)
    (hodd : n % 2 = 1) (h3 : 3 ≤ n) (fuel : Nat) (hfq : q < 2 ^ fuel) (hft : t < fuel + 1) :
    ∀ bases : List Int, (∀ a ∈ bases, (0 : Int) ≤ a) →
      fixedRounds (fuel + 1) (n : Int) (q : Int) (t : Int) bases
        = .ok (bases.all (strongProbablePrime (n : Int) (q : Int) (t : Int))) := by
  intro bases
  induction bases with
  | nil => intro _; rfl
  | cons a rest ih =>
    intro hnn
    have ha : (0 : Int) ≤ a := hnn a (List.mem_cons_self _ _)
    lift a to ℕ using ha
    rw [fixedRounds, witnessRefutes_strong n q t a hn hq hodd h3 fuel hfq hft]
    cases hb : strongProbablePrime (n : Int) (q : Int) (t : Int) (a : Int) with
    | false => simp [hb]
    | true =>
      simp only [Bool.not_true, List.all_cons, hb, Bool.true_and]
      exact ih (fun b hb1 => hnn b (List.mem_cons_of_mem _ hb1))

theorem randomRounds_strong (n q t : Nat) (hn : n = q * 2 ^ t + 1) (hq : q % 2 = 1)
    (hodd : n % 2 = 1) (h4 : 4 ≤ n) (fuel : Nat) (hfq : q < 2 ^ fuel) (hft : t < fuel + 1)
    (src : ByteSource) : ∀ (rounds pos : Nat),
      randomRounds (fuel + 1) src (n : Int) (q : Int) (t : Int) rounds pos
        = strongRandomRounds (fuel + 1) src (n : Int) (q : Int) (t : Int) rounds pos := by
  intro rounds
  induction rounds with
  | zero => intro pos; rfl
  | succ r ih =>
    intro pos
    rw [randomRounds, strongRandomRounds]
    cases hr : randomBigIntInRange (fuel + 1) src pos 2 ((n : Int) - 2) with
    | error e => rfl
    | ok res =>
      obtain ⟨a, pos1⟩ := res
      obtain ⟨k, _, hv, _, _, _⟩ :=
        randomBigIntInRange_ok src pos 2 ((n : Int) - 2) (fuel + 1) a pos1 hr
      have hnn := drawValue_nonneg src (byteLength ((n : Int) - 2 - 2)) pos k
      have ha : (0 : Int) ≤ a := by omega
      lift a to ℕ using ha
      simp only
      rw [witnessRefutes_strong n q t a hn hq hodd (by omega) fuel hfq hft]
      cases hb : strongProbablePrime (n : Int) (q : Int) (t : Int) (a : Int) with
      | false => simp
      | true =>
        simp only [Bool.not_true, if_true]
        exact ih pos1

/-- C19: `isPrime` is the strong probable prime (Miller-Rabin) test over its bases. For every
n ≥ 5 coprime to 6, with n - 1 = d * 2^s and d odd, and every fuel with n < 2^fuel, the call
`isPrime(n)` is the test `strongProbablePrimeTest`: true when each of the seven fixed bases and
each of the 20 sampled bases `a` has a ≡ 0, or a^d ≡ 1, or a^(d·2^r) ≡ -1 (mod n) for some
0 ≤ r < s, and false at the first base that fails this, with the same random bytes consumed. -/
theorem isPrime_eq_strongProbablePrimeTest (fuel : Nat) (src : ByteSource) (pos : Nat)
    (n d s : Int) (hn : 5 ≤ n) (hcop : Int.gcd n 6 = 1) (hs : 0 ≤ s)
    (hfac : n - 1 = d * 2 ^ s.toNat) (hodd : d % 2 = 1) (hfuel : n < 2 ^ fuel) :
    isPrime fuel src pos n = strongProbablePrimeTest fuel src pos n d s := by
  have hd : 0 ≤ d := by
    by_contra hneg
    have h2 : (0 : Int) < 2 ^ s.toNat := by positivity
    have h3 := mul_neg_of_neg_of_pos (not_le.mp hneg) h2
    omega
  lift n to ℕ using (by omega : 0 ≤ n)
  lift d to ℕ using hd
  lift s to ℕ using hs
  have hn5 : 5 ≤ n := by exact_mod_cast hn
  have hslow : ¬ ((n : Int) < 2 ∨ Int.tmod (Int.tmod (n : Int) 6) 4 ≠ 1) := by
    rintro (h | h)
    · omega
    · exact (gcd_six_ne_one_iff n).mpr h hcop
  have hmod : n % 2 = 1 := by
    have e2 : Int.gcd (n : Int) 6 = Nat.gcd n 6 := rfl
    rw [e2] at hcop
    rcases Nat.mod_two_eq_zero_or_one n with h0 | h1
    · have h2 : 2 ∣ Nat.gcd n 6 := Nat.dvd_gcd (Nat.dvd_of_mod_eq_zero h0) (by norm_num)
      rw [hcop] at h2
      omega
    · exact h1
  have hq : d % 2 = 1 := by exact_mod_cast hodd
  have hnat : n = d * 2 ^ s + 1 := by
    rw [Int.toNat_ofNat] at hfac
    have : ((n : Int)) = ((d * 2 ^ s + 1 : Nat) : Int) := by push_cast; omega
    exact_mod_cast this
  have hs1 : 1 ≤ s := by
    rcases Nat.eq_zero_or_pos s with h | h
    · subst h; simp at hnat; omega
    · exact h
  have hfuelN : n < 2 ^ fuel := by exact_mod_cast hfuel
  obtain ⟨f, rfl⟩ : ∃ f, fuel = f + 1 := by
    cases fuel with
    | zero => simp at hfuelN; omega
    | succ f => exact ⟨f, rfl⟩
  have hpos : 1 ≤ 2 ^ s := Nat.one_le_two_pow
  have hfq : d < 2 ^ f := by
    have h2 : d * 2 ≤ d * 2 ^ s := by
      calc d * 2 = d * 2 ^ 1 := by rw [pow_one]
        _ ≤ d * 2 ^ s := Nat.mul_le_mul_left d (Nat.pow_le_pow_right (by norm_num) hs1)
    rw [pow_succ] at hfuelN
    omega
  have hft : s < f + 1 := by
    have h2 : 2 ^ s ≤ d * 2 ^ s := Nat.le_mul_of_pos_left _ (by omega)
    have h3 : 2 ^ s < 2 ^ (f + 1) := by omega
    exact (Nat.pow_lt_pow_iff_right (by norm_num)).mp h3
  rw [isPrime_slow (f + 1) src pos _ hslow, millerRabin, strongProbablePrimeTest]
  have hcast : (n : Int) - 1 = ((n - 1 : Nat) : Int) := by omega
  rw [hcast]
  obtain ⟨d1, s1, hf⟩ := factorLoop_terminates (f + 1) (n - 1) 0 (by omega) (by omega)
  obtain ⟨q, t, hd1, hs1t, hqt, hqodd⟩ := factorLoop_ok (f + 1) (n - 1) 0 d1 s1 (by omega) hf
  have huniq := odd_mul_two_pow_inj q d hqodd hq t s (by omega)
  obtain ⟨hqd, hts⟩ := huniq
  subst hqd hts
  rw [zero_add] at hs1t
  subst hd1 hs1t
  rw [hf]
  simp only
  rw [fixedRounds_strong n q t hnat hq hmod (by omega) f hfq hft fixedBases fixedBases_nonneg]
  cases hall : fixedBases.all (strongProbablePrime (n : Int) (q : Int) (t : Int)) with
  | false => simp
  | true =>
    simp only [if_true]
    exact randomRounds_strong n q t hnat hq hmod (by omega) f hfq hft src 20 pos

theorem isPrime_eq_strongProbablePrimeTest_witness :
    isPrime 5 (fun _ => 0) 0 25 = strongProbablePrimeTest 5 (fun _ => 0) 0 25 3 3 ∧
    isPrime 5 (fun _ => 0) 0 25 = .ok (false, 0) :=
  ⟨isPrime_eq_strongProbablePrimeTest 5 (fun _ => 0) 0 25 3 3 (by decide) (by decide)
    (by decide) (by decide) (by decide) (by decide), by decide⟩

end PrimeCore

namespace PrimeCore

theorem toDigitsCore_two_ge : ∀ (f n : Nat), n < f → 1 ≤ n →
    2 ^ (Nat.toDigitsCore 2 f n []).length ≤ 2 * n := by
  intro f
  induction f with
  | zero => intro n h; omega
  | succ f ih =>
    intro n h h1
    rw [Nat.toDigitsCore]
    by_cases h0 : n / 2 = 0
    · simp only [h0, if_true, List.length_singleton, pow_one]
      omega
    · simp only [h0, if_false]
      rw [Nat.toDigitsCore_lens_eq, pow_succ]
      have := ih (n / 2) (by omega) (by omega)
      omega

theorem toDigits_two_ge (n : Nat) (h : 1 ≤ n) : 2 ^ (Nat.toDigits 2 n).length ≤ 2 * n := by
  unfold Nat.toDigits
  exact toDigitsCore_two_ge (n + 1) n (Nat.lt_succ_self n) h

theorem toString2_length_natCast (n : Nat) :
    (toString2 (n : Int)).length = (Nat.toDigits 2 n).length := by
  unfold toString2
  rw [if_neg (by omega)]
  simp

/-- The draws that pass the loop test for a non-negative range are the values 0, …, range. -/
theorem acceptedDraws_eq (range : Int) (h : 0 ≤ range) :
    acceptedDraws range = range.toNat + 1 := by
  have hlt := lt_pow_byteLength range h
  lift range to ℕ using h
  have hlt1 : range < 256 ^ byteLength (range : Int) := by exact_mod_cast hlt
  unfold acceptedDraws
  have hset : (Finset.range (256 ^ byteLength (range : Int))).filter
      (fun r : Nat => (r : Int) ≤ (range : Int)) = Finset.range (range + 1) := by
    ext r
    simp only [Finset.mem_filter, Finset.mem_range, Nat.cast_le]
    omega
  rw [hset, Finset.card_range, Int.toNat_ofNat]

/-- C21 (as stated) fails: for min = 0 and max = 256 the span 256 has 9 bits, so two bytes are
drawn, and only 257 of the 65536 possible draws pass the test, fewer than half. -/
theorem acceptedDraws_span_256_counterexample :
    byteLength (256 - 0) = 2 ∧ acceptedDraws (256 - 0) = 257 ∧
    2 * acceptedDraws (256 - 0) < 256 ^ byteLength (256 - 0) := by
  have hb : byteLength (256 - 0) = 2 := by decide
  have ha : acceptedDraws (256 - 0) = 257 := by
    rw [acceptedDraws_eq _ (by decide)]
    decide
  refine ⟨hb, ha, ?_⟩
  rw [ha, hb]
  decide

/-- C21 (amended): for all min ≤ max, with span = max - min, exactly span + 1 of the
256^byteLen possible draws pass the test; that is at least one in 256 of them, and at least
half of them when the bit length of span is a multiple of 8. -/
theorem acceptedDraws_bounds (min max : Int) (hle : min ≤ max) :
    acceptedDraws (max - min) = (max - min).toNat + 1 ∧
    256 ^ byteLength (max - min) ≤ 256 * acceptedDraws (max - min) ∧
    ((toString2 (max - min)).length % 8 = 0 →
      256 ^ byteLength (max - min) ≤ 2 * acceptedDraws (max - min)) := by
  have h0 : 0 ≤ max - min := by omega
  have hcount := acceptedDraws_eq (max - min) h0
  generalize max - min = range at h0 hcount
  lift range to ℕ using h0
  rw [hcount, Int.toNat_ofNat]
  refine ⟨rfl, ?_, ?_⟩
  · unfold byteLength
    rw [toString2_length_natCast]
    rcases Nat.eq_zero_or_pos range with hz | hpos
    · subst hz
      decide
    · have h1 := toDigits_two_ge range hpos
      have e : (256 : Nat) = 2 ^ 8 := by norm_num
      have h2 : 256 ^ (((Nat.toDigits 2 range).length + 7) / 8)
          ≤ 2 ^ ((Nat.toDigits 2 range).length + 7) := by
        rw [e, ← pow_mul]
        exact Nat.pow_le_pow_right (by norm_num) (by omega)
      rw [pow_add] at h2
      omega
  · intro hmod
    unfold byteLength
    rw [toString2_length_natCast] at hmod ⊢
    rcases Nat.eq_zero_or_pos range with hz | hpos
    · subst hz
      revert hmod
      decide
    · have h1 := toDigits_two_ge range hpos
      have e : (256 : Nat) = 2 ^ 8 := by norm_num
      have h2 : 256 ^ (((Nat.toDigits 2 range).length + 7) / 8)
          ≤ 2 ^ ((Nat.toDigits 2 range).length) := by
        rw [e, ← pow_mul]
        exact Nat.pow_le_pow_right (by norm_num) (by omega)
      omega

theorem acceptedDraws_bounds_witness :
    acceptedDraws (255 - 0) = ((255 : Int) - 0).toNat + 1 ∧
    256 ^ byteLength (255 - 0) ≤ 256 * acceptedDraws (255 - 0) ∧
    ((toString2 (255 - 0)).length % 8 = 0 →
      256 ^ byteLength (255 - 0) ≤ 2 * acceptedDraws (255 - 0)) :=
  acceptedDraws_bounds 0 255 (by decide)

end PrimeCore

namespace PrimeCore

/-- The second `for` loop, when it runs all its rounds, draws at least one byte per round. -/
theorem randomRounds_true_pos (fuel : Nat) (src : ByteSource) (N d s : Int) :
    ∀ (rounds pos pos1 : Nat),
      randomRounds fuel src N d s rounds pos = .ok (true, pos1) → pos + rounds ≤ pos1 := by
  intro rounds
  induction rounds with
  | zero =>
    intro pos pos1 h
    simp only [randomRounds, Except.ok.injEq, Prod.mk.injEq, true_and] at h
    omega
  | succ r ih =>
    intro pos pos1 h
    rw [randomRounds] at h
    cases hr : randomBigIntInRange fuel src pos 2 (N - 2) with
    | error e => rw [hr] at h; cases h
    | ok res =>
      obtain ⟨a, p1⟩ := res
      rw [hr] at h
      simp only at h
      obtain ⟨k, _, _, _, _, hp1⟩ := randomBigIntInRange_ok src pos 2 (N - 2) fuel a p1 hr
      have hb := byteLength_pos (N - 2 - 2)
      have hstep : pos + 1 ≤ p1 := by
        rw [hp1]
        have : 1 * 1 ≤ (k + 1) * byteLength (N - 2 - 2) := Nat.mul_le_mul (by omega) hb
        omega
      cases hw : witnessRefutes fuel N d s a with
      | error e => rw [hw] at h; cases h
      | ok b =>
        rw [hw] at h
        cases b with
        | true => simp at h
        | false =>
          have := ih p1 pos1 h
          omega

/-- C22 (as stated) fails: 5 is far below 2^64, and `isPrime(5)` on the all-zero byte source
samples its 20 random bases, consuming 20 random bytes. -/
theorem isPrime_five_samples_counterexample :
    isPrime 5 (fun _ => 0) 0 5 = .ok (true, 20) := by
  decide

/-- C22 (amended): the 20 random-base rounds do not depend on the size of n. A call of
`isPrime(n)` consumes no random byte when n < 2 or n is not coprime to 6; and for every n ≥ 5,
however small, a call that answers true has run the 20 rounds and consumed at least 20 random
bytes, so that a call for n ≥ 5 that consumed none answered false. -/
theorem isPrime_random_rounds (fuel : Nat) (src : ByteSource) (pos : Nat) (n : Int) (r : Bool)
    (pos1 : Nat) (h : isPrime fuel src pos n = .ok (r, pos1)) :
    (n < 2 ∨ Int.gcd n 6 ≠ 1 → pos1 = pos) ∧
    (5 ≤ n → r = true → pos + 20 ≤ pos1) ∧
    (5 ≤ n → pos1 = pos → r = false) := by
  have hfastpos : (n < 2 ∨ Int.tmod (Int.tmod n 6) 4 ≠ 1) → pos1 = pos := by
    intro hf
    rw [isPrime_fast fuel src pos n hf] at h
    simp only [Except.ok.injEq, Prod.mk.injEq] at h
    exact h.2.symm
  have htrue : 5 ≤ n → r = true → pos + 20 ≤ pos1 := by
    intro h5 hr
    subst hr
    by_cases hf : n < 2 ∨ Int.tmod (Int.tmod n 6) 4 ≠ 1
    · rw [isPrime_fast fuel src pos n hf] at h
      simp only [Except.ok.injEq, Prod.mk.injEq, decide_eq_true_eq] at h
      omega
    · rw [isPrime_slow fuel src pos n hf, millerRabin] at h
      cases hfac : factorLoop fuel (n - 1) 0 with
      | error e => rw [hfac] at h; cases h
      | ok res =>
        obtain ⟨d, s⟩ := res
        rw [hfac] at h
        simp only at h
        cases hfix : fixedRounds fuel n d s fixedBases with
        | error e => rw [hfix] at h; cases h
        | ok b =>
          rw [hfix] at h
          cases b with
          | false => simp at h
          | true => exact randomRounds_true_pos fuel src n d s 20 pos pos1 h
  refine ⟨?_, htrue, ?_⟩
  · rintro (hlt | hg)
    · exact hfastpos (Or.inl hlt)
    · by_cases hlt : n < 2
      · exact hfastpos (Or.inl hlt)
      · have hn : 0 ≤ n := by omega
        lift n to ℕ using hn
        exact hfastpos (Or.inr ((gcd_six_ne_one_iff n).mp hg))
  · intro h5 hpos
    cases r with
    | false => rfl
    | true =>
      have := htrue h5 rfl
      omega

theorem isPrime_random_rounds_witness :
    ((5 : Int) < 2 ∨ Int.gcd 5 6 ≠ 1 → 20 = 0) ∧
    ((5 : Int) ≤ 5 → true = true → 0 + 20 ≤ 20) ∧
    ((5 : Int) ≤ 5 → 20 = 0 → true = false) :=
  isPrime_random_rounds 5 (fun _ => 0) 0 5 true 20 (by decide)

end PrimeCore

namespace PrimeCore

theorem randomRoundsCalls_mem (fuel : Nat) (src : ByteSource) (N d s : Int) :
    ∀ (rounds pos : Nat), ∀ call ∈ randomRoundsCalls fuel src N d s rounds pos,
      call = (2, N - 2) := by
  intro rounds
  induction rounds with
  | zero => intro pos call h; simp [randomRoundsCalls] at h
  | succ r ih =>
    intro pos call h
    rw [randomRoundsCalls, List.mem_cons] at h
    rcases h with h | h
    · exact h
    · cases hr : randomBigIntInRange fuel src pos 2 (N - 2) with
      | error e => rw [hr] at h; simp at h
      | ok res =>
        obtain ⟨a, p1⟩ := res
        rw [hr] at h
        simp only at h
        cases hw : witnessRefutes fuel N d s a with
        | error e => rw [hw] at h; simp at h
        | ok b =>
          rw [hw] at h
          cases b with
          | true => simp at h
          | false => exact ih p1 call h

/-- The slow path of `isPrime` is entered only with N ≥ 5. -/
theorem slow_path_ge_five (N : Int) (h : ¬ (N < 2 ∨ Int.tmod (Int.tmod N 6) 4 ≠ 1)) :
    5 ≤ N := by
  have h2 : 2 ≤ N := by
    by_contra hlt
    exact h (Or.inl (by omega))
  lift N to ℕ using (by omega : 0 ≤ N)
  have e1 : Int.tmod (N : Int) 6 = ((N % 6 : Nat) : Int) := by
    rw [Int.ofNat_tmod]; rfl
  rw [e1] at h
  have hlt : N % 6 < 6 := Nat.mod_lt _ (by norm_num)
  have hmod : N % 6 = 1 ∨ N % 6 = 5 := by
    generalize N % 6 = m at h hlt
    interval_cases m
    · exact absurd (Or.inr (by decide)) h
    · exact Or.inl rfl
    · exact absurd (Or.inr (by decide)) h
    · exact absurd (Or.inr (by decide)) h
    · exact absurd (Or.inr (by decide)) h
    · exact Or.inr rfl
  have h2n : 2 ≤ N := by exact_mod_cast h2
  have : 5 ≤ N := by omega
  exact_mod_cast this

theorem isPrimeCalls_mem (fuel : Nat) (src : ByteSource) (pos : Nat) (N : Int) :
    ∀ call ∈ isPrimeCalls fuel src pos N, call = (2, N - 2) ∧ 5 ≤ N := by
  intro call h
  unfold isPrimeCalls at h
  by_cases hf : N < 2 ∨ Int.tmod (Int.tmod N 6) 4 ≠ 1
  · rw [if_pos hf] at h; simp at h
  · rw [if_neg hf] at h
    refine ⟨?_, slow_path_ge_five N hf⟩
    cases hfac : factorLoop fuel (N - 1) 0 with
    | error e => rw [hfac] at h; simp at h
    | ok res =>
      obtain ⟨d, s⟩ := res
      rw [hfac] at h
      simp only at h
      cases hfix : fixedRounds fuel N d s fixedBases with
      | error e => rw [hfix] at h; simp at h
      | ok b =>
        rw [hfix] at h
        cases b with
        | false => simp at h
        | true => exact randomRoundsCalls_mem fuel src N d s 20 pos call h

/-- With max < min every draw is above the range, so the sampling loop is never left: at
every fuel the call is cut off. -/
theorem randomBigIntInRange_inverted (fuel : Nat) (src : ByteSource) (pos : Nat)
    (min max : Int) (h : max < min) :
    randomBigIntInRange fuel src pos min max = .error .outOfFuel := by
  cases hr : randomBigIntInRange fuel src pos min max with
  | error e => rw [randomBigIntInRange_error src pos min max fuel e hr]
  | ok res =>
    obtain ⟨v, pos1⟩ := res
    obtain ⟨k, _, _, hle, _, _⟩ := randomBigIntInRange_ok src pos min max fuel v pos1 hr
    have hnn := drawValue_nonneg src (byteLength (max - min)) pos k
    omega

/-- C30: the sampling calls made inside never get an inverted range. Every call of
`randomBigIntInRange` made by `isPrime(n)` has the arguments (2, n - 2) and is made only for
n ≥ 5, so 2 ≤ n - 2, and every base such a call returns lies in [2, n - 2]; the call made by
`generateRandomOddNumber(digitLength)` with digitLength ≥ 1 has min ≤ max. With max < min
every draw is rejected (each is above max - min) and `randomBigIntInRange` never returns: at
every fuel the model is cut off. The calls do occur: `isPrime(5)` on the all-zero source makes
20 of them, each with the arguments (2, 3). -/
theorem sampling_ranges (fuel : Nat) (src : ByteSource) (pos : Nat) (n : Int) :
    (∀ call ∈ isPrimeCalls fuel src pos n,
      call = (2, n - 2) ∧ 5 ≤ n ∧ (2 : Int) ≤ n - 2 ∧ call.1 ≤ call.2) ∧
    (5 ≤ n → ∀ (pos0 : Nat) (a : Int) (pos1 : Nat),
      randomBigIntInRange fuel src pos0 2 (n - 2) = .ok (a, pos1) → 2 ≤ a ∧ a ≤ n - 2) ∧
    (∀ digitLength : Int, 1 ≤ digitLength →
      generateRandomOddNumberCalls digitLength
        = [(10 ^ (digitLength - 1).toNat, 10 ^ digitLength.toNat - 1)] ∧
      ∀ call ∈ generateRandomOddNumberCalls digitLength, call.1 ≤ call.2) ∧
    (∀ min max : Int, max < min →
      (∀ k : Nat, max - min < drawValue src (byteLength (max - min)) pos k) ∧
      randomBigIntInRange fuel src pos min max = .error .outOfFuel) ∧
    isPrimeCalls 5 (fun _ => 0) 0 5 = List.replicate 20 (2, 3) := by
  refine ⟨?_, ?_, ?_, ?_, by decide⟩
  · intro call h
    obtain ⟨hcall, h5⟩ := isPrimeCalls_mem fuel src pos n call h
    refine ⟨hcall, h5, by omega, ?_⟩
    rw [hcall]
    show (2 : Int) ≤ n - 2
    omega
  · intro h5 pos0 a pos1 hr
    obtain ⟨k, _, hv, hle, _, _⟩ := randomBigIntInRange_ok src pos0 2 (n - 2) fuel a pos1 hr
    have hnn := drawValue_nonneg src (byteLength (n - 2 - 2)) pos0 k
    omega
  · intro digitLength hd
    have hcalls : generateRandomOddNumberCalls digitLength
        = [(10 ^ (digitLength - 1).toNat, 10 ^ digitLength.toNat - 1)] := by
      unfold generateRandomOddNumberCalls
      rw [if_neg (by omega)]
    refine ⟨hcalls, ?_⟩
    intro call hcall
    rw [hcalls, List.mem_singleton] at hcall
    rw [hcall]
    show (10 : Int) ^ (digitLength - 1).toNat ≤ 10 ^ digitLength.toNat - 1
    have hnat : digitLength.toNat = (digitLength - 1).toNat + 1 := by omega
    rw [hnat, pow_succ]
    have hpos : (1 : Int) ≤ 10 ^ (digitLength - 1).toNat := one_le_pow₀ (by norm_num)
    omega
  · intro min max hlt
    refine ⟨fun k => ?_, randomBigIntInRange_inverted fuel src pos min max hlt⟩
    have hnn := drawValue_nonneg src (byteLength (max - min)) pos k
    omega

end PrimeCore

namespace PrimeGenerator

/-- A call whose two halves run with nothing in between sets `workerBusy` before the next call
tests it. -/
theorem callResume_callStart_busy (g : Generator) (hu : g.useWorker = true)
    (hw : g.workerDefined = true) (hb : g.workerBusy = false) (hs : g.suspended = 0) :
    (callResume (callStart g)).workerBusy = true ∧
    (callResume (callStart g)).posted = g.posted + 1 ∧
    (callStart (callResume (callStart g))).posted = g.posted + 1 ∧
    (callStart (callResume (callStart g))).mainThread = g.mainThread + 1 := by
  obtain ⟨u, wd, w, b, su, h, p, t, m⟩ := g
  simp only at hu hw hb hs
  subst hu hw hb hs
  cases w <;> simp [callStart, callResume, initWorker]

/-- C24 (the code on two calls made back to back): on a fresh generator with a worker
available, the second call tests `workerBusy` before the first has set it, because the flag is
set only after `await this.initWorker()`. Both calls then post a 'generate' request: two
requests are in flight, with two handlers registered. When instead the first call has passed
its `await` before the second is made, the second runs on the main thread and one request is in
flight. -/
theorem two_calls_two_requests :
    (Generator.after true true [.call]).workerBusy = false ∧
    (Generator.after true true [.call, .call]).suspended = 2 ∧
    (Generator.after true true [.call, .call, .resume, .resume]).posted = 2 ∧
    (Generator.after true true [.call, .call, .resume, .resume]).terminals = 0 ∧
    (Generator.after true true [.call, .call, .resume, .resume]).inFlight = 2 ∧
    (Generator.after true true [.call, .call, .resume, .resume]).handlers = 2 ∧
    (Generator.after true true [.call, .call, .resume, .resume]).mainThread = 0 ∧
    (Generator.after true true [.call, .resume, .call]).inFlight = 1 ∧
    (Generator.after true true [.call, .resume, .call]).mainThread = 1 ∧
    (Generator.after true true
      [.call, .call, .resume, .resume, .message .complete]).workerBusy = false ∧
    (Generator.after true true
      [.call, .call, .resume, .resume, .message .complete]).inFlight = 1 := by
  decide

end PrimeGenerator

namespace PaginationController
open Js

/-- What `setItems` does to the current page: it stays when it does not exceed the new number
of pages, and otherwise becomes that number, or 1 when there is no page. -/
theorem setItems_currentPage {α : Type} (st : State α) (items : List α) :
    (setItems st items).currentPage =
      if st.currentPage > ceilDiv items.length st.itemsPerPage then
        max 1 (ceilDiv items.length st.itemsPerPage)
      else st.currentPage := by
  rfl

/-- C25 (the code on a page beyond the new last page): a controller with 10 items per page
that stands on page 5 of 5 and is given 15 items has 2 pages and stands on page 2, the last
page, not on page 1. -/
theorem setItems_moves_to_last_page :
    (run 10 [.setItems (List.range 50), .goToPage 5] : State Nat).currentPage = 5 ∧
    (run 10 [.setItems (List.range 50), .goToPage 5] : State Nat).totalPages = 5 ∧
    (setItems (run 10 [.setItems (List.range 50), .goToPage 5]) (List.range 15)).totalPages
      = 2 ∧
    (setItems (run 10 [.setItems (List.range 50), .goToPage 5]) (List.range 15)).currentPage
      = 2 := by
  decide

end PaginationController

namespace Js

/-- For b ≥ 1 the value `ceilDiv a b` is the ceiling of the quotient a / b. -/
theorem ceilDiv_eq_ceil (a b : Int) (hb : 1 ≤ b) :
    ceilDiv a b = ⌈(a : ℚ) / (b : ℚ)⌉ := by
  lift b to ℕ using (by omega : 0 ≤ b)
  unfold ceilDiv
  have h := Rat.floor_intCast_div_natCast (-a) b
  rw [← h, ← Int.ceil_neg]
  congr 1
  push_cast
  ring

theorem ceilDiv_bounds (a b : Int) (hb : 1 ≤ b) :
    a ≤ ceilDiv a b * b ∧ (ceilDiv a b - 1) * b < a := by
  unfold ceilDiv
  have h1 := Int.emod_add_ediv (-a) b
  have h2 := Int.emod_nonneg (-a) (by omega : b ≠ 0)
  have h3 := Int.emod_lt_of_pos (-a) (by omega : 0 < b)
  have e1 : -(-a / b) * b = -(b * (-a / b)) := by ring
  have e2 : (-(-a / b) - 1) * b = -(b * (-a / b)) - b := by ring
  rw [e1, e2]
  constructor <;> omega

theorem ceilDiv_mono (a c b : Int) (hb : 1 ≤ b) (h : a ≤ c) : ceilDiv a b ≤ ceilDiv c b := by
  unfold ceilDiv
  have := Int.ediv_le_ediv (by omega : 0 < b) (by omega : -c ≤ -a)
  omega

theorem ceilDiv_pos (a b : Int) (hb : 1 ≤ b) (ha : 1 ≤ a) : 1 ≤ ceilDiv a b := by
  have h := (ceilDiv_bounds a b hb).1
  by_contra hlt
  have h0 : ceilDiv a b ≤ 0 := by omega
  have := mul_nonpos_of_nonpos_of_nonneg h0 (by omega : 0 ≤ b)
  omega

theorem ceilDiv_zero (b : Int) : ceilDiv 0 b = 0 := by
  simp [ceilDiv]

/-- A slice between non-negative indices that fit the array is a drop followed by a take. -/
theorem slice_eq_take_drop {α : Type} (xs : List α) (i n : Nat) :
    slice xs (i : Int) (min ((i : Int) + (n : Int)) (xs.length : Int)) = (xs.drop i).take n := by
  unfold slice
  simp only
  have hstop : ¬ (min ((i : Int) + (n : Int)) (xs.length : Int)) < 0 := by omega
  rw [if_neg (by omega : ¬ (i : Int) < 0), if_neg hstop]
  rcases Nat.lt_or_ge xs.length i with hlt | hge
  · have e1 : (min (i : Int) (xs.length : Int)).toNat = xs.length := by omega
    rw [e1, List.drop_eq_nil_of_le (le_refl _), List.drop_eq_nil_of_le (by omega)]
    simp
  · have e1 : (min (i : Int) (xs.length : Int)).toNat = i := by omega
    have e2 : (min (min ((i : Int) + (n : Int)) (xs.length : Int)) (xs.length : Int)
        - min (i : Int) (xs.length : Int)).toNat = min n (xs.length - i) := by omega
    rw [e1, e2, List.take_eq_take]
    simp

/-- Cutting a list into consecutive pieces of `n` items and joining them gives it back. -/
theorem flatMap_pages {α : Type} (n : Nat) : ∀ (k : Nat) (xs : List α), xs.length ≤ k * n →
    (List.range k).flatMap (fun i => (xs.drop (i * n)).take n) = xs := by
  intro k
  induction k with
  | zero =>
    intro xs h
    have : xs = [] := List.eq_nil_of_length_eq_zero (by omega)
    subst this
    rfl
  | succ k ih =>
    intro xs h
    rw [List.range_succ_eq_map, List.flatMap_cons, List.flatMap_map]
    have hrest : (List.range k).flatMap (fun i => ((xs.drop n).drop (i * n)).take n)
        = xs.drop n := ih (xs.drop n) (by rw [List.length_drop, Nat.succ_mul] at *; omega)
    have hfun : (fun i => (xs.drop (Nat.succ i * n)).take n)
        = (fun i => ((xs.drop n).drop (i * n)).take n) := by
      funext i
      rw [List.drop_drop, Nat.succ_mul, Nat.add_comm]
    rw [hfun, hrest]
    simp

end Js

namespace PaginationController
open Js

theorem inv_create {α : Type} (itemsPerPage : Int) : Inv itemsPerPage (create itemsPerPage : State α) :=
  ⟨rfl, le_refl _, by simp [create], Or.inr ⟨rfl, rfl⟩⟩

theorem inv_apply {α : Type} (itemsPerPage : Int) (h : 1 ≤ itemsPerPage) (st : State α)
    (hst : Inv itemsPerPage st) (op : Op α) : Inv itemsPerPage (Op.apply st op) := by
  obtain ⟨hipp, h1, hle, htot⟩ := hst
  cases op with
  | setItems items =>
    refine ⟨hipp, ?_, ?_, Or.inl (by simp only [Op.apply, setItems, hipp])⟩
    · simp only [Op.apply, setItems]
      split
      · exact le_max_left _ _
      · exact h1
    · simp only [Op.apply, setItems]
      split
      · exact le_refl _
      · rename_i hgt
        exact le_trans (not_lt.mp hgt) (le_max_right _ _)
  | addItem item =>
    have hlen : ((st.allItems ++ [item]).length : Int) = (st.allItems.length : Int) + 1 := by
      simp
    have hpos : 1 ≤ ceilDiv ((st.allItems ++ [item]).length : Int) itemsPerPage :=
      ceilDiv_pos _ _ h (by rw [hlen]; omega)
    refine ⟨hipp, h1, ?_, Or.inl (by simp only [Op.apply, addItem, hipp])⟩
    simp only [Op.apply, addItem, hipp]
    rcases htot with ht | ⟨_, ht⟩
    · have hmono : ceilDiv (st.allItems.length : Int) itemsPerPage
          ≤ ceilDiv ((st.allItems ++ [item]).length : Int) itemsPerPage :=
        ceilDiv_mono _ _ _ h (by rw [hlen]; omega)
      rw [ht] at hle
      exact le_trans hle (max_le_max (le_refl _) hmono)
    · rw [ht] at hle
      exact le_trans hle (by simp)
  | nextPage =>
    simp only [Op.apply, nextPage]
    split
    · rename_i hlt
      refine ⟨hipp, ?_, ?_, htot⟩
      · show 1 ≤ st.currentPage + 1
        omega
      · show st.currentPage + 1 ≤ max 1 st.totalPages
        exact le_trans (by omega : st.currentPage + 1 ≤ st.totalPages) (le_max_right _ _)
    · exact ⟨hipp, h1, hle, htot⟩
  | previousPage =>
    simp only [Op.apply, previousPage]
    split
    · rename_i hgt
      refine ⟨hipp, ?_, ?_, htot⟩
      · show 1 ≤ st.currentPage - 1
        omega
      · show st.currentPage - 1 ≤ max 1 st.totalPages
        exact le_trans (by omega : st.currentPage - 1 ≤ st.currentPage) hle
    · exact ⟨hipp, h1, hle, htot⟩
  | goToPage pageNumber =>
    simp only [Op.apply, goToPage]
    split
    · rename_i hp
      exact ⟨hipp, hp.1, le_trans hp.2 (le_max_right _ _), htot⟩
    · exact ⟨hipp, h1, hle, htot⟩
  | reset =>
    exact ⟨hipp, le_refl _, by simp [Op.apply, reset], Or.inr ⟨rfl, rfl⟩⟩

theorem inv_foldl {α : Type} (itemsPerPage : Int) (h : 1 ≤ itemsPerPage) :
    ∀ (ops : List (Op α)) (st : State α), Inv itemsPerPage st →
      Inv itemsPerPage (ops.foldl Op.apply st) := by
  intro ops
  induction ops with
  | nil => intro st hst; exact hst
  | cons op rest ih =>
    intro st hst
    exact ih _ (inv_apply itemsPerPage h st hst op)

theorem inv_run {α : Type} (itemsPerPage : Int) (h : 1 ≤ itemsPerPage) (ops : List (Op α)) :
    Inv itemsPerPage (run itemsPerPage ops) :=
  inv_foldl itemsPerPage h ops _ (inv_create itemsPerPage)

theorem inv_totalPages {α : Type} (itemsPerPage : Int) (st : State α)
    (hst : Inv itemsPerPage st) (hne : st.allItems ≠ []) :
    st.totalPages = ceilDiv st.allItems.length itemsPerPage := by
  rcases hst.2.2.2 with ht | ⟨hnil, _⟩
  · exact ht
  · exact absurd hnil hne

/-- C28: the page invariant. For a controller built with an integer itemsPerPage ≥ 1, after
any calls of setItems, addItem, nextPage, previousPage, goToPage (integer argument) and reset,
1 ≤ currentPage ≤ max(1, totalPages), and whenever allItems is not empty totalPages is
`Math.ceil(allItems.length / itemsPerPage)`, the ceiling of the quotient. -/
theorem page_invariant {α : Type} (itemsPerPage : Int) (h : 1 ≤ itemsPerPage)
    (ops : List (Op α)) :
    1 ≤ (run itemsPerPage ops).currentPage ∧
    (run itemsPerPage ops).currentPage ≤ max 1 (run itemsPerPage ops).totalPages ∧
    ((run itemsPerPage ops).allItems ≠ [] →
      (run itemsPerPage ops).totalPages
        = ceilDiv (run itemsPerPage ops).allItems.length itemsPerPage ∧
      (run itemsPerPage ops).totalPages
        = ⌈(((run itemsPerPage ops).allItems.length : Int) : ℚ) / (itemsPerPage : ℚ)⌉) := by
  have hinv := inv_run itemsPerPage h ops
  refine ⟨hinv.2.1, hinv.2.2.1, fun hne => ?_⟩
  have ht := inv_totalPages itemsPerPage _ hinv hne
  exact ⟨ht, by rw [ht, ceilDiv_eq_ceil _ _ h]⟩

theorem page_invariant_witness :
    1 ≤ (run 10 [.setItems (List.range 50), .goToPage 5, .setItems (List.range 15), .addItem 7,
      .nextPage, .previousPage] : State Nat).currentPage ∧
    (run 10 [.setItems (List.range 50), .goToPage 5, .setItems (List.range 15), .addItem 7,
      .nextPage, .previousPage] : State Nat).currentPage
      ≤ max 1 (run 10 [.setItems (List.range 50), .goToPage 5, .setItems (List.range 15),
        .addItem 7, .nextPage, .previousPage] : State Nat).totalPages ∧
    ((run 10 [.setItems (List.range 50), .goToPage 5, .setItems (List.range 15), .addItem 7,
      .nextPage, .previousPage] : State Nat).allItems ≠ [] →
      (run 10 [.setItems (List.range 50), .goToPage 5, .setItems (List.range 15), .addItem 7,
        .nextPage, .previousPage] : State Nat).totalPages
        = ceilDiv (run 10 [.setItems (List.range 50), .goToPage 5, .setItems (List.range 15),
          .addItem 7, .nextPage, .previousPage] : State Nat).allItems.length 10 ∧
      (run 10 [.setItems (List.range 50), .goToPage 5, .setItems (List.range 15), .addItem 7,
        .nextPage, .previousPage] : State Nat).totalPages
        = ⌈(((run 10 [.setItems (List.range 50), .goToPage 5, .setItems (List.range 15),
          .addItem 7, .nextPage, .previousPage] : State Nat).allItems.length : Int) : ℚ)
            / ((10 : Int) : ℚ)⌉) :=
  page_invariant 10 (by decide) _

end PaginationController

namespace PaginationController
open Js

/-- The items of page `i + 1`, once `goToPage` has moved there: `n` items from index `i * n`
on, `n` being the items per page. -/
theorem getCurrentPageItems_goToPage {α : Type} (st : State α) (n i : Nat)
    (hn : st.itemsPerPage = (n : Int)) (hi : ((i : Int) + 1) ≤ st.totalPages) :
    startIdx (goToPage st ((i : Int) + 1)).1 = ((i * n : Nat) : Int) ∧
    getCurrentPageItems (goToPage st ((i : Int) + 1)).1 = (st.allItems.drop (i * n)).take n := by
  have hgo : (goToPage st ((i : Int) + 1)).1 = { st with currentPage := (i : Int) + 1 } := by
    unfold goToPage
    rw [if_pos ⟨by omega, hi⟩]
  have hstart : startIdx (goToPage st ((i : Int) + 1)).1 = ((i * n : Nat) : Int) := by
    rw [hgo]
    simp only [startIdx, hn]
    push_cast
    ring
  refine ⟨hstart, ?_⟩
  unfold getCurrentPageItems endIdx
  rw [hstart]
  rw [hgo]
  simp only [hn]
  exact slice_eq_take_drop st.allItems (i * n) n

/-- The pages of a controller in a state that satisfies the invariant and has items. -/
theorem pages_of_inv {α : Type} (itemsPerPage : Int) (h : 1 ≤ itemsPerPage) (st : State α)
    (hinv : Inv itemsPerPage st) (hne : st.allItems ≠ []) :
    (List.range st.totalPages.toNat).flatMap
      (fun i => getCurrentPageItems (goToPage st ((i : Int) + 1)).1) = st.allItems ∧
    (∀ p : Int, 1 ≤ p → p ≤ st.totalPages →
      1 ≤ (getCurrentPageItems (goToPage st p).1).length ∧
      ((getCurrentPageItems (goToPage st p).1).length : Int) ≤ itemsPerPage) ∧
    (∀ p : Int, 1 ≤ p → p ≤ st.totalPages →
      ∀ entry ∈ getCurrentPageItemsWithIndices (goToPage st p).1,
        0 ≤ entry.2 ∧ st.allItems[entry.2.toNat]? = some entry.1) := by
  have htot := inv_totalPages itemsPerPage st hinv hne
  have hipp := hinv.1
  lift itemsPerPage to ℕ using (by omega : 0 ≤ itemsPerPage) with n
  have hn1 : 1 ≤ n := by exact_mod_cast h
  have hlen : 1 ≤ st.allItems.length := by
    cases hl : st.allItems with
    | nil => exact absurd hl hne
    | cons x xs => simp
  obtain ⟨hb1, hb2⟩ := ceilDiv_bounds (st.allItems.length : Int) (n : Int) h
  rw [← htot] at hb1 hb2
  have htpos : 1 ≤ st.totalPages := by
    rw [htot]
    exact ceilDiv_pos _ _ h (by omega)
  obtain ⟨k, hk⟩ : ∃ k : Nat, st.totalPages = (k : Int) := ⟨st.totalPages.toNat, by omega⟩
  have hk1 : 1 ≤ k := by omega
  rw [hk] at hb1 hb2
  have hcover : st.allItems.length ≤ k * n := by exact_mod_cast hb1
  have hlast : (k - 1) * n < st.allItems.length := by
    have e : (((k - 1 : Nat) : Int)) = (k : Int) - 1 := by omega
    have : (((k - 1) * n : Nat) : Int) < (st.allItems.length : Int) := by
      push_cast
      rw [e]
      exact hb2
    exact_mod_cast this
  refine ⟨?_, ?_, ?_⟩
  · rw [hk, Int.toNat_ofNat]
    have hfun : ∀ i ∈ List.range k,
        getCurrentPageItems (goToPage st ((i : Int) + 1)).1 = (st.allItems.drop (i * n)).take n := by
      intro i hi
      rw [List.mem_range] at hi
      exact (getCurrentPageItems_goToPage st n i hipp (by omega)).2
    rw [List.flatMap_congr hfun]
    exact flatMap_pages n k st.allItems hcover
  · intro p hp1 hp2
    obtain ⟨i, hi⟩ : ∃ i : Nat, p = (i : Int) + 1 := ⟨(p - 1).toNat, by omega⟩
    subst hi
    rw [(getCurrentPageItems_goToPage st n i hipp hp2).2, List.length_take, List.length_drop]
    have hik : i ≤ k - 1 := by omega
    have hmul : i * n ≤ (k - 1) * n := Nat.mul_le_mul_right n hik
    constructor
    · omega
    · have : min n (st.allItems.length - i * n) ≤ n := min_le_left _ _
      exact_mod_cast this
  · intro p hp1 hp2 entry hentry
    obtain ⟨i, hi⟩ : ∃ i : Nat, p = (i : Int) + 1 := ⟨(p - 1).toNat, by omega⟩
    subst hi
    obtain ⟨hstart, hpage⟩ := getCurrentPageItems_goToPage st n i hipp hp2
    unfold getCurrentPageItemsWithIndices at hentry
    have hslice : slice (goToPage st ((i : Int) + 1)).1.allItems
        (startIdx (goToPage st ((i : Int) + 1)).1) (endIdx (goToPage st ((i : Int) + 1)).1)
        = (st.allItems.drop (i * n)).take n := hpage
    rw [hslice, hstart, List.mem_map] at hentry
    obtain ⟨⟨j, item⟩, hmem, hentry⟩ := hentry
    rw [List.mk_mem_enum_iff_getElem?] at hmem
    subst hentry
    simp only
    refine ⟨by omega, ?_⟩
    have hj : j < n := by
      by_contra hge
      rw [List.getElem?_take] at hmem
      rw [if_neg hge] at hmem
      cases hmem
    rw [List.getElem?_take_of_lt hj, List.getElem?_drop] at hmem
    have e : (((i * n : Nat) : Int) + (j : Int)).toNat = i * n + j := by omega
    rw [e]
    exact hmem

/-- C29: the pages partition the item list. For an integer itemsPerPage ≥ 1 and a controller
that holds items (after any calls of its methods), going through the pages 1..totalPages and
joining what `getCurrentPageItems()` returns gives `allItems` in order; every page has between
1 and itemsPerPage items; and every `{item, globalIndex}` that
`getCurrentPageItemsWithIndices()` returns has `allItems[globalIndex] = item`. -/
theorem pages_partition {α : Type} (itemsPerPage : Int) (h : 1 ≤ itemsPerPage)
    (ops : List (Op α)) (hne : (run itemsPerPage ops).allItems ≠ []) :
    (List.range (run itemsPerPage ops).totalPages.toNat).flatMap
      (fun i => getCurrentPageItems (goToPage (run itemsPerPage ops) ((i : Int) + 1)).1)
      = (run itemsPerPage ops).allItems ∧
    (∀ p : Int, 1 ≤ p → p ≤ (run itemsPerPage ops).totalPages →
      1 ≤ (getCurrentPageItems (goToPage (run itemsPerPage ops) p).1).length ∧
      ((getCurrentPageItems (goToPage (run itemsPerPage ops) p).1).length : Int)
        ≤ itemsPerPage) ∧
    (∀ p : Int, 1 ≤ p → p ≤ (run itemsPerPage ops).totalPages →
      ∀ entry ∈ getCurrentPageItemsWithIndices (goToPage (run itemsPerPage ops) p).1,
        0 ≤ entry.2 ∧ (run itemsPerPage ops).allItems[entry.2.toNat]? = some entry.1) :=
  pages_of_inv itemsPerPage h _ (inv_run itemsPerPage h ops) hne

theorem pages_partition_witness :
    (List.range (run 2 [.setItems [10, 11, 12], .addItem 13, .addItem 14] :
        State Nat).totalPages.toNat).flatMap
      (fun i => getCurrentPageItems
        (goToPage (run 2 [.setItems [10, 11, 12], .addItem 13, .addItem 14] : State Nat)
          ((i : Int) + 1)).1)
      = (run 2 [.setItems [10, 11, 12], .addItem 13, .addItem 14] : State Nat).allItems ∧
    (∀ p : Int, 1 ≤ p →
      p ≤ (run 2 [.setItems [10, 11, 12], .addItem 13, .addItem 14] : State Nat).totalPages →
      1 ≤ (getCurrentPageItems
        (goToPage (run 2 [.setItems [10, 11, 12], .addItem 13, .addItem 14] : State Nat)
          p).1).length ∧
      ((getCurrentPageItems
        (goToPage (run 2 [.setItems [10, 11, 12], .addItem 13, .addItem 14] : State Nat)
          p).1).length : Int) ≤ 2) ∧
    (∀ p : Int, 1 ≤ p →
      p ≤ (run 2 [.setItems [10, 11, 12], .addItem 13, .addItem 14] : State Nat).totalPages →
      ∀ entry ∈ getCurrentPageItemsWithIndices
        (goToPage (run 2 [.setItems [10, 11, 12], .addItem 13, .addItem 14] : State Nat) p).1,
        0 ≤ entry.2 ∧
        (run 2 [.setItems [10, 11, 12], .addItem 13, .addItem 14] :
          State Nat).allItems[entry.2.toNat]? = some entry.1) :=
  pages_partition 2 (by decide) _ (by decide)

/-- The pages of the controller with 2 items per page that holds 10, 11, 12, 13, 14. -/
theorem pages_example :
    (run 2 [.setItems [10, 11, 12], .addItem 13, .addItem 14] : State Nat).totalPages = 3 ∧
    getCurrentPageItemsWithIndices
      (goToPage (run 2 [.setItems [10, 11, 12], .addItem 13, .addItem 14] : State Nat) 3).1
      = [(14, 4)] ∧
    getCurrentPageItemsWithIndices
      (goToPage (run 2 [.setItems [10, 11, 12], .addItem 13, .addItem 14] : State Nat) 2).1
      = [(12, 2), (13, 3)] := by
  decide

end PaginationController

namespace PrimeServerAPI
open Js PrimeClient

/-- A line on which `JSON.parse` throws, or whose `prime` field `BigInt` refuses, makes no call
of `onPrimeFound`: whatever is thrown is caught, and a line of another type reports nothing. -/
theorem processLine_malformed (pf : Platform) (bad : List Char)
    (hbad : pf.jsonParse bad = none ∨
      ∃ data, pf.jsonParse bad = some data ∧
        toBigInt pf ((data.get "prime".toList).getD none) = none) :
    processLine pf bad = none := by
  have hbody : lineBody pf bad = .ok none ∨ ∃ thrown, lineBody pf bad = .error thrown := by
    rcases hbad with hnone | ⟨data, hsome, hbig⟩
    · exact Or.inr ⟨.syntaxError, by rw [lineBody, hnone]⟩
    · rw [lineBody, hsome]
      simp only
      cases hget : data.get "type".toList with
      | none => exact Or.inr ⟨.typeError, rfl⟩
      | some type =>
        simp only
        by_cases h1 : isString type "prime".toList = true
        · rw [if_pos h1, hbig]
          exact Or.inr ⟨.bigIntError, rfl⟩
        · rw [if_neg h1]
          by_cases h2 : isString type "error".toList = true
          · rw [if_pos h2]
            exact Or.inr ⟨_, rfl⟩
          · rw [if_neg h2]
            exact Or.inl rfl
  unfold processLine
  split
  · rfl
  · rcases hbody with h | ⟨thrown, h⟩ <;> rw [h]

/-- C23 (as stated) fails: the line whose `prime` field is the string 0x1f, which is not a
decimal integer, is read by `BigInt` as 31, so the stream with that line inserted makes a call
`onPrimeFound(31n)` that the stream without it does not make. -/
theorem hex_prime_line_counterexample :
    readNumber 10 "0x1f".toList = none ∧
    stringToBigInt "0x1f".toList = some 31 ∧
    generatePrimesProgressive
      (tablePlatform [(jsonStringify (.prime "0x1f".toList),
        (Message.prime "0x1f".toList).toJson)])
      (.response true 200 [] none) = ⟨[], .ok ()⟩ ∧
    generatePrimesProgressive
      (tablePlatform [(jsonStringify (.prime "0x1f".toList),
        (Message.prime "0x1f".toList).toJson)])
      (.response true 200 [Server.line (.prime "0x1f".toList)] none) = ⟨[31], .ok ()⟩ := by
  decide

/-- C23 (amended): the parser discards the frames it cannot read and keeps reading. For every
stream of lines and every line on which `JSON.parse` throws, or whose `prime` field `BigInt`
refuses, inserted at any line position, and for every way of cutting either text into read
chunks, the call does exactly what it does on the stream without that line: the same calls of
`onPrimeFound` in the same order and the same outcome. -/
theorem malformed_line_discarded (pf : Platform) (before after : List (List Char))
    (bad : List Char) (ok : Bool) (status : Nat) (readFailure : Option (List Char))
    (chunks chunksWith : List (List Char))
    (hlines : ∀ l ∈ before ++ after, '\n' ∉ l) (hline : '\n' ∉ bad)
    (hbad : pf.jsonParse bad = none ∨
      ∃ data, pf.jsonParse bad = some data ∧
        toBigInt pf ((data.get "prime".toList).getD none) = none)
    (hchunks : chunks.flatten = ((before ++ after).map (fun l => l ++ ['\n'])).flatten)
    (hchunksWith : chunksWith.flatten
      = ((before ++ bad :: after).map (fun l => l ++ ['\n'])).flatten) :
    generatePrimesProgressive pf (.response ok status chunksWith readFailure)
      = generatePrimesProgressive pf (.response ok status chunks readFailure) := by
  have hwith := foldl_readChunk_lines pf (before ++ bad :: after)
    (fun l hl => by
      rw [List.mem_append, List.mem_cons] at hl
      rcases hl with hl | hl | hl
      · exact hlines l (List.mem_append_left _ hl)
      · rw [hl]; exact hline
      · exact hlines l (List.mem_append_right _ hl))
    chunksWith hchunksWith
  have hwithout := foldl_readChunk_lines pf (before ++ after) hlines chunks hchunks
  have hsame : (before ++ bad :: after).filterMap (processLine pf)
      = (before ++ after).filterMap (processLine pf) := by
    rw [List.filterMap_append, List.filterMap_cons, processLine_malformed pf bad hbad,
      List.filterMap_append]
  unfold generatePrimesProgressive
  simp only [hwith, hwithout, hsame]

theorem malformed_line_discarded_witness :
    generatePrimesProgressive
      (tablePlatform [(jsonStringify (.prime "7".toList), (Message.prime "7".toList).toJson)])
      (.response true 200 ["oops\n".toList, Server.line (.prime "7".toList)] none)
      = generatePrimesProgressive
        (tablePlatform [(jsonStringify (.prime "7".toList), (Message.prime "7".toList).toJson)])
        (.response true 200 [Server.line (.prime "7".toList)] none) :=
  malformed_line_discarded
    (tablePlatform [(jsonStringify (.prime "7".toList), (Message.prime "7".toList).toJson)])
    [] [jsonStringify (.prime "7".toList)] "oops".toList true 200 none
    [Server.line (.prime "7".toList)] ["oops\n".toList, Server.line (.prime "7".toList)]
    (by decide) (by decide) (Or.inl rfl) (by decide) (by decide)

end PrimeServerAPI

namespace PrimeCore

theorem randomRounds_pos_le (fuel : Nat) (src : ByteSource) (N d s : Int) :
    ∀ (rounds pos : Nat) (b : Bool) (pos1 : Nat),
      randomRounds fuel src N d s rounds pos = .ok (b, pos1) →
      pos ≤ pos1 ∧ (1 ≤ rounds → pos < pos1) := by
  intro rounds
  induction rounds with
  | zero =>
    intro pos b pos1 h
    simp only [randomRounds, Except.ok.injEq, Prod.mk.injEq] at h
    exact ⟨by omega, fun h1 => absurd h1 (by omega)⟩
  | succ r ih =>
    intro pos b pos1 h
    rw [randomRounds] at h
    cases hr : randomBigIntInRange fuel src pos 2 (N - 2) with
    | error e => rw [hr] at h; cases h
    | ok res =>
      obtain ⟨a, p1⟩ := res
      rw [hr] at h
      simp only at h
      obtain ⟨k, _, _, _, _, hp1⟩ := randomBigIntInRange_ok src pos 2 (N - 2) fuel a p1 hr
      have hb := byteLength_pos (N - 2 - 2)
      have hstep : pos + 1 ≤ p1 := by
        rw [hp1]
        have : 1 * 1 ≤ (k + 1) * byteLength (N - 2 - 2) := Nat.mul_le_mul (by omega) hb
        omega
      cases hw : witnessRefutes fuel N d s a with
      | error e => rw [hw] at h; cases h
      | ok c =>
        rw [hw] at h
        cases c with
        | true =>
          simp only [Except.ok.injEq, Prod.mk.injEq] at h
          exact ⟨by omega, fun _ => by omega⟩
        | false =>
          have := (ih p1 b pos1 h).1
          exact ⟨by omega, fun _ => by omega⟩

theorem fixedRounds_mono_le (fuel fuel1 : Nat) (hle : fuel ≤ fuel1) (N d s : Int) :
    ∀ (bases : List Int) (b : Bool), fixedRounds fuel N d s bases = .ok b →
      fixedRounds fuel1 N d s bases = .ok b := by
  intro bases
  induction bases with
  | nil => intro b h; exact h
  | cons a rest ih =>
    intro b h
    rw [fixedRounds] at h ⊢
    cases hw : witnessRefutes fuel N d s a with
    | error e => rw [hw] at h; cases h
    | ok c =>
      rw [hw] at h
      rw [witnessRefutes_mono_le fuel fuel1 hle N d s a c hw]
      cases c with
      | true => exact h
      | false => exact ih b h

/-- A number that the fixed bases refute at one fuel and one byte source is answered false,
with no byte consumed, by every call that returns, and every call with at least that fuel
returns. -/
theorem millerRabin_refuted (F : Nat) (src0 : ByteSource) (pos0 : Nat) (N : Int)
    (hcheck : millerRabin F src0 pos0 N = .ok (false, pos0)) (fuel : Nat) (src : ByteSource)
    (pos : Nat) :
    (∀ (r : Bool) (pos1 : Nat), millerRabin fuel src pos N = .ok (r, pos1) →
      r = false ∧ pos1 = pos) ∧
    (F ≤ fuel → millerRabin fuel src pos N = .ok (false, pos)) := by
  unfold millerRabin at hcheck
  cases hfac : factorLoop F (N - 1) 0 with
  | error e => rw [hfac] at hcheck; cases hcheck
  | ok res =>
    obtain ⟨d, s⟩ := res
    rw [hfac] at hcheck
    simp only at hcheck
    cases hfix : fixedRounds F N d s fixedBases with
    | error e => rw [hfix] at hcheck; cases hcheck
    | ok b =>
      rw [hfix] at hcheck
      cases b with
      | true =>
        have := (randomRounds_pos_le F src0 N d s 20 pos0 false pos0 hcheck).2 (by norm_num)
        omega
      | false =>
        have hbig : ∀ fuel1, F ≤ fuel1 → millerRabin fuel1 src pos N = .ok (false, pos) := by
          intro fuel1 hle
          unfold millerRabin
          rw [factorLoop_mono_le F fuel1 hle _ _ _ hfac]
          simp only
          rw [fixedRounds_mono_le F fuel1 hle N d s fixedBases false hfix]
        refine ⟨?_, hbig fuel⟩
        intro r pos1 h
        rcases Nat.le_total F fuel with hle | hle
        · rw [hbig fuel hle] at h
          simp only [Except.ok.injEq, Prod.mk.injEq] at h
          exact ⟨h.1.symm, h.2.symm⟩
        · unfold millerRabin at h
          cases hfac1 : factorLoop fuel (N - 1) 0 with
          | error e => rw [hfac1] at h; cases h
          | ok res1 =>
            obtain ⟨d1, s1⟩ := res1
            have hsame := factorLoop_mono_le fuel F hle _ _ _ hfac1
            rw [hfac] at hsame
            simp only [Except.ok.injEq, Prod.mk.injEq] at hsame
            obtain ⟨hd, hs⟩ := hsame
            subst hd hs
            rw [hfac1] at h
            simp only at h
            cases hfix1 : fixedRounds fuel N d s fixedBases with
            | error e => rw [hfix1] at h; cases h
            | ok b1 =>
              have hb1 := fixedRounds_mono_le fuel F hle N d s fixedBases b1 hfix1
              rw [hfix] at hb1
              simp only [Except.ok.injEq] at hb1
              subst hb1
              rw [hfix1] at h
              simp only [Except.ok.injEq, Prod.mk.injEq] at h
              exact ⟨h.1.symm, h.2.symm⟩

set_option maxRecDepth 1000000 in
set_option maxHeartbeats 4000000 in
/-- Every n < 1000 that reaches the loops of `isPrime` and has a divisor m with 2 ≤ m < 32 and
m < n is refuted by the fixed bases (checked by running the code on each of them). -/
theorem millerRabin_small_composites : ∀ n : Nat, n < 1000 →
    (¬ ((n : Int) < 2 ∨ Int.tmod (Int.tmod (n : Int) 6) 4 ≠ 1) ∧
    (∃ m : Nat, m < 32 ∧ 2 ≤ m ∧ m < n ∧ n % m = 0)) →
    millerRabin 12 (fun _ => 0) 0 (n : Int) = .ok (false, 0) := by
  decide

theorem prime_iff_no_small_divisor (n : Nat) (h2 : 2 ≤ n) (hn : n < 1000) :
    n.Prime ↔ ¬ ∃ m : Nat, m < 32 ∧ 2 ≤ m ∧ m < n ∧ n % m = 0 := by
  constructor
  · rintro hp ⟨m, _, hm2, hmn, hmod⟩
    rcases (Nat.dvd_prime hp).mp (Nat.dvd_of_mod_eq_zero hmod) with h | h <;> omega
  · intro hno
    rw [Nat.prime_def_le_sqrt]
    refine ⟨h2, ?_⟩
    intro m hm2 hmsq hdvd
    have hsq : m * m ≤ n := Nat.le_sqrt.mp hmsq
    have hm32 : m < 32 := by
      by_contra hge
      have : 32 * 32 ≤ m * m := Nat.mul_le_mul (by omega) (by omega)
      omega
    have hmn : m < n := by
      have : m * 2 ≤ m * m := Nat.mul_le_mul_left m hm2
      omega
    exact hno ⟨m, hm32, hm2, hmn, Nat.mod_eq_zero_of_dvd hdvd⟩

end PrimeCore

namespace PrimeCore

/-- Whatever a run reports, complete or not, is what some state at the test of the outer loop
has reported. -/
theorem generateLoop_reported (fuel : Nat) (src : ByteSource) (digitLength count : Int)
    (pos : Nat) : ∀ (loopFuel : Nat) (st : SearchState),
      Reaches fuel src digitLength count pos st →
      ∃ st1 : SearchState, Reaches fuel src digitLength count pos st1 ∧
        (generateLoop fuel src digitLength count loopFuel st).reported = st1.reported := by
  intro loopFuel
  induction loopFuel with
  | zero => intro st hst; exact ⟨st, hst, rfl⟩
  | succ lf ih =>
    intro st hst
    by_cases hlt : st.foundCount < count
    · cases hs : searchLoop fuel src digitLength (maxAttempts digitLength) st.primesSet fuel 0
          st.pos with
      | error e =>
        rw [generateLoop_failed fuel src digitLength count lf st e hlt hs]
        exact ⟨st, hst, rfl⟩
      | ok res =>
        obtain ⟨c, p1⟩ := res
        rw [generateLoop_found fuel src digitLength count lf st c p1 hlt hs]
        exact ih _ (Reaches.step hst hlt hs)
    · rw [generateLoop_done fuel src digitLength count lf st hlt]
      exact ⟨st, hst, rfl⟩

/-- With count ≤ 0 the outer loop is not entered and nothing is reported. -/
theorem generatePrimesProgressive_nonpos (fuel : Nat) (src : ByteSource) (pos : Nat)
    (digitLength count : Int) (hc : count ≤ 0) :
    (generatePrimesProgressive fuel src pos digitLength count).reported = [] := by
  unfold generatePrimesProgressive
  cases fuel with
  | zero => rfl
  | succ f => rw [generateLoop_done _ _ _ _ _ _ (by simp only; omega)]

/-- What a run reports was accepted by `isPrime` in the run and has `digitLength` digits. -/
theorem reported_accepted (fuel : Nat) (src : ByteSource) (pos : Nat) (digitLength count : Int)
    (hd : 1 ≤ digitLength) :
    (generatePrimesProgressive fuel src pos digitLength count).reported.Nodup ∧
    ∀ p ∈ (generatePrimesProgressive fuel src pos digitLength count).reported,
      p % 2 = 1 ∧ 10 ^ (digitLength - 1).toNat ≤ p ∧ p ≤ 10 ^ digitLength.toNat - 1 ∧
      ∃ (posA posB : Nat), isPrime fuel src posA p = .ok (true, posB) := by
  rcases le_or_lt count 0 with hc | hc
  · rw [generatePrimesProgressive_nonpos fuel src pos digitLength count hc]
    exact ⟨List.nodup_nil, fun p hp => by cases hp⟩
  · obtain ⟨st1, hreach, hrep⟩ :=
      generateLoop_reported fuel src digitLength count pos fuel _ Reaches.start
    obtain ⟨_, _, _, hnodup, hall⟩ :=
      reaches_invariant fuel src digitLength count pos hd (by omega) st1 hreach
    unfold generatePrimesProgressive
    rw [hrep]
    exact ⟨hnodup, hall⟩

/-- Below 1000 every call of `isPrime` that returns answers whether its argument is prime. -/
theorem isPrime_small_ok (fuel : Nat) (src : ByteSource) (pos : Nat) (m : Nat) (hm : m < 1000)
    (r : Bool) (pos1 : Nat) (h : isPrime fuel src pos (m : Int) = .ok (r, pos1)) :
    r = true ↔ m.Prime := by
  by_cases hp : m.Prime
  · exact ⟨fun _ => hp, fun _ => isPrime_prime_ok m hp fuel src pos r pos1 h⟩
  · refine ⟨fun hr => ?_, fun hq => absurd hq hp⟩
    exfalso
    subst hr
    by_cases hf : (m : Int) < 2 ∨ Int.tmod (Int.tmod (m : Int) 6) 4 ≠ 1
    · rw [isPrime_fast fuel src pos _ hf] at h
      simp only [Except.ok.injEq, Prod.mk.injEq, decide_eq_true_eq] at h
      rcases h.1 with h2 | h3
      · have : m = 2 := by exact_mod_cast h2
        subst this
        exact hp (by decide)
      · have : m = 3 := by exact_mod_cast h3
        subst this
        exact hp (by decide)
    · have h5 := slow_path_ge_five (m : Int) hf
      have hdiv : ∃ k : Nat, k < 32 ∧ 2 ≤ k ∧ k < m ∧ m % k = 0 := by
        by_contra hno
        exact hp ((prime_iff_no_small_divisor m (by omega) hm).mpr hno)
      have hcheck := millerRabin_small_composites m hm ⟨hf, hdiv⟩
      rw [isPrime_slow fuel src pos _ hf] at h
      have := ((millerRabin_refuted 12 _ 0 (m : Int) hcheck fuel src pos).1 true pos1 h).1
      cases this

/-- Below 1000 a call of `isPrime` on a number that is not prime returns false, with no byte
consumed, once the fuel is 12. -/
theorem isPrime_small_not_prime (fuel : Nat) (src : ByteSource) (pos : Nat) (m : Nat)
    (hm : m < 1000) (hp : ¬ m.Prime) (hfuel : 12 ≤ fuel) :
    isPrime fuel src pos (m : Int) = .ok (false, pos) := by
  by_cases hf : (m : Int) < 2 ∨ Int.tmod (Int.tmod (m : Int) 6) 4 ≠ 1
  · rw [isPrime_fast fuel src pos _ hf]
    have hne : ¬ ((m : Int) = 2 ∨ (m : Int) = 3) := by
      rintro (h2 | h3)
      · have : m = 2 := by exact_mod_cast h2
        subst this
        exact hp (by decide)
      · have : m = 3 := by exact_mod_cast h3
        subst this
        exact hp (by decide)
    simp [hne]
  · have h5 := slow_path_ge_five (m : Int) hf
    have hdiv : ∃ k : Nat, k < 32 ∧ 2 ≤ k ∧ k < m ∧ m % k = 0 := by
      by_contra hno
      exact hp ((prime_iff_no_small_divisor m (by omega) hm).mpr hno)
    have hcheck := millerRabin_small_composites m hm ⟨hf, hdiv⟩
    rw [isPrime_slow fuel src pos _ hf]
    exact (millerRabin_refuted 12 _ 0 (m : Int) hcheck fuel src pos).2 hfuel

/-- C27: for small inputs `isPrime` is exact, whatever the random bases. For every integer n
with 0 ≤ n ≤ 999, every byte source and every fuel, a call `isPrime(n)` that returns answers
true exactly when n is prime; when n is not prime it returns false for every fuel from 12 on;
when n is prime it returns true for all fuel from some bound on, provided the byte source lets
the sampling of the bases finish. So every value that the generator reports for 1 to 3 digits
is a prime. -/
theorem isPrime_exact_small (fuel : Nat) (src : ByteSource) (pos : Nat) (n : Int)
    (h0 : 0 ≤ n) (h999 : n ≤ 999) :
    (∀ (r : Bool) (pos1 : Nat), isPrime fuel src pos n = .ok (r, pos1) →
      (r = true ↔ n.toNat.Prime)) ∧
    (¬ n.toNat.Prime → 12 ≤ fuel → isPrime fuel src pos n = .ok (false, pos)) ∧
    (n.toNat.Prime → (5 ≤ n → Productive src (byteLength (n - 2 - 2)) (n - 2 - 2)) →
      ∃ (F pos1 : Nat), ∀ fuel1 : Nat, F ≤ fuel1 → isPrime fuel1 src pos n = .ok (true, pos1)) ∧
    (∀ digitLength count : Int, 1 ≤ digitLength → digitLength ≤ 3 →
      ∀ p ∈ (generatePrimesProgressive fuel src pos digitLength count).reported,
        p.toNat.Prime) := by
  lift n to ℕ using h0 with m
  have hm : m < 1000 := by omega
  rw [Int.toNat_ofNat]
  refine ⟨fun r pos1 h => isPrime_small_ok fuel src pos m hm r pos1 h,
    fun hp hfuel => isPrime_small_not_prime fuel src pos m hm hp hfuel,
    fun hp hprod => isPrime_prime m hp src pos (fun h5 => hprod (by exact_mod_cast h5)), ?_⟩
  intro digitLength count hd1 hd3 p hp
  obtain ⟨_, hall⟩ := reported_accepted fuel src pos digitLength count hd1
  obtain ⟨_, hlo, hhi, posA, posB, hacc⟩ := hall p hp
  have hpow : (10 : Int) ^ digitLength.toNat - 1 ≤ 999 := by
    have hcases : digitLength = 1 ∨ digitLength = 2 ∨ digitLength = 3 := by omega
    rcases hcases with h | h | h <;> subst h <;> decide
  have hp0 : 0 ≤ p := le_trans (by positivity) hlo
  lift p to ℕ using hp0 with q
  rw [Int.toNat_ofNat]
  exact (isPrime_small_ok fuel src posA q (by omega) true posB hacc).mp rfl

theorem isPrime_exact_small_witness :
    (∀ (r : Bool) (pos1 : Nat), isPrime 12 (fun _ => 0) 0 91 = .ok (r, pos1) →
      (r = true ↔ (91 : Int).toNat.Prime)) ∧
    (¬ (91 : Int).toNat.Prime → 12 ≤ 12 → isPrime 12 (fun _ => 0) 0 91 = .ok (false, 0)) ∧
    ((91 : Int).toNat.Prime →
      ((5 : Int) ≤ 91 → Productive (fun _ => 0) (byteLength (91 - 2 - 2)) (91 - 2 - 2)) →
      ∃ (F pos1 : Nat), ∀ fuel1 : Nat, F ≤ fuel1 →
        isPrime fuel1 (fun _ => 0) 0 91 = .ok (true, pos1)) ∧
    (∀ digitLength count : Int, 1 ≤ digitLength → digitLength ≤ 3 →
      ∀ p ∈ (generatePrimesProgressive 12 (fun _ => 0) 0 digitLength count).reported,
        p.toNat.Prime) :=
  isPrime_exact_small 12 (fun _ => 0) 0 91 (by decide) (by decide)

end PrimeCore

namespace PrimeCore

/-- On a byte source that offers, from every position, an acceptable draw among the next `K`,
the sampling loop returns once the fuel is `K`. -/
theorem randomBigIntInRange_total (src : ByteSource) (min max : Int) (K : Nat)
    (h : ∀ pos : Nat, ∃ k : Nat, k < K ∧
      drawValue src (byteLength (max - min)) pos k ≤ max - min)
    (fuel : Nat) (hfuel : K ≤ fuel) (pos : Nat) :
    ∃ (v : Int) (pos1 : Nat), randomBigIntInRange fuel src pos min max = .ok (v, pos1) := by
  obtain ⟨k, hk, hdraw⟩ := h pos
  have hex : ∃ j : Nat, drawValue src (byteLength (max - min)) pos j ≤ max - min := ⟨k, hdraw⟩
  have hmin : Nat.find hex ≤ k := Nat.find_min' hex hdraw
  exact ⟨_, _, randomBigIntInRange_first src pos min max (Nat.find hex) fuel (Nat.find_spec hex)
    (fun j hj => not_le.mp (Nat.find_min hex hj)) (by omega)⟩

/-- On a prime the second `for` loop runs all its rounds whenever each sampling returns. -/
theorem randomRounds_prime_total (p q t : Nat) (hp : p.Prime) (hq : p = q * 2 ^ t + 1)
    (src : ByteSource) (f : Nat) (hfq : q < 2 ^ f) (hft : t < f + 1)
    (htotal : ∀ pos : Nat, ∃ (v : Int) (pos1 : Nat),
      randomBigIntInRange (f + 1) src pos 2 ((p : Int) - 2) = .ok (v, pos1)) :
    ∀ (rounds pos : Nat), ∃ pos1 : Nat,
      randomRounds (f + 1) src (p : Int) (q : Int) (t : Int) rounds pos = .ok (true, pos1) := by
  intro rounds
  induction rounds with
  | zero => intro pos; exact ⟨pos, rfl⟩
  | succ r ih =>
    intro pos
    obtain ⟨v, p1, hv⟩ := htotal pos
    obtain ⟨k, _, hvk, _, _, _⟩ := randomBigIntInRange_ok src pos 2 ((p : Int) - 2) (f + 1) v p1 hv
    have hnn := drawValue_nonneg src (byteLength ((p : Int) - 2 - 2)) pos k
    have hv0 : 0 ≤ v := by omega
    lift v to ℕ using hv0 with a
    obtain ⟨pos1, hrest⟩ := ih p1
    refine ⟨pos1, ?_⟩
    rw [randomRounds, hv]
    simp only
    rw [witnessRefutes_prime p q t hp hq a f hfq hft]
    exact hrest

/-- On a prime p ≥ 5 `isPrime` returns true whenever each sampling returns and the fuel
exceeds the bit length of p. -/
theorem isPrime_prime_total (p : Nat) (hp : p.Prime) (h5 : 5 ≤ p) (src : ByteSource) (f : Nat)
    (hf : p < 2 ^ f)
    (htotal : ∀ pos : Nat, ∃ (v : Int) (pos1 : Nat),
      randomBigIntInRange (f + 1) src pos 2 ((p : Int) - 2) = .ok (v, pos1))
    (pos : Nat) : ∃ pos1 : Nat, isPrime (f + 1) src pos (p : Int) = .ok (true, pos1) := by
  have hcast : (p : Int) - 1 = ((p - 1 : Nat) : Int) := by omega
  have hpow : 2 ^ f ≤ 2 ^ (f + 1) := Nat.pow_le_pow_right (by norm_num) (by omega)
  obtain ⟨d, s, hfac⟩ := factorLoop_terminates (f + 1) (p - 1) 0 (by omega) (by omega)
  obtain ⟨q, t, hd, hs, hqt, hodd⟩ := factorLoop_ok (f + 1) (p - 1) 0 d s (by omega) hfac
  have hq : p = q * 2 ^ t + 1 := by omega
  rw [zero_add] at hs
  subst hd hs
  have hq1 : 1 ≤ q := by omega
  have hpos : 1 ≤ 2 ^ t := Nat.one_le_two_pow
  have hfq : q < 2 ^ f := by
    have : q * 1 ≤ q * 2 ^ t := Nat.mul_le_mul_left q hpos
    omega
  have hft : t < f + 1 := by
    have h2 : 1 * 2 ^ t ≤ q * 2 ^ t := Nat.mul_le_mul_right _ hq1
    have h3 : 2 ^ t < 2 ^ (f + 1) := by omega
    exact (Nat.pow_lt_pow_iff_right (by norm_num)).mp h3
  obtain ⟨pos1, hrounds⟩ := randomRounds_prime_total p q t hp hq src f hfq hft htotal 20 pos
  refine ⟨pos1, ?_⟩
  rw [isPrime_slow (f + 1) src pos _ (prime_slow_path p hp h5), millerRabin, hcast, hfac]
  simp only
  rw [fixedRounds_prime p q t hp hq f hfq hft fixedBases fixedBases_nonneg]
  exact hrounds

end PrimeCore

namespace PrimeCore

theorem sampleCandidate_one_total (src : ByteSource) (K : Nat)
    (h : ∀ pos : Nat, ∃ k : Nat, k < K ∧ drawValue src 1 pos k ≤ 1)
    (fuel : Nat) (hfuel : K ≤ fuel) (pos : Nat) :
    ∃ (c : Int) (pos1 : Nat), sampleCandidate fuel src pos 1 = .ok (c, pos1) := by
  have hmin : (10 : Int) ^ ((1 : Int) - 1).toNat = 1 := by decide
  have hmax : (10 : Int) ^ (1 : Int).toNat - 1 = 9 := by decide
  have hb : byteLength ((9 : Int) - 1) = 1 := by decide
  obtain ⟨v, pos1, hv⟩ := randomBigIntInRange_total src 1 9 K
    (fun pos0 => by
      obtain ⟨k, hk, hd⟩ := h pos0
      exact ⟨k, hk, by rw [hb]; omega⟩) fuel hfuel pos
  unfold sampleCandidate generateRandomOddNumber
  rw [if_neg (by decide)]
  simp only [hmin, hmax, hv]
  exact ⟨_, _, rfl⟩

theorem isPrime_one_digit_total (src : ByteSource) (K : Nat)
    (h : ∀ pos : Nat, ∃ k : Nat, k < K ∧ drawValue src 1 pos k ≤ 1)
    (fuel : Nat) (hfuel : K ≤ fuel) (h5 : 5 ≤ fuel) (c : Int) (hodd : c % 2 = 1)
    (h1 : 1 ≤ c) (h9 : c ≤ 9) (pos : Nat) :
    ∃ (b : Bool) (pos1 : Nat), isPrime fuel src pos c = .ok (b, pos1) := by
  obtain ⟨f, rfl⟩ : ∃ f, fuel = f + 1 := ⟨fuel - 1, by omega⟩
  have hpow : 2 ^ 4 ≤ 2 ^ f := Nat.pow_le_pow_right (by norm_num) (by omega)
  have hcases : c = 1 ∨ c = 3 ∨ c = 5 ∨ c = 7 ∨ c = 9 := by omega
  rcases hcases with hc | hc | hc | hc | hc
  · subst hc
    exact ⟨_, _, isPrime_fast (f + 1) src pos 1 (Or.inl (by decide))⟩
  · subst hc
    exact ⟨_, _, isPrime_fast (f + 1) src pos 3 (Or.inr (by decide))⟩
  · subst hc
    have hb : byteLength (((5 : Nat) : Int) - 2 - 2) = 1 := by decide
    have htotal := randomBigIntInRange_total src 2 (((5 : Nat) : Int) - 2) K
      (fun pos0 => by
        obtain ⟨k, hk, hd⟩ := h pos0
        exact ⟨k, hk, by rw [hb]; norm_num; omega⟩) (f + 1) hfuel
    obtain ⟨pos1, hp⟩ :=
      isPrime_prime_total 5 (by norm_num) (by norm_num) src f (by omega) htotal pos
    exact ⟨true, pos1, hp⟩
  · subst hc
    have hb : byteLength (((7 : Nat) : Int) - 2 - 2) = 1 := by decide
    have htotal := randomBigIntInRange_total src 2 (((7 : Nat) : Int) - 2) K
      (fun pos0 => by
        obtain ⟨k, hk, hd⟩ := h pos0
        exact ⟨k, hk, by rw [hb]; norm_num; omega⟩) (f + 1) hfuel
    obtain ⟨pos1, hp⟩ :=
      isPrime_prime_total 7 (by norm_num) (by norm_num) src f (by omega) htotal pos
    exact ⟨true, pos1, hp⟩
  · subst hc
    exact ⟨_, _, isPrime_fast (f + 1) src pos 9 (Or.inr (by decide))⟩

/-- The search for one 1-digit target is not cut off by the fuel of the model: with a loop
fuel above the cap it ends in a candidate or in the attempts error. -/
theorem searchLoop_one_digit (src : ByteSource) (K : Nat)
    (h : ∀ pos : Nat, ∃ k : Nat, k < K ∧ drawValue src 1 pos k ≤ 1)
    (fuel : Nat) (hfuel : K ≤ fuel) (h5 : 5 ≤ fuel) (cap : Nat) (primesSet : List Int) :
    ∀ (loopFuel attempts pos : Nat), attempts ≤ cap → cap < loopFuel + attempts →
      searchLoop fuel src 1 cap primesSet loopFuel attempts pos ≠ .error .outOfFuel := by
  intro loopFuel
  induction loopFuel with
  | zero => intro attempts pos hle hlt; omega
  | succ lf ih =>
    intro attempts pos hle hlt
    obtain ⟨c, p1, hs⟩ := sampleCandidate_one_total src K h fuel hfuel pos
    obtain ⟨_, hodd, hlo, hhi⟩ := sampleCandidate_ok fuel src pos 1 (by decide) c p1 hs
    have hmin : (10 : Int) ^ ((1 : Int) - 1).toNat = 1 := by decide
    have hmax : (10 : Int) ^ (1 : Int).toNat - 1 = 9 := by decide
    rw [hmin] at hlo
    rw [hmax] at hhi
    rw [searchLoop, hs]
    simp only
    by_cases hcap : attempts + 1 > cap
    · rw [if_pos hcap]
      intro hc
      cases hc
    · rw [if_neg hcap]
      obtain ⟨b, p2, hp⟩ := isPrime_one_digit_total src K h fuel hfuel h5 c hodd hlo hhi p1
      have hacc : acceptsCandidate fuel src primesSet p1 c
          = .ok (b && !primesSet.contains c, p2) := by
        unfold acceptsCandidate
        rw [hp]
      rw [hacc]
      cases hb : (b && !primesSet.contains c) with
      | true =>
        intro hc
        cases hc
      | false => exact ih (attempts + 1) p2 (by omega) (by omega)

/-- A list without repeats of odd values in [1, 9] that `isPrime` accepted holds only 3, 5 and
7, so at most three values. -/
theorem one_digit_values (fuel : Nat) (src : ByteSource) (l : List Int) (hnodup : l.Nodup)
    (hall : ∀ p ∈ l, p % 2 = 1 ∧ 10 ^ ((1 : Int) - 1).toNat ≤ p ∧ p ≤ 10 ^ (1 : Int).toNat - 1 ∧
      ∃ (posA posB : Nat), isPrime fuel src posA p = .ok (true, posB)) :
    (∀ p ∈ l, p = 3 ∨ p = 5 ∨ p = 7) ∧ l.length ≤ 3 := by
  have hmin : (10 : Int) ^ ((1 : Int) - 1).toNat = 1 := by decide
  have hmax : (10 : Int) ^ (1 : Int).toNat - 1 = 9 := by decide
  have hmem : ∀ p ∈ l, p = 3 ∨ p = 5 ∨ p = 7 := by
    intro p hp
    obtain ⟨hodd, hlo, hhi, posA, posB, hacc⟩ := hall p hp
    rw [hmin] at hlo
    rw [hmax] at hhi
    have hcases : p = 1 ∨ p = 3 ∨ p = 5 ∨ p = 7 ∨ p = 9 := by omega
    rcases hcases with hc | hc | hc | hc | hc
    · subst hc
      rw [isPrime_fast fuel src posA 1 (Or.inl (by decide))] at hacc
      simp at hacc
    · exact Or.inl hc
    · exact Or.inr (Or.inl hc)
    · exact Or.inr (Or.inr hc)
    · subst hc
      rw [isPrime_fast fuel src posA 9 (Or.inr (by decide))] at hacc
      simp at hacc
  refine ⟨hmem, ?_⟩
  have hsub : l.toFinset ⊆ ({3, 5, 7} : Finset Int) := by
    intro p hp
    rw [List.mem_toFinset] at hp
    rcases hmem p hp with h | h | h <;> subst h <;> decide
  have hcard := Finset.card_le_card hsub
  rw [List.toFinset_card_of_nodup hnodup] at hcard
  exact hcard

/-- With count ≥ 4 the outer loop of a search for 1-digit primes, given enough loop fuel, ends
in the attempts error: at most three targets are found and the search for the next one is not
cut off. -/
theorem generateLoop_one_digit (src : ByteSource) (K : Nat)
    (h : ∀ pos : Nat, ∃ k : Nat, k < K ∧ drawValue src 1 pos k ≤ 1)
    (fuel : Nat) (hfuel : K ≤ fuel) (hcap : 10001 ≤ fuel) (count : Int) (hc : 4 ≤ count)
    (pos : Nat) : ∀ (loopFuel : Nat) (st : SearchState), Reaches fuel src 1 count pos st →
      4 ≤ loopFuel + st.reported.length →
      (generateLoop fuel src 1 count loopFuel st).outcome = .error .attemptsExhausted := by
  intro loopFuel
  induction loopFuel with
  | zero =>
    intro st hst hlen
    obtain ⟨_, _, _, hnodup, hall⟩ :=
      reaches_invariant fuel src 1 count pos (by decide) (by omega) st hst
    have := (one_digit_values fuel src st.reported hnodup hall).2
    omega
  | succ lf ih =>
    intro st hst hlen
    obtain ⟨_, hcount, _, hnodup, hall⟩ :=
      reaches_invariant fuel src 1 count pos (by decide) (by omega) st hst
    have hthree := (one_digit_values fuel src st.reported hnodup hall).2
    have hlt : st.foundCount < count := by omega
    cases hs : searchLoop fuel src 1 (maxAttempts 1) st.primesSet fuel 0 st.pos with
    | error e =>
      rw [generateLoop_failed fuel src 1 count lf st e hlt hs]
      have hne := searchLoop_one_digit src K h fuel hfuel (by omega) (maxAttempts 1)
        st.primesSet fuel 0 st.pos (Nat.zero_le _)
        (by have : maxAttempts 1 = 10000 := by decide
            omega)
      rcases searchLoop_error fuel src 1 (by decide) _ _ _ _ _ e hs with he | he
      · rw [he]
      · rw [he] at hs
        exact absurd hs hne
    | ok res =>
      obtain ⟨c, p1⟩ := res
      rw [generateLoop_found fuel src 1 count lf st c p1 hlt hs]
      apply ih _ (Reaches.step hst hlt hs)
      simp only [SearchState.accept, List.length_append, List.length_singleton]
      omega

/-- C26: with digitLength = 1 the generator can only ever report 3, 5 and 7. Every value
passed to `onPrimeFound` by `generatePrimesProgressive(1, count, …)` is 3, 5 or 7 (2 is never
produced), at most three values are reported, and for count ≥ 4 the call never completes
normally: the only error it throws is the attempts error, and it does throw it once the fuel
exceeds the cap of 10000 attempts and the bound within which the byte source offers an
acceptable draw to each sampling loop. -/
theorem one_digit_generator (fuel : Nat) (src : ByteSource) (pos : Nat) (count : Int) :
    (∀ p ∈ (generatePrimesProgressive fuel src pos 1 count).reported,
      p = 3 ∨ p = 5 ∨ p = 7) ∧
    (generatePrimesProgressive fuel src pos 1 count).reported.length ≤ 3 ∧
    (4 ≤ count →
      (∀ pos1 : Nat, (generatePrimesProgressive fuel src pos 1 count).outcome ≠ .ok pos1) ∧
      (∀ e : Err, (generatePrimesProgressive fuel src pos 1 count).outcome = .error e →
        e = .attemptsExhausted ∨ e = .outOfFuel) ∧
      (∀ K : Nat, (∀ pos0 : Nat, ∃ k : Nat, k < K ∧ drawValue src 1 pos0 k ≤ 1) →
        K ≤ fuel → 10001 ≤ fuel →
        (generatePrimesProgressive fuel src pos 1 count).outcome
          = .error .attemptsExhausted)) := by
  obtain ⟨hnodup, hall⟩ := reported_accepted fuel src pos 1 count (by decide)
  obtain ⟨hmem, hlen⟩ := one_digit_values fuel src _ hnodup hall
  refine ⟨hmem, hlen, fun hc => ⟨?_, ?_, ?_⟩⟩
  · intro pos1 hok
    unfold generatePrimesProgressive at hok hlen
    obtain ⟨st1, hreach, hdone, hrun⟩ :=
      generateLoop_ok_state fuel src 1 count pos fuel _ Reaches.start pos1 hok
    obtain ⟨_, hcount, _, _, _⟩ :=
      reaches_invariant fuel src 1 count pos (by decide) (by omega) st1 hreach
    rw [hrun] at hlen
    simp only at hlen
    omega
  · intro e he
    exact generateLoop_error fuel src 1 count (by decide) fuel _ e he
  · intro K hK hfuel hcap
    exact generateLoop_one_digit src K hK fuel hfuel hcap count hc pos fuel _ Reaches.start
      (by simp only [List.length_nil]; omega)

theorem one_digit_generator_witness :
    (generatePrimesProgressive 10001 (fun _ => 0) 0 1 4).outcome = .error .attemptsExhausted :=
  ((one_digit_generator 10001 (fun _ => 0) 0 4).2.2 (by decide)).2.2 1
    (fun pos0 => ⟨0, by decide, by rw [drawValue_zero]; decide⟩) (by decide) (by decide)

end PrimeCore
